import Mathlib

/-! # MyRope.c: a rope with cached left lengths

A shallow embedding of `src/MyRope.c`.  The C program works on a heap of
`struct node` records linked by `left`, `right` and `parent` pointers, keeps a
global `currentError`, allocates with `malloc` and leaves the process through
`errorOccurred`.  The embedding keeps all of that explicit:

* a pointer is an `Option Nat` (`none` is `NULL`), the heap a map from
  addresses to records, `malloc` hands out the address `next` and never
  reuses a freed one;
* whether an allocation succeeds is read from the schedule `oom` carried by
  the state (`true` = this request fails; an exhausted schedule = every
  further request succeeds);
* a call either returns (`Res.ret`), ends the process through
  `errorOccurred` (`Res.halt`), runs into undefined behaviour such as a
  `NULL` dereference (`Res.undef`), or exhausts the fuel that bounds the
  loops and recursions of the model (`Res.timeout`);
* a C string is the list of its characters before the terminator; `int`
  arithmetic is exact: signed overflow is undefined in C, and where a sum of
  the program can leave the range of an `int` the theorems state the bound
  `intMax` as a hypothesis; `printf` output is not modelled.
-/

namespace MyRope

/-- The C enum `ErrorCodes`. -/
inductive ErrorCodes where
  | OK | ARGS | PARAM | ALLOC | INTERNAL | NOTDOUBLE | BOUNDINGBOXARGS
  deriving DecidableEq, Repr

/-- The C `struct node`.  `data = none` stands for a buffer that holds no
readable string (a `NULL`, freed or not yet written buffer). -/
structure node where
  data : Option (List Char)
  leftLen : Int
  left : Option Nat
  right : Option Nat
  parent : Option Nat
  deriving DecidableEq, Repr

/-- The C `struct location`. -/
structure location where
  myNode : Option Nat
  myIndex : Int
  deriving DecidableEq, Repr

/-- Program state: the heap, the next fresh address, the global
`currentError` and the schedule of allocation failures. -/
structure State where
  heap : Nat → Option node
  next : Nat
  currentError : ErrorCodes
  oom : List Bool

/-- Outcome of running a C function. -/
inductive Res (α : Type) where
  | ret (v : α) (s : State) : Res α
  | halt (s : State) : Res α
  | undef : Res α
  | timeout : Res α

/-- Computations over the program state. -/
def M (α : Type) : Type := State → Res α

/-- Sequencing of computations: only a returned call continues. -/
def M.bind {α β : Type} (x : M α) (f : α → M β) : M β := fun s =>
  match x s with
  | Res.ret v s1 => f v s1
  | Res.halt s1 => Res.halt s1
  | Res.undef => Res.undef
  | Res.timeout => Res.timeout

instance : Monad M where
  pure v := fun s => Res.ret v s
  bind := M.bind

/-- Two ways a loop body can leave: `returned r` is a `return r` of the
enclosing C function, `fallthrough v` the normal loop exit. -/
inductive Flow (ρ σ : Type) where
  | returned (r : ρ) : Flow ρ σ
  | fallthrough (v : σ) : Flow ρ σ

/-! ## Primitive steps -/

/-- Reads the global `currentError`. -/
def getError : M ErrorCodes := fun s => Res.ret s.currentError s

/-- The state with the global `currentError` set to `e`. -/
def State.withError (s : State) (e : ErrorCodes) : State := { s with currentError := e }

/-- Assigns the global `currentError`. -/
def setError (e : ErrorCodes) : M Unit := fun s => Res.ret () (s.withError e)

/-- The call `errorOccurred()`: prints and exits the process. -/
def errorOccurred {α : Type} : M α := fun s => Res.halt s

/-- Undefined behaviour. -/
def undefined {α : Type} : M α := fun _ => Res.undef

/-- Fuel exhausted. -/
def outOfFuel {α : Type} : M α := fun _ => Res.timeout

/-- One allocation request (`malloc` or `realloc`): `true` when it succeeds. -/
def malloc : M Bool := fun s =>
  match s.oom with
  | [] => Res.ret true s
  | b :: rest => Res.ret (!b) { s with oom := rest }

/-- The state after one more address has been handed out. -/
def State.bump (s : State) : State := { s with next := s.next + 1 }

/-- The address handed out by a successful allocation of a node. -/
def fresh : M Nat := fun s => Res.ret s.next s.bump

/-- Dereferences a node pointer. -/
def load (p : Option Nat) : M node := fun s =>
  match p with
  | none => Res.undef
  | some a =>
    match s.heap a with
    | none => Res.undef
    | some n => Res.ret n s

/-- The state with the record at address `a` replaced by `n`. -/
def State.put (s : State) (a : Nat) (n : node) : State :=
  { s with heap := fun b => if b = a then some n else s.heap b }

/-- The state with the record at address `a` released. -/
def State.del (s : State) (a : Nat) : State :=
  { s with heap := fun b => if b = a then none else s.heap b }

/-- Writes a record at an address. -/
def store (a : Nat) (n : node) : M Unit := fun s => Res.ret () (s.put a n)

/-- Writes through a node pointer after reading the record it points to. -/
def modify (p : Option Nat) (f : node → node) : M Unit := fun s =>
  match p with
  | none => Res.undef
  | some a =>
    match s.heap a with
    | none => Res.undef
    | some n => Res.ret () (s.put a (f n))

/-- The assignment `p->data = d` (also `strcpy` into the buffer). -/
def setData (p : Option Nat) (d : Option (List Char)) : M Unit :=
  modify p (fun n => { n with data := d })

/-- The assignment `p->leftLen = v`. -/
def setLeftLen (p : Option Nat) (v : Int) : M Unit :=
  modify p (fun n => { n with leftLen := v })

/-- The assignment `p->left = q`. -/
def setLeft (p : Option Nat) (q : Option Nat) : M Unit :=
  modify p (fun n => { n with left := q })

/-- The assignment `p->right = q`. -/
def setRight (p : Option Nat) (q : Option Nat) : M Unit :=
  modify p (fun n => { n with right := q })

/-- The assignment `p->parent = q`. -/
def setParent (p : Option Nat) (q : Option Nat) : M Unit :=
  modify p (fun n => { n with parent := q })

/-- The call `free(p)` on a node record. -/
def free (p : Option Nat) : M Unit := fun s =>
  match p with
  | none => Res.ret () s
  | some a =>
    match s.heap a with
    | none => Res.undef
    | some _ => Res.ret () (s.del a)

/-- Reads a buffer as a C string (`strlen`, `strcpy` source, indexing). -/
def cstr (d : Option (List Char)) : M (List Char) := fun s =>
  match d with
  | none => Res.undef
  | some cs => Res.ret cs s

/-- The largest value of a C `int` (32 bits): `INT_MAX`. -/
def intMax : Int := 2147483647

/-- The C helper `myMin`. -/
def myMin (a b : Int) : Int := if a < b then a else b

/-! ## The functions of MyRope.c -/

/-- The C function `isEmpty`. -/
def isEmpty (r : Option Nat) : M Int := do
  if r = none then
    return 1
  else
    let n ← load r
    return (if n.left = none ∨ n.leftLen = 0 then 1 else 0)

/-- The C function `initNode`: two allocations (record and buffer).  A buffer
of size zero holds the empty string; a larger one is not readable until the
caller has copied a string into it. -/
def initNode (dataSize : Int) : M (Option Nat) := do
  let okNode ← malloc
  if okNode then
    if dataSize < 0 then
      undefined
    else
      let okData ← malloc
      if okData then
        let a ← fresh
        store a ⟨if dataSize = 0 then some [] else none, 0, none, none, none⟩
        return some a
      else
        setError ErrorCodes.ALLOC
        return none
  else
    setError ErrorCodes.ALLOC
    return none

/-- The C function `freeNode`.  The buffer is not an object of its own in
this model: the record goes with its buffer.  After a failed `realloc` in
`splitLeaf` has already freed the buffer of a leaf, `freeNode` on that leaf
frees it a second time in C; the model does not show that double free. -/
def freeNode (wher : Option Nat) : M Unit := do
  let _ ← load wher
  free wher

/-- The C function `freeAll`. -/
def freeAll : Nat → Option Nat → M Unit
  | 0, _ => outOfFuel
  | fuel + 1, wher => do
    if wher ≠ none then
      let n ← load wher
      if n.left ≠ none then
        freeAll fuel n.left
      let n2 ← load wher
      if n2.right ≠ none then
        freeAll fuel n2.right
      freeNode wher

/-- The C function `splitLeaf`. -/
def splitLeaf (leaf : Option Nat) (pos : Int) : M (Option Nat) := do
  if leaf = none ∨ pos < 0 then
    setError ErrorCodes.PARAM
    return none
  else
    let lf ← load leaf
    let d ← cstr lf.data
    let totalLen : Int := d.length
    if pos > totalLen then
      setError ErrorCodes.PARAM
      return none
    else
      let newNodeSize := totalLen - pos
      let newNode ← initNode newNodeSize
      if newNode = none then
        setError ErrorCodes.ALLOC
        return none
      else
        setData newNode (some (d.drop pos.toNat))
        let okRealloc ← malloc
        if okRealloc then
          setData leaf (some (d.take pos.toNat))
          return newNode
        else
          setData leaf none
          free newNode
          setError ErrorCodes.ALLOC
          return none

/-- The C function `countLength`. -/
def countLength : Nat → Option Nat → M Int
  | 0, _ => outOfFuel
  | fuel + 1, pnode => do
    if pnode = none then
      return 0
    else
      let n ← load pnode
      if n.left = none ∧ n.right = none then
        let d ← cstr n.data
        return d.length
      else
        let viaLeft : Int := if n.left ≠ none then n.leftLen else 0
        if n.right ≠ none then
          let r ← countLength fuel n.right
          return viaLeft + r
        else
          return viaLeft

/-- The descending loop of `split`.  Loop variables: `currentNew`,
`currentOrig`, `position`, `currentLength`. -/
def splitDescend (fuelFree : Nat) (newtree : Option Nat) :
    Nat → Option Nat → Option Nat → Int → Int →
      M (Flow (Option Nat) (Option Nat × Option Nat × Int))
  | 0, _, _, _, _ => outOfFuel
  | fuel + 1, currentNew, currentOrig, position, currentLength => do
    let co ← load currentOrig
    if co.left ≠ none ∨ co.right ≠ none then
      if position < co.leftLen then
        if co.right ≠ none then
          let newLeft ← initNode 0
          if newLeft = none then
            freeAll fuelFree newtree
            setError ErrorCodes.ALLOC
            return Flow.returned none
          else
            setRight newLeft co.right
            setParent co.right newLeft
            setParent newLeft currentNew
            setLeftLen currentNew (currentLength - co.leftLen)
            setLeft currentNew newLeft
            splitDescend fuelFree newtree fuel newLeft co.left position co.leftLen
        else
          splitDescend fuelFree newtree fuel currentNew co.left position co.leftLen
      else
        splitDescend fuelFree newtree fuel currentNew co.right
          (position - co.leftLen) (currentLength - co.leftLen)
    else
      return Flow.fallthrough (currentNew, currentOrig, position)

/-- The first ascending loop of `split`, over the original rope.  Loop
variables: `currentOrig`, `unsplit`, `splitMe`. -/
def splitAscendOrig (rope : Option Nat) : Nat → Option Nat → Int → Int → M Unit
  | 0, _, _, _ => outOfFuel
  | fuel + 1, currentOrig, unsplit, splitMe => do
    if currentOrig ≠ rope then
      let co ← load currentOrig
      let p ← load co.parent
      if p.left = currentOrig then
        setLeftLen co.parent unsplit
        if splitMe = 1 then
          setRight co.parent none
        splitAscendOrig rope fuel co.parent unsplit 1
      else
        splitAscendOrig rope fuel co.parent (unsplit + p.leftLen) 1
    else
      return ()

/-- The second ascending loop of `split`, over the new spine.  Returns the
loop variables `currentNew` and `cumLen` at the exit. -/
def splitAscendNew (newtree : Option Nat) : Nat → Option Nat → Int → M (Option Nat × Int)
  | 0, _, _ => outOfFuel
  | fuel + 1, currentNew, cumLen => do
    if currentNew ≠ newtree then
      let cn ← load currentNew
      setLeftLen currentNew (cn.leftLen + cumLen)
      splitAscendNew newtree fuel cn.parent (cn.leftLen + cumLen)
    else
      return (currentNew, cumLen)

/-- The C function `split`. -/
def split (fuel : Nat) (rope : Option Nat) (position : Int) : M (Option Nat) := do
  if rope = none ∨ position < 0 then
    setError ErrorCodes.PARAM
    return rope
  else
    let r ← load rope
    let currentLength := r.leftLen
    if position ≥ currentLength then
      setError ErrorCodes.PARAM
      return rope
    else
      let newtree ← initNode 0
      if newtree = none then
        setError ErrorCodes.ALLOC
        return rope
      else
        let flow ← splitDescend fuel newtree fuel newtree rope position currentLength
        match flow with
        | Flow.returned v => return v
        | Flow.fallthrough (currentNew, currentOrig, position) =>
          let lf ← load currentOrig
          let d ← cstr lf.data
          let origNumOfChars : Int := d.length
          let newLeft ← splitLeaf currentOrig position
          let e ← getError
          if e = ErrorCodes.OK then
            setParent newLeft currentNew
            setLeft currentNew newLeft
            setLeftLen currentNew (origNumOfChars - position)
            let lf2 ← load currentOrig
            let splitMe : Int ←
              (if lf2.parent ≠ none then do
                let p ← load lf2.parent
                pure (if p.right = currentOrig then 0 else 1)
              else pure 1)
            splitAscendOrig rope fuel currentOrig position splitMe
            let (top, cumLen) ← splitAscendNew newtree fuel currentNew 0
            let tn ← load top
            setLeftLen top (tn.leftLen + cumLen)
            return newtree
          else
            return none

/-- The C function `kthChar`; the error value is the NUL character. -/
def kthChar : Nat → Option Nat → Int → M Char
  | 0, _, _ => outOfFuel
  | fuel + 1, frm, k => do
    if frm = none ∨ k < 0 then
      setError ErrorCodes.PARAM
      return Char.ofNat 0
    else
      let n ← load frm
      if n.left = none ∧ n.right = none then
        match n.data with
        | none =>
          setError ErrorCodes.INTERNAL
          return Char.ofNat 0
        | some d =>
          if (d.length : Int) ≤ k then
            setError ErrorCodes.PARAM
            return Char.ofNat 0
          else
            return d.getD k.toNat (Char.ofNat 0)
      else if k < n.leftLen then
        kthChar fuel n.left k
      else
        kthChar fuel n.right (k - n.leftLen)

/-- The C function `gotoNode`.  The location record is allocated without a
check, so a failed allocation is a `NULL` dereference. -/
def gotoNode : Nat → Option Nat → Int → M (Option location)
  | 0, _, _ => outOfFuel
  | fuel + 1, pFrom, k => do
    if pFrom = none ∨ k < 0 then
      let e ← getError
      if e ≠ ErrorCodes.INTERNAL then
        setError ErrorCodes.PARAM
      return none
    else
      let n ← load pFrom
      if n.left = none ∧ n.right = none then
        match n.data with
        | none =>
          setError ErrorCodes.INTERNAL
          return none
        | some d =>
          if (d.length : Int) ≤ k then
            setError ErrorCodes.INTERNAL
            return none
          else
            let okLoc ← malloc
            if okLoc then
              return some ⟨pFrom, k⟩
            else
              undefined
      else if k < n.leftLen then
        gotoNode fuel n.left k
      else
        gotoNode fuel n.right (k - n.leftLen)

/-- Whether a present argument of `concat` already has a parent. -/
def hasParent (p : Option Nat) : M Bool := do
  if p = none then
    return false
  else
    let n ← load p
    return (n.parent ≠ none)

/-- The C function `concat`. -/
def concat (left right : Option Nat) (pLeftLen : Int) : M (Option Nat) := do
  let lp ← hasParent left
  let rp ← (if lp then pure true else hasParent right)
  if rp then
    setError ErrorCodes.PARAM
    return none
  else
    let n ← initNode 0
    if n ≠ none then
      setLeft n left
      setRight n right
      setLeftLen n pLeftLen
      if left ≠ none then
        setParent left n
      if right ≠ none then
        setParent right n
      return n
    else
      setError ErrorCodes.ALLOC
      return n

/-- The label `errorInInsert` of `insert`. -/
def errorInInsert {α : Type} (fuel : Nat) (newNode retval rightrope rope : Option Nat) : M α := do
  if newNode ≠ none then
    freeAll fuel newNode
  if retval ≠ none then
    freeAll fuel retval
  if rightrope ≠ none then
    freeAll fuel rightrope
  if rope ≠ none then
    freeAll fuel rope
  errorOccurred

/-- The tail of `insert` after the concatenations: the old root is freed and
a fresh root is put over `newNode`. -/
def insertFinish (fuel : Nat) (rope newNode rightrope : Option Nat)
    (dataLength origLength : Int) : M (Option Nat) := do
  if rope ≠ none then
    freeNode rope
  let retval ← initNode 0
  let e ← getError
  if e ≠ ErrorCodes.OK then
    errorInInsert fuel newNode retval rightrope rope
  else
    setLeftLen retval (dataLength + origLength)
    setLeft retval newNode
    setParent newNode retval
    return retval

/-- The C function `insert`.  The sums `rope->leftLen + 1`,
`i - 1 + dataLength` and `dataLength + origLength` are computed exactly here;
in C they are `int` sums, defined only while they stay within `intMax`, so the
theorems about a successful `insert` carry the bound
`length + dataLength ≤ intMax`. -/
def insert (fuel : Nat) (rope : Option Nat) (i : Int) (insertString : List Char) :
    M (Option Nat) := do
  if i < 1 then
    setError ErrorCodes.PARAM
    return rope
  else
    let r ← load rope
    if i > r.leftLen + 1 ∨ (insertString.length : Int) ≤ 0 then
      setError ErrorCodes.PARAM
      return rope
    else
      let dataLength : Int := insertString.length
      let origLength := r.leftLen
      let newNode ← initNode dataLength
      let e ← getError
      if e ≠ ErrorCodes.OK then
        errorInInsert fuel newNode none none rope
      else
        setData newNode (some insertString)
        let emp ← isEmpty rope
        if emp = 0 then
          if i = 1 ∨ i = r.leftLen + 1 then
            setParent r.left none
            let newNode ← (if i = 1 then concat newNode r.left dataLength
              else concat r.left newNode origLength)
            let e ← getError
            if e ≠ ErrorCodes.OK then
              errorInInsert fuel newNode none none rope
            else
              insertFinish fuel rope newNode none dataLength origLength
          else
            let rightrope ← split fuel rope (i - 1)
            let e ← getError
            if e ≠ ErrorCodes.OK then
              errorInInsert fuel newNode none rightrope rope
            else
              let r1 ← load rope
              setParent r1.left none
              let r2 ← load rope
              let newNode ← concat r2.left newNode r2.leftLen
              let e ← getError
              if e ≠ ErrorCodes.OK then
                errorInInsert fuel newNode none rightrope rope
              else
                let rr ← load rightrope
                setParent rr.left none
                let newNode ← concat newNode rr.left (i - 1 + dataLength)
                let e ← getError
                if e ≠ ErrorCodes.OK then
                  errorInInsert fuel newNode none rightrope rope
                else
                  freeNode rightrope
                  insertFinish fuel rope newNode rightrope dataLength origLength
        else
          insertFinish fuel rope newNode none dataLength origLength

/-- The label `errorInDelete` of `delete`. -/
def errorInDelete {α : Type} (fuel : Nat) (leftRope middleRope rightRope retVal rope : Option Nat) :
    M α := do
  if leftRope ≠ none then
    freeAll fuel leftRope
  if middleRope ≠ none then
    freeAll fuel middleRope
  if rightRope ≠ none then
    freeAll fuel rightRope
  if retVal ≠ none then
    freeAll fuel retVal
  if rope ≠ none then
    freeAll fuel rope
  errorOccurred

/-- The tail of `delete` once the splits are done: the result is assembled,
`middleRope` is freed. -/
def deleteFinish (fuel : Nat) (rope leftRope middleRope rightRope : Option Nat)
    (i j origLength : Int) : M (Option Nat) := do
  if i = 1 then
    if j = origLength then
      let retVal ← initNode 0
      let e ← getError
      if e ≠ ErrorCodes.OK then
        errorInDelete fuel leftRope middleRope rightRope retVal rope
      else
        freeAll fuel middleRope
        return retVal
    else
      freeAll fuel middleRope
      return rightRope
  else if j = origLength then
    freeAll fuel middleRope
    return leftRope
  else
    let lr ← load leftRope
    let rr ← load rightRope
    let totSize := lr.leftLen + rr.leftLen
    setParent lr.left none
    let rr2 ← load rightRope
    setParent rr2.left none
    let lr3 ← load leftRope
    let rr3 ← load rightRope
    let n ← concat lr3.left rr3.left lr3.leftLen
    let e ← getError
    if e ≠ ErrorCodes.OK then
      errorInDelete fuel leftRope middleRope rightRope none rope
    else
      let retVal ← initNode 0
      let e ← getError
      if e ≠ ErrorCodes.OK then
        errorInDelete fuel leftRope middleRope rightRope retVal rope
      else
        setParent n retVal
        setLeftLen retVal totSize
        setLeft retVal n
        freeNode leftRope
        freeNode rightRope
        freeAll fuel middleRope
        return retVal

/-- The C function `delete`. -/
def delete (fuel : Nat) (rope : Option Nat) (i j : Int) : M (Option Nat) := do
  let emp ← isEmpty rope
  if emp ≠ 0 then
    setError ErrorCodes.PARAM
    return rope
  else
    let r ← load rope
    let origLength := r.leftLen
    if i < 1 ∨ j > origLength ∨ j < i then
      setError ErrorCodes.PARAM
      return rope
    else if i = 1 then
      if j < origLength then
        let rightRope ← split fuel rope (j - i + 1)
        let e ← getError
        if e ≠ ErrorCodes.OK then
          errorInDelete fuel none rope rightRope none rope
        else
          deleteFinish fuel rope none rope rightRope i j origLength
      else
        deleteFinish fuel rope none rope none i j origLength
    else
      let middleRope ← split fuel rope (i - 1)
      let e ← getError
      if e ≠ ErrorCodes.OK then
        errorInDelete fuel rope middleRope none none rope
      else if j < origLength then
        let rightRope ← split fuel middleRope (j - i + 1)
        let e ← getError
        if e ≠ ErrorCodes.OK then
          errorInDelete fuel rope middleRope rightRope none rope
        else
          deleteFinish fuel rope rope middleRope rightRope i j origLength
      else
        deleteFinish fuel rope rope middleRope none i j origLength

/-- The C function `inOrderPick`.  The output buffer is threaded through: the
result is the number of characters picked and the buffer after `strncat`. -/
def inOrderPick : Nat → Option Nat → Int → List Char → M (Int × List Char)
  | 0, _, _, _ => outOfFuel
  | fuel + 1, loc, charsLeft, buffer => do
    if charsLeft < 0 then
      setError ErrorCodes.PARAM
      return (0, buffer)
    else if loc = none ∨ charsLeft = 0 then
      return (0, buffer)
    else
      let origCharsLeft := charsLeft
      let n ← load loc
      let (k1, buffer) ← inOrderPick fuel n.left charsLeft buffer
      let charsLeft := charsLeft - k1
      let n ← load loc
      if n.left = none ∧ n.right = none then
        let d ← cstr n.data
        let charsPicked := myMin charsLeft d.length
        let buffer := buffer ++ d.take charsPicked.toNat
        let charsLeft := charsLeft - charsPicked
        let (k2, buffer) ← inOrderPick fuel n.right charsLeft buffer
        return (origCharsLeft - (charsLeft - k2), buffer)
      else
        let (k2, buffer) ← inOrderPick fuel n.right charsLeft buffer
        return (origCharsLeft - (charsLeft - k2), buffer)

/-- The upward loop of `collect`.  Loop variables: `whereIAm`, `charsLeft`
and the buffer `nn`; returns `charsLeft` and `nn` at the exit. -/
def collectAscend (fuelPick : Nat) (collectRope : Option Nat) :
    Nat → Option Nat → Int → List Char → M (Int × List Char)
  | 0, _, _, _ => outOfFuel
  | fuel + 1, whereIAm, charsLeft, nn => do
    if whereIAm ≠ collectRope ∧ charsLeft > 0 then
      let w ← load whereIAm
      let p ← load w.parent
      if p.left = whereIAm then
        let (k, nn) ← inOrderPick fuelPick p.right charsLeft nn
        let e ← getError
        if e ≠ ErrorCodes.OK then
          setError ErrorCodes.INTERNAL
          errorOccurred
        else
          collectAscend fuelPick collectRope fuel w.parent (charsLeft - k) nn
      else
        collectAscend fuelPick collectRope fuel w.parent charsLeft nn
    else
      return (charsLeft, nn)

/-- The C function `collect`; `none` is the `NULL` result.  The result buffer
is allocated without a check, so a failed allocation is a write through
`NULL`.  When `currentError` is not `OK` after `gotoNode`, the label
`errorInCollect` tests the pointer `nn` before anything has been assigned to
it: undefined behaviour.  The size `j - i + 2` of the result buffer is an
`int` in C and is not computed here, so the theorems about a returning
`collect` on an unbounded range carry the bound `j - i + 2 ≤ intMax`. -/
def collect (fuel : Nat) (collectRope : Option Nat) (i j : Int) : M (Option (List Char)) := do
  if i < 1 then
    setError ErrorCodes.PARAM
    return none
  else
    let r ← load collectRope
    if j > r.leftLen ∨ j < i then
      setError ErrorCodes.PARAM
      return none
    else
      let charsLeft := j - i + 1
      let loc ← gotoNode fuel collectRope (i - 1)
      let e ← getError
      if e ≠ ErrorCodes.OK then
        undefined
      else
        match loc with
        | none => undefined
        | some lc =>
          let ln ← load lc.myNode
          let d ← cstr ln.data
          let charsPicked := myMin charsLeft ((d.length : Int) - lc.myIndex)
          let okBuf ← malloc
          if okBuf then
            let nn := (d.drop lc.myIndex.toNat).take charsPicked.toNat
            let charsLeft := charsLeft - charsPicked
            let (_, nn) ← collectAscend fuel collectRope fuel lc.myNode charsLeft nn
            return some nn
          else
            undefined

/-- Ceiling of the quotient of two positive ints, the value of
`ceil((double) a / b)` (exact at the magnitude of an `int`). -/
def ceilDiv (a b : Int) : Int := (a + b - 1) / b

/-- Search for the least `k` with `n ≤ 2 ^ k`, starting at `k`. -/
def ceilLog2From : Nat → Nat → Nat → Nat
  | 0, _, k => k
  | fuel + 1, n, k => if n ≤ 2 ^ k then k else ceilLog2From fuel n (k + 1)

/-- The least `k` with `n ≤ 2 ^ k`, the value of `ceil(log2(n))` for a
positive int `n` (exact at the magnitude of an `int`). -/
def ceilLog2 (n : Nat) : Nat := ceilLog2From n n 0

/-- The C function `rebuildNodes`.  The counter behind `lengthLeft` is
threaded through: the result is the node and the counter afterwards. -/
def rebuildNodes (fuelCollect : Nat) (rope : Option Nat) (nodeSize : Int) (levels : Int) :
    Nat → Int → Int → M (Option Nat × Int)
  | 0, _, _ => outOfFuel
  | fuel + 1, currentLevel, lengthLeft => do
    if currentLevel < levels then
      let origLengthLeft := lengthLeft
      let retval ← initNode 0
      let e ← getError
      if e ≠ ErrorCodes.OK then
        errorOccurred
      else
        let (l, lengthLeft) ←
          rebuildNodes fuelCollect rope nodeSize levels fuel (currentLevel + 1) lengthLeft
        setLeft retval l
        if l ≠ none then
          setParent l retval
        setLeftLen retval (origLengthLeft - lengthLeft)
        let (r, lengthLeft) ←
          rebuildNodes fuelCollect rope nodeSize levels fuel (currentLevel + 1) lengthLeft
        setRight retval r
        if r ≠ none then
          setParent r retval
        return (retval, lengthLeft)
    else if lengthLeft > 0 then
      let thisRound := myMin nodeSize lengthLeft
      let retval ← initNode thisRound
      let e ← getError
      if e ≠ ErrorCodes.OK then
        errorOccurred
      else
        let rp ← load rope
        let begin := rp.leftLen - lengthLeft + 1
        let c ← collect fuelCollect rope begin (begin + thisRound - 1)
        let cs ← cstr c
        setData retval (some cs)
        let e ← getError
        if e ≠ ErrorCodes.OK then
          free retval
          errorOccurred
        else
          return (retval, lengthLeft - thisRound)
    else
      return (none, lengthLeft)

/-- The C function `rebuild`. -/
def rebuild (fuel : Nat) (rope : Option Nat) (nodeSize : Int) : M (Option Nat) := do
  if rope = none then
    setError ErrorCodes.PARAM
    errorOccurred
  else
    let r ← load rope
    if r.leftLen < 0 ∨ nodeSize ≤ 0 then
      setError ErrorCodes.PARAM
      errorOccurred
    else if r.leftLen > 0 then
      let leaves := ceilDiv r.leftLen nodeSize
      let levels : Int := ceilLog2 leaves.toNat
      let retVal ← initNode 0
      let e ← getError
      if e ≠ ErrorCodes.OK then
        errorOccurred
      else
        let leftLength := r.leftLen
        setLeftLen retVal leftLength
        let (l, _) ← rebuildNodes fuel rope nodeSize levels fuel 0 leftLength
        setLeft retVal l
        setParent l retVal
        return retVal
    else
      return rope

/-! ## Trees of records and their layout in the heap -/

/-- A tree of node records as it lies in the heap: `nil` is the `NULL`
pointer, `nd a d len l r` the record at address `a` with buffer `d`, cached
`leftLen = len` and the subtrees behind `left` and `right`. -/
inductive Tree where
  | nil : Tree
  | nd (a : Nat) (d : List Char) (len : Int) (l r : Tree) : Tree
  deriving DecidableEq, Repr

namespace Tree

/-- The pointer to the tree. -/
def root : Tree → Option Nat
  | nil => none
  | nd a _ _ _ _ => some a

/-- The addresses of all records of the tree. -/
def addrs : Tree → List Nat
  | nil => []
  | nd a _ _ l r => a :: (l.addrs ++ r.addrs)

/-- The characters of the tree: the buffers of its leaves (records without
children) from left to right. -/
def content : Tree → List Char
  | nil => []
  | nd _ d _ l r => if l = nil ∧ r = nil then d else l.content ++ r.content

/-- The length invariant: the `leftLen` of every record with a child is the
number of characters of its left subtree. -/
def wf : Tree → Prop
  | nil => True
  | nd _ _ len l r => l.wf ∧ r.wf ∧ (¬ (l = nil ∧ r = nil) → len = (l.content.length : Int))

/-- Number of records on the longest downward path. -/
def height : Tree → Nat
  | nil => 0
  | nd _ _ _ l r => max l.height r.height + 1

/-- Number of records without children. -/
def leaves : Tree → Nat
  | nil => 0
  | nd _ _ _ l r => if l = nil ∧ r = nil then 1 else l.leaves + r.leaves

/-- Address of the leaf that the descent by cached lengths reaches for the
character index `pos`. -/
def leafAddr : Tree → Int → Nat
  | nil, _ => 0
  | nd a _ len l r, pos =>
    if l = nil ∧ r = nil then a
    else if pos < len then l.leafAddr pos else r.leafAddr (pos - len)

/-- Buffer of the leaf reached for the character index `pos`. -/
def leafData : Tree → Int → List Char
  | nil, _ => []
  | nd _ d len l r, pos =>
    if l = nil ∧ r = nil then d
    else if pos < len then l.leafData pos else r.leafData (pos - len)

/-- Offset inside the leaf reached for the character index `pos`. -/
def leafPos : Tree → Int → Int
  | nil, pos => pos
  | nd _ _ len l r, pos =>
    if l = nil ∧ r = nil then pos
    else if pos < len then l.leafPos pos else r.leafPos (pos - len)

/-- Number of steps of the descent for the character index `pos`. -/
def depthAt : Tree → Int → Nat
  | nil, _ => 0
  | nd _ _ len l r, pos =>
    if l = nil ∧ r = nil then 0
    else if pos < len then l.depthAt pos + 1 else r.depthAt (pos - len) + 1

/-- The right subtrees passed on the left during the descent for `pos`,
outermost first: the subtrees that `split` moves to the new rope. -/
def grafts : Tree → Int → List Tree
  | nil, _ => []
  | nd _ _ len l r, pos =>
    if l = nil ∧ r = nil then []
    else if pos < len then (if r = nil then l.grafts pos else r :: l.grafts pos)
    else r.grafts (pos - len)

/-- The addresses that `split` at `pos` must leave alone until its leaf is
split: the records on the path above the leaf and the left subtrees passed
on the right. -/
def keep : Tree → Int → List Nat
  | nil, _ => []
  | nd a _ len l r, pos =>
    if l = nil ∧ r = nil then []
    else if pos < len then a :: l.keep pos else a :: (l.addrs ++ r.keep (pos - len))

/-- The addresses of the records on the path above the leaf reached for `pos`. -/
def pathAddrs : Tree → Int → List Nat
  | nil, _ => []
  | nd a _ len l r, pos =>
    if l = nil ∧ r = nil then []
    else if pos < len then a :: l.pathAddrs pos else a :: r.pathAddrs (pos - len)

/-- The tree that `split` at `pos` leaves in the original rope: the leaf is
cut at its offset, the right subtrees passed on the left are taken off and
the cached lengths along the path are lowered. -/
def cut : Tree → Int → Tree
  | nil, _ => nil
  | nd a d len l r, pos =>
    if l = nil ∧ r = nil then nd a (d.take pos.toNat) len nil nil
    else if pos < len then nd a d pos (l.cut pos) nil
    else nd a d len l (r.cut (pos - len))

end Tree

/-- The heap `h` holds the tree `t`, whose root record has parent pointer
`par`: every record is as the tree says and every child points back to its
parent. -/
def Rep (h : Nat → Option node) : Tree → Option Nat → Prop
  | Tree.nil, _ => True
  | Tree.nd a d len l r, par =>
    h a = some ⟨some d, len, l.root, r.root, par⟩ ∧ Rep h l (some a) ∧ Rep h r (some a)

/-- `IsRope s rope l`: in state `s` the address `rope` is the root of a
well-formed rope whose root carries the tree `l` on the left.  The root has no
right child and no parent, its `leftLen` is the number of characters of `l`,
the records of the rope are pairwise distinct allocated addresses linked as
the tree says (children point back to their parents), and `l` satisfies the
length invariant. -/
structure IsRope (s : State) (rope : Nat) (l : Tree) : Prop where
  rootRec : ∃ d, s.heap rope = some ⟨some d, (l.content.length : Int), l.root, none, none⟩
  rep : Rep s.heap l (some rope)
  nodup : (rope :: l.addrs).Nodup
  bound : ∀ a ∈ rope :: l.addrs, a < s.next
  wf : l.wf

/-- The length noted in the record above a spine while `split` descends:
the length of the outermost graft, or `bl` when there is none. -/
def topLen : List Tree → Int → Int
  | [], bl => bl
  | g :: _, _ => (g.content.length : Int)

/-- The new spine of `split` before its cached lengths are corrected: one
record per grafted subtree, at consecutive addresses from `n`, each with the
graft on the right and the rest of the spine on the left; `b` hangs under the
innermost record and `bl` is the length noted for it. -/
def spineTmp : List Tree → Nat → Tree → Int → Tree
  | [], _, b, _ => b
  | g :: gs, n, b, bl => Tree.nd n [] (topLen gs bl) (spineTmp gs (n + 1) b bl) g

/-- The new spine of `split` with its final cached lengths. -/
def spineFin : List Tree → Nat → Tree → Tree
  | [], _, b => b
  | g :: gs, n, b =>
    Tree.nd n [] ((spineFin gs (n + 1) b).content.length : Int) (spineFin gs (n + 1) b) g

/-- The innermost record of the spine over `par`: where `currentNew` stands
after the descent. -/
def deepest : Nat → Nat → List Tree → Nat
  | par, _, [] => par
  | _, n, _ :: gs => deepest n (n + 1) gs

/-- The original rope between the leaf split and the first ascending loop of
`split` at `pos`: the records on the path are still as before the call, the
left subtrees passed on the right are intact, the leaf is already cut. -/
def PathRep (h : Nat → Option node) : Tree → Int → Option Nat → Prop
  | Tree.nil, _, _ => True
  | Tree.nd a d len l r, pos, par =>
    if l = Tree.nil ∧ r = Tree.nil then
      h a = some ⟨some (d.take pos.toNat), len, none, none, par⟩
    else if pos < len then
      h a = some ⟨some d, len, l.root, r.root, par⟩ ∧ PathRep h l pos (some a)
    else
      h a = some ⟨some d, len, l.root, r.root, par⟩ ∧ Rep h l (some a)
        ∧ PathRep h r (pos - len) (some a)

/-- Whether the tree is a single record without children. -/
def Tree.isLeaf : Tree → Bool
  | Tree.nil => false
  | Tree.nd _ _ _ l r => decide (l = Tree.nil ∧ r = Tree.nil)

/-- Whether the descent for `pos` makes at least one step and its last step
goes to a left child. -/
def Tree.lastLeft : Tree → Int → Bool
  | Tree.nil, _ => false
  | Tree.nd _ _ len l r, pos =>
    if l = Tree.nil ∧ r = Tree.nil then false
    else if pos < len then (if l.isLeaf then true else l.lastLeft pos)
    else r.lastLeft (pos - len)

/-- The value of `cumLen` when the second ascending loop of `split` has
passed the outermost record of a spine. -/
def cumOf : List Tree → Nat → Tree → Int
  | [], _, _ => 0
  | _ :: gs, n, b => ((spineFin gs (n + 1) b).content.length : Int)

/-- What a successful `split` at `p` of the rope rooted at `rope` with left
subtree `l` establishes, from state `s` to state `s2`: the rope at `rope` now
carries `l1`, the new rope rooted at the fresh address `s.next` carries `l2`,
the two are well-formed, hold the characters before and from `p`, share no
record, and nothing outside the old rope was touched. -/
structure SplitPost (s s2 : State) (rope : Nat) (l : Tree) (p : Int) (l1 l2 : Tree) : Prop where
  left : IsRope s2 rope l1
  right : IsRope s2 s.next l2
  leftContent : l1.content = l.content.take p.toNat
  rightContent : l2.content = l.content.drop p.toNat
  leftNe : l1 ≠ Tree.nil
  rightNe : l2 ≠ Tree.nil
  err : s2.currentError = s.currentError
  oom : s2.oom = s.oom
  next : s.next < s2.next
  leftAddrs : ∀ x ∈ l1.addrs, x ∈ l.addrs
  rightAddrs : ∀ x ∈ l2.addrs, x ∈ l.addrs ∨ s.next < x
  disjoint : ∀ x ∈ l1.addrs, x ∉ l2.addrs
  frame : ∀ x, x < s.next → x ≠ rope → x ∉ l.addrs → s2.heap x = s.heap x
  leftHeight : l1.height ≤ l.height
  rightHeight : l2.height ≤ l.height

/-- The characters of the tree to the right of the leaf reached for `pos`:
what the upward walk of `collect` can still pick inside this tree. -/
def Tree.after : Tree → Int → List Char
  | Tree.nil, _ => []
  | Tree.nd _ _ len l r, pos =>
    if l = Tree.nil ∧ r = Tree.nil then []
    else if pos < len then l.after pos ++ r.content else r.after (pos - len)

/-- The tree that `rebuildNodes` builds `d` levels above the leaf level, at
fresh addresses from `n`, from the characters `rest` that are still to be
copied; with it the next fresh address and the characters left over.  At the
leaf level a leaf takes up to `nodeSize` characters, or nothing is built when
none are left; above it a record is allocated before its two subtrees are
built, whether or not they come out empty. -/
def build (nodeSize : Nat) : Nat → Nat → List Char → Tree × Nat × List Char
  | 0, n, rest =>
    if rest = [] then (Tree.nil, n, rest)
    else (Tree.nd n (rest.take nodeSize) 0 Tree.nil Tree.nil, n + 1, rest.drop nodeSize)
  | d + 1, n, rest =>
    (Tree.nd n [] ((rest.length : Int) - ((build nodeSize d (n + 1) rest).2.2.length : Int))
        (build nodeSize d (n + 1) rest).1
        (build nodeSize d (build nodeSize d (n + 1) rest).2.1
          (build nodeSize d (n + 1) rest).2.2).1,
      (build nodeSize d (build nodeSize d (n + 1) rest).2.1
        (build nodeSize d (n + 1) rest).2.2).2.1,
      (build nodeSize d (build nodeSize d (n + 1) rest).2.1
        (build nodeSize d (n + 1) rest).2.2).2.2)

/-! ## Concrete ropes

Two small ropes on which the theorems below are instantiated. -/

/-- Heap of a rope holding `abcd` in two leaves: the root at address 0, an
inner record at 1 and the leaves `ab` at 2 and `cd` at 3. -/
def exHeap : Nat → Option node
  | 0 => some ⟨some [], 4, some 1, none, none⟩
  | 1 => some ⟨some [], 2, some 2, some 3, some 0⟩
  | 2 => some ⟨some ['a', 'b'], 0, none, none, some 1⟩
  | 3 => some ⟨some ['c', 'd'], 0, none, none, some 1⟩
  | _ => none

/-- State with the rope `abcd`, no error pending and no allocation failing. -/
def exState : State := ⟨exHeap, 4, ErrorCodes.OK, []⟩

/-- The tree under the root of the rope `abcd`. -/
def exTree : Tree :=
  Tree.nd 1 [] 2 (Tree.nd 2 ['a', 'b'] 0 Tree.nil Tree.nil)
    (Tree.nd 3 ['c', 'd'] 0 Tree.nil Tree.nil)

/-- The tree under the root of the rope `abcde`. -/
def exTree5 : Tree := Tree.nd 1 ['a', 'b', 'c', 'd', 'e'] 0 Tree.nil Tree.nil

/-- The state at the start of `main`: nothing allocated, no error. -/
def exStart : State := ⟨fun _ => none, 0, ErrorCodes.OK, []⟩

/-- The rope `abcd` of `exState` when the next allocation request fails. -/
def exStateFail : State := ⟨exHeap, 4, ErrorCodes.OK, [true]⟩

/-- Heap of a malformed rope: the root at address 0 claims five characters,
the only leaf, at address 1, holds `ab`. -/
def exHeapShort : Nat → Option node
  | 0 => some ⟨some [], 5, some 1, none, none⟩
  | 1 => some ⟨some ['a', 'b'], 0, none, none, some 0⟩
  | _ => none

/-- State with the malformed rope of `exHeapShort`. -/
def exStateShort : State := ⟨exHeapShort, 2, ErrorCodes.OK, []⟩

/-- The tree under the root of the malformed rope: the leaf `ab`. -/
def exTreeShort : Tree := Tree.nd 1 ['a', 'b'] 0 Tree.nil Tree.nil

/-- Heap of the rope `abc` with two inner records: the root at address 0,
the inner record 1 over the inner record 2 and the leaf `c` at 5, and 2 over
the leaves `a` at 3 and `b` at 4. -/
def exHeapGraft : Nat → Option node
  | 0 => some ⟨some [], 3, some 1, none, none⟩
  | 1 => some ⟨some [], 2, some 2, some 5, some 0⟩
  | 2 => some ⟨some [], 1, some 3, some 4, some 1⟩
  | 3 => some ⟨some ['a'], 0, none, none, some 2⟩
  | 4 => some ⟨some ['b'], 0, none, none, some 2⟩
  | 5 => some ⟨some ['c'], 0, none, none, some 1⟩
  | _ => none

/-- State with the rope `abc` in which the fifth allocation request fails:
the new root and the first record of the new spine of a `split` are
allocated, the second record of the spine is not. -/
def exStateGraft : State := ⟨exHeapGraft, 6, ErrorCodes.OK, [false, false, false, false, true]⟩

/-- The tree under the root of the rope `abc` of `exHeapGraft`. -/
def exTreeGraft : Tree :=
  Tree.nd 1 [] 2
    (Tree.nd 2 [] 1 (Tree.nd 3 ['a'] 0 Tree.nil Tree.nil) (Tree.nd 4 ['b'] 0 Tree.nil Tree.nil))
    (Tree.nd 5 ['c'] 0 Tree.nil Tree.nil)

/-! ## Running the model: basic facts -/

@[simp] theorem bind_apply {α β : Type} (x : M α) (f : α → M β) (s : State) :
    (x >>= f) s = match x s with
      | Res.ret v s1 => f v s1
      | Res.halt s1 => Res.halt s1
      | Res.undef => Res.undef
      | Res.timeout => Res.timeout := rfl

@[simp] theorem pure_apply {α : Type} (v : α) (s : State) : (pure v : M α) s = Res.ret v s := rfl

@[simp] theorem put_heap (s : State) (a : Nat) (n : node) (b : Nat) :
    (s.put a n).heap b = if b = a then some n else s.heap b := rfl

@[simp] theorem put_next (s : State) (a : Nat) (n : node) : (s.put a n).next = s.next := rfl

@[simp] theorem put_err (s : State) (a : Nat) (n : node) :
    (s.put a n).currentError = s.currentError := rfl

@[simp] theorem put_oom (s : State) (a : Nat) (n : node) : (s.put a n).oom = s.oom := rfl

@[simp] theorem del_heap (s : State) (a : Nat) (b : Nat) :
    (s.del a).heap b = if b = a then none else s.heap b := rfl

@[simp] theorem del_next (s : State) (a : Nat) : (s.del a).next = s.next := rfl

@[simp] theorem del_err (s : State) (a : Nat) : (s.del a).currentError = s.currentError := rfl

@[simp] theorem del_oom (s : State) (a : Nat) : (s.del a).oom = s.oom := rfl

@[simp] theorem bump_heap (s : State) : s.bump.heap = s.heap := rfl

@[simp] theorem bump_next (s : State) : s.bump.next = s.next + 1 := rfl

@[simp] theorem bump_err (s : State) : s.bump.currentError = s.currentError := rfl

@[simp] theorem bump_oom (s : State) : s.bump.oom = s.oom := rfl

@[simp] theorem withError_heap (s : State) (e : ErrorCodes) : (s.withError e).heap = s.heap := rfl

@[simp] theorem withError_next (s : State) (e : ErrorCodes) : (s.withError e).next = s.next := rfl

@[simp] theorem withError_err (s : State) (e : ErrorCodes) :
    (s.withError e).currentError = e := rfl

@[simp] theorem withError_oom (s : State) (e : ErrorCodes) : (s.withError e).oom = s.oom := rfl

theorem malloc_ok (s : State) (ho : s.oom = []) : malloc s = Res.ret true s := by
  simp [malloc, ho]

theorem load_ok {s : State} {a : Nat} {n : node} (h : s.heap a = some n) :
    load (some a) s = Res.ret n s := by
  simp [load, h]

theorem modify_ok {s : State} {a : Nat} {n : node} (f : node → node) (h : s.heap a = some n) :
    modify (some a) f s = Res.ret () (s.put a (f n)) := by
  simp [modify, h]

theorem initNode_ok (s : State) (ho : s.oom = []) (d : Int) (hd : 0 ≤ d) :
    initNode d s = Res.ret (some s.next)
      (s.bump.put s.next ⟨if d = 0 then some [] else none, 0, none, none, none⟩) := by
  have hd2 : ¬ d < 0 := by omega
  simp [initNode, malloc_ok s ho, hd2, fresh, store]

/-! ## Trees: basic facts -/

@[simp] theorem Tree.root_nil : Tree.nil.root = none := rfl

@[simp] theorem Tree.root_nd (a : Nat) (d : List Char) (len : Int) (l r : Tree) :
    (Tree.nd a d len l r).root = some a := rfl

@[simp] theorem Tree.root_eq_none {t : Tree} : t.root = none ↔ t = Tree.nil := by
  cases t <;> simp [Tree.root]

theorem Tree.root_mem_addrs {t : Tree} {a : Nat} (h : t.root = some a) : a ∈ t.addrs := by
  cases t <;> simp_all [Tree.root, Tree.addrs]

theorem Tree.mem_addrs_root (a : Nat) (d : List Char) (len : Int) (l r : Tree) :
    a ∈ (Tree.nd a d len l r).addrs := by
  simp [Tree.addrs]

theorem Tree.mem_addrs_left {b : Nat} {l : Tree} (a : Nat) (d : List Char) (len : Int)
    (r : Tree) (h : b ∈ l.addrs) : b ∈ (Tree.nd a d len l r).addrs := by
  simp [Tree.addrs, h]

theorem Tree.mem_addrs_right {b : Nat} {r : Tree} (a : Nat) (d : List Char) (len : Int)
    (l : Tree) (h : b ∈ r.addrs) : b ∈ (Tree.nd a d len l r).addrs := by
  simp [Tree.addrs, h]

theorem Tree.nodup_left {a : Nat} {d : List Char} {len : Int} {l r : Tree}
    (h : (Tree.nd a d len l r).addrs.Nodup) : l.addrs.Nodup := by
  simp only [Tree.addrs, List.nodup_cons, List.nodup_append] at h
  exact h.2.1

theorem Tree.nodup_right {a : Nat} {d : List Char} {len : Int} {l r : Tree}
    (h : (Tree.nd a d len l r).addrs.Nodup) : r.addrs.Nodup := by
  simp only [Tree.addrs, List.nodup_cons, List.nodup_append] at h
  exact h.2.2.1

theorem Tree.nodup_disjoint {a : Nat} {d : List Char} {len : Int} {l r : Tree}
    (h : (Tree.nd a d len l r).addrs.Nodup) {b : Nat} (hl : b ∈ l.addrs) (hr : b ∈ r.addrs) :
    False := by
  simp only [Tree.addrs, List.nodup_cons, List.nodup_append] at h
  exact h.2.2.2 hl hr

theorem Tree.nodup_root_left {a : Nat} {d : List Char} {len : Int} {l r : Tree}
    (h : (Tree.nd a d len l r).addrs.Nodup) : a ∉ l.addrs := by
  simp only [Tree.addrs, List.nodup_cons, List.mem_append, not_or] at h
  exact h.1.1

theorem Tree.nodup_root_right {a : Nat} {d : List Char} {len : Int} {l r : Tree}
    (h : (Tree.nd a d len l r).addrs.Nodup) : a ∉ r.addrs := by
  simp only [Tree.addrs, List.nodup_cons, List.mem_append, not_or] at h
  exact h.1.2

theorem Rep.frame {h h2 : Nat → Option node} :
    ∀ {t : Tree} {par : Option Nat}, Rep h t par → (∀ a ∈ t.addrs, h2 a = h a) → Rep h2 t par
  | Tree.nil, _, _, _ => trivial
  | Tree.nd a d len l r, par, hr, hf => by
    obtain ⟨h1, hl, hrr⟩ := hr
    refine ⟨?_, Rep.frame hl ?_, Rep.frame hrr ?_⟩
    · rw [hf a (by simp [Tree.addrs])]; exact h1
    · intro b hb; exact hf b (by simp [Tree.addrs, hb])
    · intro b hb; exact hf b (by simp [Tree.addrs, hb])

/-- Changing the parent pointer of the root record of a represented tree. -/
theorem Rep.reparent {h h2 : Nat → Option node} {a : Nat} {d : List Char} {len : Int}
    {l r : Tree} {par par2 : Option Nat} (hr : Rep h (Tree.nd a d len l r) par)
    (h2a : h2 a = some ⟨some d, len, l.root, r.root, par2⟩)
    (hf : ∀ b ∈ l.addrs ++ r.addrs, h2 b = h b) :
    Rep h2 (Tree.nd a d len l r) par2 := by
  obtain ⟨_, hl, hrr⟩ := hr
  refine ⟨h2a, Rep.frame hl ?_, Rep.frame hrr ?_⟩
  · intro b hb; exact hf b (by simp [hb])
  · intro b hb; exact hf b (by simp [hb])

theorem Rep.root_rec {h : Nat → Option node} {t : Tree} {par : Option Nat} {a : Nat}
    (hr : Rep h t par) (ha : t.root = some a) :
    ∃ n, h a = some n ∧ n.parent = par := by
  cases t with
  | nil => simp [Tree.root] at ha
  | nd b d len l r =>
    simp [Tree.root] at ha
    subst ha
    exact ⟨_, hr.1, rfl⟩

/-! ## The descent of `split` -/

theorem Tree.content_nd_of_not_leaf {a d len} {l r : Tree} (h : ¬ (l = Tree.nil ∧ r = Tree.nil)) :
    (Tree.nd a d len l r).content = l.content ++ r.content := by
  simp [Tree.content, h]

/-- Going left in a well-formed tree. -/
theorem Tree.wf_left {a d len} {l r : Tree} {pos : Int}
    (hw : (Tree.nd a d len l r).wf) (hnl : ¬ (l = Tree.nil ∧ r = Tree.nil))
    (h0 : 0 ≤ pos) (hlt : pos < len) :
    l ≠ Tree.nil ∧ pos < (l.content.length : Int) ∧ len = (l.content.length : Int) := by
  obtain ⟨_, _, hlen⟩ := hw
  have hl := hlen hnl
  refine ⟨?_, by omega, hl⟩
  rintro rfl
  simp [Tree.content] at hl
  omega

/-- Going right in a well-formed tree. -/
theorem Tree.wf_right {a d len} {l r : Tree} {pos : Int}
    (hw : (Tree.nd a d len l r).wf) (hnl : ¬ (l = Tree.nil ∧ r = Tree.nil))
    (hlt : ¬ pos < len) (hp : pos < ((Tree.nd a d len l r).content.length : Int)) :
    r ≠ Tree.nil ∧ 0 ≤ pos - len ∧ pos - len < (r.content.length : Int)
      ∧ len = (l.content.length : Int) := by
  obtain ⟨_, _, hlen⟩ := hw
  have hl := hlen hnl
  rw [Tree.content_nd_of_not_leaf hnl] at hp
  simp at hp
  refine ⟨?_, by omega, by omega, hl⟩
  rintro rfl
  simp [Tree.content] at hp
  omega

theorem Tree.grafts_sub : ∀ (t : Tree) (pos : Int) (g : Tree), g ∈ t.grafts pos →
    g ≠ Tree.nil ∧ ∀ x ∈ g.addrs, x ∈ t.addrs
  | Tree.nil, _, g, h => by simp [Tree.grafts] at h
  | Tree.nd a d len l r, pos, g, h => by
    unfold Tree.grafts at h
    split_ifs at h with h1 h2 h3
    · simp at h
    · obtain ⟨hn, hs⟩ := Tree.grafts_sub l pos g h
      exact ⟨hn, fun x hx => by simp [Tree.addrs, hs x hx]⟩
    · rcases List.mem_cons.1 h with rfl | h
      · exact ⟨h3, fun x hx => by simp [Tree.addrs, hx]⟩
      · obtain ⟨hn, hs⟩ := Tree.grafts_sub l pos g h
        exact ⟨hn, fun x hx => by simp [Tree.addrs, hs x hx]⟩
    · obtain ⟨hn, hs⟩ := Tree.grafts_sub r (pos - len) g h
      exact ⟨hn, fun x hx => by simp [Tree.addrs, hs x hx]⟩

theorem Tree.grafts_root_mem {t : Tree} {pos : Int} {g : Tree} {x : Nat}
    (h : g ∈ t.grafts pos) (hx : g.root = some x) : x ∈ t.addrs :=
  (Tree.grafts_sub t pos g h).2 x (Tree.root_mem_addrs hx)

theorem splitDescend_spec (ff : Nat) (nt : Option Nat) :
    ∀ (t : Tree) (s : State) (fuel : Nat) (cn : Nat) (dc : Option (List Char))
      (rc pc : Option Nat) (pos : Int) (par : Option Nat),
      t ≠ Tree.nil → Rep s.heap t par → t.addrs.Nodup → (∀ a ∈ t.addrs, a < s.next) → t.wf →
      0 ≤ pos → pos < (t.content.length : Int) →
      s.heap cn = some ⟨dc, 0, none, rc, pc⟩ → cn ∉ t.addrs → cn < s.next → s.oom = [] →
      ∃ s2, splitDescend ff nt (fuel + t.depthAt pos + 1) (some cn) t.root pos
            (t.content.length : Int) s
          = Res.ret (Flow.fallthrough (some (deepest cn s.next (t.grafts pos)),
              some (t.leafAddr pos), t.leafPos pos)) s2
        ∧ s2.next = s.next + (t.grafts pos).length ∧ s2.currentError = s.currentError
        ∧ s2.oom = []
        ∧ (∀ a, a < s.next → a ≠ cn → (∀ g ∈ t.grafts pos, g.root ≠ some a) →
            s2.heap a = s.heap a)
        ∧ Rep s2.heap (spineTmp (t.grafts pos) s.next Tree.nil 0) (some cn)
        ∧ s2.heap cn = some ⟨dc, topLen (t.grafts pos) 0,
            (spineTmp (t.grafts pos) s.next Tree.nil 0).root, rc, pc⟩ := by
  intro t
  induction t with
  | nil => intro s fuel cn dc rc pc pos par h; exact absurd rfl h
  | nd a d len l r ihl ihr =>
    intro s fuel cn dc rc pc pos par _ hrep hnd hb2 hw h0 hp hcn hcnt hcnlt ho
    obtain ⟨ha, hrl, hrr⟩ := hrep
    by_cases hleaf : l = Tree.nil ∧ r = Tree.nil
    · -- leaf: loop exits
      obtain ⟨rfl, rfl⟩ := hleaf
      refine ⟨s, ?_, ?_, rfl, ho, fun _ _ _ _ => rfl, ?_, ?_⟩
      · simp [splitDescend, Tree.depthAt, load_ok ha, Tree.root, Tree.grafts, deepest,
          Tree.leafAddr, Tree.leafPos]
      · simp [Tree.grafts]
      · simp [Tree.grafts, spineTmp, Rep]
      · simp [Tree.grafts, spineTmp, topLen, Tree.root, hcn]
    · have hcont := @Tree.content_nd_of_not_leaf a d len _ _ hleaf
      have hndl : l.addrs.Nodup := by
        simp [Tree.addrs, List.nodup_append] at hnd; exact hnd.2.1
      have hndr : r.addrs.Nodup := by
        simp [Tree.addrs, List.nodup_append] at hnd; exact hnd.2.2.1
      have hnotleaf : ¬ (l.root = none ∧ r.root = none) := by simpa using hleaf
      by_cases hlt : pos < len
      · -- going left
        obtain ⟨hln, hp1, hlen⟩ := Tree.wf_left hw hleaf h0 hlt
        have hor : (l.root ≠ none ∨ r.root ≠ none) := by
          left; simpa using hln
        have hfuel : fuel + (Tree.nd a d len l r).depthAt pos + 1
            = (fuel + l.depthAt pos + 1) + 1 := by
          simp [Tree.depthAt, hleaf, hlt]; omega
        by_cases hrn : r = Tree.nil
        · -- nothing to graft
          have hrroot : r.root = none := by simp [hrn]
          obtain ⟨s2, hrun, hnext, herr, hoom, hframe, hsp, hcn2⟩ :=
            ihl s fuel cn dc rc pc pos (some a) hln hrl hndl
              (fun b hb => hb2 b (by simp [Tree.addrs, hb])) hw.1 h0 hp1 hcn
              (fun hm => hcnt (by simp [Tree.addrs, hm])) hcnlt ho
          refine ⟨s2, ?_, ?_, herr, hoom, ?_, ?_, ?_⟩
          · rw [hfuel, splitDescend]
            simp only [Tree.root_nd, bind_apply, load_ok ha]
            have hlroot : l.root ≠ none := by simpa using hln
            simp only [hlroot, hrroot, hlt, ne_eq, not_false_eq_true, not_true_eq_false, or_false,
              if_true, if_false]
            rw [hlen, hrun]
            simp [Tree.grafts, Tree.leafAddr, Tree.leafPos, hln, hp1, hrn]
          · simpa [Tree.grafts, hln, hlt, hrn] using hnext
          · simpa [Tree.grafts, hln, hlt, hrn] using hframe
          · simpa [Tree.grafts, hln, hlt, hrn] using hsp
          · simpa [Tree.grafts, hln, hlt, hrn] using hcn2
        · -- the right subtree is grafted under a new spine record
          obtain ⟨ra, rd, rlen, rl, rr, rfl⟩ : ∃ ra rd rlen rl rr, r = Tree.nd ra rd rlen rl rr := by
            cases r with
            | nil => exact absurd rfl hrn
            | nd ra rd rlen rl rr => exact ⟨ra, rd, rlen, rl, rr, rfl⟩
          have hlroot : l.root ≠ none := by simpa using hln
          have hra := hrr.1
          have hra_lt : ra < s.next := hb2 ra (by simp [Tree.addrs])
          have hN_ra : ¬ s.next = ra := by omega
          have hra_N : ¬ ra = s.next := by omega
          have hcn_N : ¬ cn = s.next := by omega
          have hN_cn : ¬ s.next = cn := by omega
          have hcn_ra : ¬ cn = ra := by
            rintro rfl; exact hcnt (by simp [Tree.addrs])
          have hra_cn : ¬ ra = cn := fun h => hcn_ra h.symm
          have hcl : ((Tree.nd a d len l (Tree.nd ra rd rlen rl rr)).content.length : Int) - len
              = ((Tree.nd ra rd rlen rl rr).content.length : Int) := by
            rw [hcont]; simp; omega
          -- the state after the body of the loop
          obtain ⟨s1, hs1, hs1next, hs1err, hs1oom, hs1N, hs1cn, hs1ra, hs1other⟩ :
            ∃ s1 : State,
              (do
                let newLeft ← initNode 0
                if newLeft = none then do
                    freeAll ff nt
                    setError ErrorCodes.ALLOC
                    pure (Flow.returned none)
                  else do
                    setRight newLeft (some ra)
                    setParent (some ra) newLeft
                    setParent newLeft (some cn)
                    setLeftLen (some cn)
                      (((Tree.nd a d len l (Tree.nd ra rd rlen rl rr)).content.length : Int) - len)
                    setLeft (some cn) newLeft
                    splitDescend ff nt (fuel + l.depthAt pos + 1) newLeft l.root pos len) s
                = splitDescend ff nt (fuel + l.depthAt pos + 1) (some s.next) l.root pos len s1
              ∧ s1.next = s.next + 1 ∧ s1.currentError = s.currentError ∧ s1.oom = []
              ∧ s1.heap s.next = some ⟨some [], 0, none, some ra, some cn⟩
              ∧ s1.heap cn = some ⟨dc, ((Tree.nd ra rd rlen rl rr).content.length : Int),
                  some s.next, rc, pc⟩
              ∧ s1.heap ra = some ⟨some rd, rlen, rl.root, rr.root, some s.next⟩
              ∧ (∀ b, b ≠ s.next → b ≠ cn → b ≠ ra → s1.heap b = s.heap b) := by
            refine ⟨(((((s.bump.put s.next ⟨some [], 0, none, none, none⟩).put s.next
                ⟨some [], 0, none, some ra, none⟩).put ra
                ⟨some rd, rlen, rl.root, rr.root, some s.next⟩).put s.next
                ⟨some [], 0, none, some ra, some cn⟩).put cn
                ⟨dc, ((Tree.nd a d len l (Tree.nd ra rd rlen rl rr)).content.length : Int) - len,
                  none, rc, pc⟩).put cn
                ⟨dc, ((Tree.nd a d len l (Tree.nd ra rd rlen rl rr)).content.length : Int) - len,
                  some s.next, rc, pc⟩, ?_, ?_, ?_, ?_, ?_, ?_, ?_, ?_⟩
            · simp only [bind_apply, initNode_ok s ho 0 (le_refl 0)]
              simp [setRight, setParent, setLeftLen, setLeft, modify, hra, hN_ra, hra_N, hcn_N,
                hN_cn, hcn_ra, hra_cn, hcn]
            · simp
            · simp
            · simpa using ho
            · simp [hN_cn]
            · simp [hcl]
            · simp [hra_cn, hra_N]
            · intro b h1 h2 h3; simp [h1, h2, h3]
          have hl_lt : ∀ b ∈ l.addrs, b < s.next := fun b hb => hb2 b (by simp [Tree.addrs, hb])
          have hdisj : ∀ b ∈ l.addrs, b ∉ (Tree.nd ra rd rlen rl rr).addrs := by
            intro b hb hb3
            simp only [Tree.addrs, List.nodup_cons, List.nodup_append] at hnd
            exact hnd.2.2.2 hb hb3
          have hl_same : ∀ b ∈ l.addrs, s1.heap b = s.heap b := by
            intro b hb
            refine hs1other b (by have := hl_lt b hb; omega) ?_ ?_
            · rintro rfl; exact hcnt (by simp [Tree.addrs, hb])
            · rintro rfl; exact hdisj _ hb (by simp [Tree.addrs])
          obtain ⟨s2, hrun, hnext, herr, hoom, hframe, hsp, hcn2⟩ :=
            ihl s1 fuel s.next (some []) (some ra) (some cn) pos (some a) hln
              (Rep.frame hrl hl_same) hndl
              (fun b hb => by have := hl_lt b hb; omega) hw.1 h0 hp1 hs1N
              (fun hm => by have := hl_lt _ hm; omega) (by omega) hs1oom
          have hg_l : ∀ g ∈ l.grafts pos, ∀ x, g.root = some x → x ∈ l.addrs :=
            fun g hg x hx => Tree.grafts_root_mem hg hx
          have hgr : (Tree.nd a d len l (Tree.nd ra rd rlen rl rr)).grafts pos
              = Tree.nd ra rd rlen rl rr :: l.grafts pos := by
            simp [Tree.grafts, hleaf, hlt]
          refine ⟨s2, ?_, ?_, ?_, hoom, ?_, ?_, ?_⟩
          · rw [hfuel, splitDescend]
            simp only [Tree.root_nd, bind_apply, load_ok ha]
            simp only [hlroot, hlt, ne_eq, not_false_eq_true, true_or, reduceCtorEq,
              if_true, if_false]
            rw [hs1, hgr]
            simp only [Tree.leafAddr, Tree.leafPos, hleaf, hlt, if_true, if_false, deepest]
            rw [hlen, hrun, hs1next]
          · rw [hgr, hnext, hs1next]; simp; omega
          · rw [herr, hs1err]
          · intro b hb hbcn hbg
            rw [hgr] at hbg
            have hbra : b ≠ ra := by
              intro h; exact hbg _ (List.mem_cons_self _ _) (by simp [h])
            rw [hframe b (by omega) (by omega)
              (fun g hg => hbg g (List.mem_cons_of_mem _ hg))]
            exact hs1other b (by omega) hbcn hbra
          · rw [hgr]
            simp only [spineTmp, Rep]
            rw [hs1next] at hsp hcn2
            refine ⟨by rw [hcn2]; simp, hsp, ?_⟩
            have hr1 : Rep s1.heap (Tree.nd ra rd rlen rl rr) (some s.next) := by
              refine Rep.reparent hrr hs1ra ?_
              intro b hb
              have hbm : b ∈ (Tree.nd ra rd rlen rl rr).addrs := by
                simp only [Tree.addrs, List.mem_cons]; right; exact hb
              have hblt := hb2 b (Tree.mem_addrs_right _ _ _ _ hbm)
              refine hs1other b (by omega) ?_ ?_
              · rintro rfl
                exact hcnt (Tree.mem_addrs_right _ _ _ _ hbm)
              · rintro rfl
                simp only [Tree.addrs, List.nodup_cons] at hndr
                exact hndr.1 hb
            refine Rep.frame hr1 ?_
            intro b hb
            have hblt := hb2 b (Tree.mem_addrs_right _ _ _ _ hb)
            refine hframe b (by omega) (by omega) ?_
            intro g hg hgb
            exact hdisj b (hg_l g hg b hgb) hb
          · rw [hgr]
            rw [hframe cn (by omega) (by omega) ?_, hs1cn]
            · simp [topLen, spineTmp]
            · intro g hg hgb
              exact hcnt (by simp [Tree.addrs, hg_l g hg cn hgb])
      · -- going right
        obtain ⟨hrn, hp0, hp1, hlen⟩ := Tree.wf_right hw hleaf hlt hp
        have hcl : ((Tree.nd a d len l r).content.length : Int) - len = (r.content.length : Int) := by
          rw [hcont]; simp; omega
        obtain ⟨s2, hrun, hnext, herr, hoom, hframe, hsp, hcn2⟩ :=
          ihr s fuel cn dc rc pc (pos - len) (some a) hrn hrr hndr
            (fun b hb => hb2 b (by simp [Tree.addrs, hb])) hw.2.1 hp0 hp1 hcn
            (fun hm => hcnt (by simp [Tree.addrs, hm])) hcnlt ho
        refine ⟨s2, ?_, ?_, herr, hoom, ?_, ?_, ?_⟩
        · have hfuel : fuel + (Tree.nd a d len l r).depthAt pos + 1
              = (fuel + r.depthAt (pos - len) + 1) + 1 := by
            simp [Tree.depthAt, hleaf, hlt]; omega
          rw [hfuel]
          rw [splitDescend]
          have hor : (l.root ≠ none ∨ r.root ≠ none) := by
            right; simpa using hrn
          simp only [Tree.root_nd, bind_apply, load_ok ha, hor, if_true, hlt, if_false, hcl, hrun]
          simp [Tree.grafts, Tree.leafAddr, Tree.leafPos, hleaf, hlt]
        · simpa [Tree.grafts, hleaf, hlt] using hnext
        · simpa [Tree.grafts, hleaf, hlt] using hframe
        · simpa [Tree.grafts, hleaf, hlt] using hsp
        · simpa [Tree.grafts, hleaf, hlt] using hcn2

/-! ## The first ascending loop of `split` -/

@[simp] theorem Tree.cut_root (t : Tree) (pos : Int) : (t.cut pos).root = t.root := by
  cases t with
  | nil => rfl
  | nd a d len l r =>
    unfold Tree.cut
    split_ifs <;> rfl

theorem Tree.cut_addrs : ∀ (t : Tree) (pos : Int) (x : Nat), x ∈ (t.cut pos).addrs → x ∈ t.addrs
  | Tree.nil, _, x, h => by simp [Tree.cut, Tree.addrs] at h
  | Tree.nd a d len l r, pos, x, h => by
    unfold Tree.cut at h
    split_ifs at h with h1 h2
    · obtain ⟨rfl, rfl⟩ := h1
      simpa [Tree.addrs] using h
    · simp only [Tree.addrs, List.mem_cons, List.mem_append, List.not_mem_nil, or_false] at h
      rcases h with rfl | h
      · exact Tree.mem_addrs_root _ _ _ _ _
      · exact Tree.mem_addrs_left _ _ _ _ (Tree.cut_addrs l pos x h)
    · simp only [Tree.addrs, List.mem_cons, List.mem_append] at h
      rcases h with rfl | h | h
      · exact Tree.mem_addrs_root _ _ _ _ _
      · exact Tree.mem_addrs_left _ _ _ _ h
      · exact Tree.mem_addrs_right _ _ _ _ (Tree.cut_addrs r _ x h)

theorem Tree.pathAddrs_sub : ∀ (t : Tree) (pos : Int) (x : Nat), x ∈ t.pathAddrs pos → x ∈ t.addrs
  | Tree.nil, _, x, h => by simp [Tree.pathAddrs] at h
  | Tree.nd a d len l r, pos, x, h => by
    unfold Tree.pathAddrs at h
    split_ifs at h with h1 h2
    · simp at h
    · rcases List.mem_cons.1 h with rfl | h
      · exact Tree.mem_addrs_root _ _ _ _ _
      · exact Tree.mem_addrs_left _ _ _ _ (Tree.pathAddrs_sub l pos x h)
    · rcases List.mem_cons.1 h with rfl | h
      · exact Tree.mem_addrs_root _ _ _ _ _
      · exact Tree.mem_addrs_right _ _ _ _ (Tree.pathAddrs_sub r _ x h)

theorem splitAscendOrig_spec (rope : Option Nat) :
    ∀ (t : Tree) (s : State) (fuel : Nat) (pos : Int) (par : Option Nat) (sm : Int),
      t ≠ Tree.nil → PathRep s.heap t pos par → t.addrs.Nodup → t.wf →
      0 ≤ pos → pos < (t.content.length : Int) →
      (∀ x ∈ t.addrs, some x = rope → t.root = some x) →
      (t.lastLeft pos = true → sm = 1) →
      ∃ s3, splitAscendOrig rope (fuel + t.depthAt pos) (some (t.leafAddr pos)) (t.leafPos pos) sm s
          = splitAscendOrig rope fuel t.root pos (if t.isLeaf then sm else 1) s3
        ∧ Rep s3.heap (t.cut pos) par
        ∧ (∀ b, b ∉ t.pathAddrs pos → s3.heap b = s.heap b)
        ∧ s3.next = s.next ∧ s3.currentError = s.currentError ∧ s3.oom = s.oom := by
  intro t
  induction t with
  | nil => intro s fuel pos par sm h; exact absurd rfl h
  | nd a d len l r ihl ihr =>
    intro s fuel pos par sm _ hpr hnd hw h0 hp hrope hsm
    by_cases hleaf : l = Tree.nil ∧ r = Tree.nil
    · refine ⟨s, ?_, ?_, fun _ _ => rfl, rfl, rfl, rfl⟩
      · simp [Tree.depthAt, Tree.leafAddr, Tree.leafPos, Tree.isLeaf, hleaf]
      · simp only [PathRep, hleaf, and_self, if_true] at hpr
        obtain ⟨rfl, rfl⟩ := hleaf
        simp [Tree.cut, Rep, hpr]
    · have hcont := @Tree.content_nd_of_not_leaf a d len _ _ hleaf
      have hndl := Tree.nodup_left hnd
      have hndr := Tree.nodup_right hnd
      have hisl : (Tree.nd a d len l r).isLeaf = false := by simp [Tree.isLeaf, hleaf]
      by_cases hlt : pos < len
      · obtain ⟨hln, hp1, hlen⟩ := Tree.wf_left hw hleaf h0 hlt
        simp only [PathRep, hleaf, hlt, if_true, if_false] at hpr
        obtain ⟨ha, hprl⟩ := hpr
        obtain ⟨la, hlroot⟩ : ∃ la, l.root = some la := by
          cases l with
          | nil => exact absurd rfl hln
          | nd la ld llen ll lr => exact ⟨la, rfl⟩
        have hla_mem : la ∈ l.addrs := Tree.root_mem_addrs hlroot
        have hla_ne : some la ≠ rope := by
          intro h
          have := hrope la (Tree.mem_addrs_left _ _ _ _ hla_mem) h
          simp at this
          exact Tree.nodup_root_left hnd (this ▸ hla_mem)
        have hsm2 : l.lastLeft pos = true → sm = 1 := by
          intro h
          apply hsm
          simp [Tree.lastLeft, hleaf, hlt, h]
        obtain ⟨s3, hrun, hrep3, hframe, hnext, herr, hoom⟩ :=
          ihl s (fuel + 1) pos (some a) sm hln hprl hndl hw.1 h0 hp1
            (fun x hx hxr => by
              have := hrope x (Tree.mem_addrs_left _ _ _ _ hx) hxr
              simp at this
              exact absurd hx (this ▸ Tree.nodup_root_left hnd)) hsm2
        have ha3 : s3.heap a = some ⟨some d, len, some la, r.root, par⟩ := by
          rw [hframe a (fun h => Tree.nodup_root_left hnd (Tree.pathAddrs_sub _ _ _ h))]
          simpa [hlroot] using ha
        obtain ⟨nla, hnla, hnlap⟩ := Rep.root_rec hrep3 (a := la) (by simp [hlroot])
        have hsm3 : (if l.isLeaf then sm else 1) = 1 := by
          by_cases hll : l.isLeaf = true
          · simp only [hll, if_true]
            apply hsm
            simp [Tree.lastLeft, hleaf, hlt, hll]
          · simp [hll]
        have hcut : (Tree.nd a d len l r).cut pos = Tree.nd a d pos (l.cut pos) Tree.nil := by
          simp [Tree.cut, hleaf, hlt]
        have hpa : (Tree.nd a d len l r).pathAddrs pos = a :: l.pathAddrs pos := by
          simp [Tree.pathAddrs, hleaf, hlt]
        refine ⟨(s3.put a ⟨some d, pos, some la, r.root, par⟩).put a ⟨some d, pos, some la, none, par⟩,
          ?_, ?_, ?_, ?_, ?_, ?_⟩
        · have hfuel : fuel + (Tree.nd a d len l r).depthAt pos
              = (fuel + 1) + l.depthAt pos := by
            simp [Tree.depthAt, hleaf, hlt]; omega
          rw [hfuel]
          simp only [Tree.leafAddr, Tree.leafPos, hleaf, hlt, if_true, if_false]
          rw [hrun, hsm3, hlroot, splitAscendOrig]
          simp [hla_ne, load_ok hnla, hnlap, load_ok ha3, setLeftLen, setRight, modify, ha3, hisl]
        · rw [hcut]
          refine ⟨by simp [hlroot], Rep.frame hrep3 ?_, trivial⟩
          intro b hb
          have : b ≠ a := by
            rintro rfl
            exact Tree.nodup_root_left hnd (Tree.cut_addrs _ _ _ hb)
          simp [this]
        · intro b hb
          rw [hpa] at hb
          simp only [List.mem_cons, not_or] at hb
          simp [hb.1, hframe b hb.2]
        · simp [hnext]
        · simp [herr]
        · simp [hoom]
      · obtain ⟨hrn, hp0, hp1, hlen⟩ := Tree.wf_right hw hleaf hlt hp
        simp only [PathRep, hleaf, hlt, if_true, if_false] at hpr
        obtain ⟨ha, hrepl, hprr⟩ := hpr
        obtain ⟨ra, hrroot⟩ : ∃ ra, r.root = some ra := by
          cases r with
          | nil => exact absurd rfl hrn
          | nd ra rd rlen rl rr => exact ⟨ra, rfl⟩
        have hra_mem : ra ∈ r.addrs := Tree.root_mem_addrs hrroot
        have hra_ne : some ra ≠ rope := by
          intro h
          have := hrope ra (Tree.mem_addrs_right _ _ _ _ hra_mem) h
          simp at this
          exact Tree.nodup_root_right hnd (this ▸ hra_mem)
        have hsm2 : r.lastLeft (pos - len) = true → sm = 1 := by
          intro h
          apply hsm
          simp [Tree.lastLeft, hleaf, hlt, h]
        obtain ⟨s3, hrun, hrep3, hframe, hnext, herr, hoom⟩ :=
          ihr s (fuel + 1) (pos - len) (some a) sm hrn hprr hndr hw.2.1 hp0 hp1
            (fun x hx hxr => by
              have := hrope x (Tree.mem_addrs_right _ _ _ _ hx) hxr
              simp at this
              exact absurd hx (this ▸ Tree.nodup_root_right hnd)) hsm2
        have ha3 : s3.heap a = some ⟨some d, len, l.root, some ra, par⟩ := by
          rw [hframe a (fun h => Tree.nodup_root_right hnd (Tree.pathAddrs_sub _ _ _ h))]
          simpa [hrroot] using ha
        obtain ⟨nra, hnra, hnrap⟩ := Rep.root_rec hrep3 (a := ra) (by simp [hrroot])
        have hlne : l.root ≠ some ra := by
          intro h
          exact Tree.nodup_disjoint hnd (Tree.root_mem_addrs h) hra_mem
        have hcut : (Tree.nd a d len l r).cut pos = Tree.nd a d len l (r.cut (pos - len)) := by
          simp [Tree.cut, hleaf, hlt]
        have hpa : (Tree.nd a d len l r).pathAddrs pos = a :: r.pathAddrs (pos - len) := by
          simp [Tree.pathAddrs, hleaf, hlt]
        refine ⟨s3, ?_, ?_, ?_, hnext, herr, hoom⟩
        · have hfuel : fuel + (Tree.nd a d len l r).depthAt pos
              = (fuel + 1) + r.depthAt (pos - len) := by
            simp [Tree.depthAt, hleaf, hlt]; omega
          rw [hfuel]
          simp only [Tree.leafAddr, Tree.leafPos, hleaf, hlt, if_true, if_false]
          rw [hrun, hrroot, splitAscendOrig]
          simp [hra_ne, load_ok hnra, hnrap, load_ok ha3, hlne, hisl]
        · rw [hcut]
          refine ⟨by simpa [hrroot] using ha3, Rep.frame hrepl ?_, hrep3⟩
          intro b hb
          exact hframe b (fun h => Tree.nodup_disjoint hnd hb (Tree.pathAddrs_sub _ _ _ h))
        · intro b hb
          rw [hpa] at hb
          simp only [List.mem_cons, not_or] at hb
          exact hframe b hb.2

/-! ## The second ascending loop of `split` -/

@[simp] theorem spineFin_root (G : List Tree) (n : Nat) (b : Tree) (bl : Int) :
    (spineTmp G n b bl).root = (spineFin G n b).root := by
  cases G <;> simp [spineTmp, spineFin]

theorem spineFin_addrs : ∀ (G : List Tree) (n : Nat) (b : Tree) (x : Nat),
    x ∈ (spineFin G n b).addrs →
      (n ≤ x ∧ x < n + G.length) ∨ (∃ g ∈ G, x ∈ g.addrs) ∨ x ∈ b.addrs
  | [], _, _, _, h => Or.inr (Or.inr h)
  | g :: gs, n, b, x, h => by
    simp only [spineFin, Tree.addrs, List.mem_cons, List.mem_append] at h
    rcases h with rfl | h | h
    · left; simp
    · rcases spineFin_addrs gs (n + 1) b x h with h | ⟨g2, hg2, h⟩ | h
      · left; simp only [List.length_cons]; omega
      · right; left; exact ⟨g2, List.mem_cons_of_mem _ hg2, h⟩
      · right; right; exact h
    · right; left; exact ⟨g, List.mem_cons_self _ _, h⟩

theorem topLen_add_cumOf (gs : List Tree) (n : Nat) (b : Tree) (bl : Int)
    (hg : ∀ g ∈ gs, g ≠ Tree.nil) (hbl : bl = (b.content.length : Int)) :
    topLen gs bl + cumOf gs n b = ((spineFin gs n b).content.length : Int) := by
  cases gs with
  | nil => simp [topLen, cumOf, spineFin, hbl]
  | cons g gs =>
    have hgn : g ≠ Tree.nil := hg g (List.mem_cons_self _ _)
    simp [topLen, cumOf, spineFin, Tree.content, hgn]
    omega

theorem splitAscendNew_spec (nt : Option Nat) :
    ∀ (G : List Tree) (s : State) (fuel n par : Nat) (b : Tree) (bl : Int),
      Rep s.heap (spineTmp G n b bl) (some par) → (∀ g ∈ G, g ≠ Tree.nil) →
      bl = (b.content.length : Int) →
      (∀ j, j < G.length → some (n + j) ≠ nt) →
      (∀ g ∈ G, ∀ x ∈ g.addrs, x < n) → (∀ x ∈ b.addrs, n + G.length ≤ x) →
      ∃ s4, splitAscendNew nt (fuel + G.length) (some (deepest par n G)) 0 s
          = splitAscendNew nt fuel (some par) (cumOf G n b) s4
        ∧ Rep s4.heap (spineFin G n b) (some par)
        ∧ (∀ x, (x < n ∨ n + G.length ≤ x) → s4.heap x = s.heap x)
        ∧ s4.next = s.next ∧ s4.currentError = s.currentError ∧ s4.oom = s.oom := by
  intro G
  induction G with
  | nil =>
    intro s fuel n par b bl hrep _ _ _ _ _
    exact ⟨s, by simp [deepest, cumOf], by simpa [spineTmp, spineFin] using hrep,
      fun _ _ => rfl, rfl, rfl, rfl⟩
  | cons g gs ih =>
    intro s fuel n par b bl hrep hg hbl hnt hgl hbb
    simp only [spineTmp, Rep] at hrep
    obtain ⟨hn, hrest, hrg⟩ := hrep
    obtain ⟨s4, hrun, hrep4, hframe, hnext, herr, hoom⟩ :=
      ih s (fuel + 1) (n + 1) n b bl hrest (fun g2 h2 => hg g2 (List.mem_cons_of_mem _ h2)) hbl
        (fun j hj => by
          have := hnt (j + 1) (by simp only [List.length_cons]; omega)
          rwa [show n + 1 + j = n + (j + 1) by omega])
        (fun g2 h2 x hx => by
          have := hgl g2 (List.mem_cons_of_mem _ h2) x hx; omega)
        (fun x hx => by
          have := hbb x hx; simp only [List.length_cons] at this; omega)
    have hn4 : s4.heap n = some ⟨some [], topLen gs bl, (spineFin gs (n + 1) b).root, g.root,
        some par⟩ := by
      rw [hframe n (Or.inl (by omega))]
      simpa using hn
    have hne : some n ≠ nt := by simpa using hnt 0 (by simp)
    have hsum := topLen_add_cumOf gs (n + 1) b bl
      (fun g2 h2 => hg g2 (List.mem_cons_of_mem _ h2)) hbl
    refine ⟨s4.put n ⟨some [], ((spineFin gs (n + 1) b).content.length : Int),
      (spineFin gs (n + 1) b).root, g.root, some par⟩, ?_, ?_, ?_, ?_, ?_, ?_⟩
    · have hfuel : fuel + (g :: gs).length = (fuel + 1) + gs.length := by
        simp only [List.length_cons]; omega
      rw [hfuel]
      simp only [deepest]
      rw [hrun, splitAscendNew, show cumOf (g :: gs) n b
        = ((spineFin gs (n + 1) b).content.length : Int) from rfl]
      simp [hne, load_ok hn4, setLeftLen, modify, hn4, hsum]
    · simp only [spineFin, Rep]
      refine ⟨by simp, Rep.frame hrep4 ?_, Rep.frame hrg ?_⟩
      · intro x hx
        have : x ≠ n := by
          rintro rfl
          rcases spineFin_addrs gs (x + 1) b x hx with h | ⟨g2, hg2, h⟩ | h
          · omega
          · have := hgl g2 (List.mem_cons_of_mem _ hg2) x h; omega
          · have := hbb x h; simp only [List.length_cons] at this; omega
        simp [this]
      · intro x hx
        have hlt := hgl g (List.mem_cons_self _ _) x hx
        have : x ≠ n := by omega
        simp only [put_heap, this, if_false]
        exact hframe x (Or.inl (by omega))
    · intro x hx
      simp only [List.length_cons] at hx
      have : x ≠ n := by omega
      simp only [put_heap, this, if_false]
      exact hframe x (by omega)
    · simp [hnext]
    · simp [herr]
    · simp [hoom]

/-! ## Pure facts about what `split` leaves behind -/

@[simp] theorem Tree.content_nil : Tree.nil.content = [] := rfl

theorem Tree.cut_ne_nil {t : Tree} (pos : Int) (h : t ≠ Tree.nil) : t.cut pos ≠ Tree.nil := by
  intro hc
  have h1 := Tree.cut_root t pos
  rw [hc, Tree.root_nil] at h1
  exact h (Tree.root_eq_none.1 h1.symm)

theorem Tree.content_cut : ∀ (t : Tree) (pos : Int), t.wf → 0 ≤ pos →
    pos < (t.content.length : Int) → (t.cut pos).content = t.content.take pos.toNat
  | Tree.nil, pos, _, _, h => by simp [Tree.content] at h; omega
  | Tree.nd a d len l r, pos, hw, h0, hp => by
    by_cases hleaf : l = Tree.nil ∧ r = Tree.nil
    · simp [Tree.cut, Tree.content, hleaf]
    · have hcont := @Tree.content_nd_of_not_leaf a d len _ _ hleaf
      by_cases hlt : pos < len
      · obtain ⟨hln, hp1, hlen⟩ := Tree.wf_left hw hleaf h0 hlt
        have ih := Tree.content_cut l pos hw.1 h0 hp1
        have hcn := Tree.cut_ne_nil pos hln
        rw [hcont]
        simp only [Tree.cut, hleaf, hlt, if_true, if_false, Tree.content, hcn, false_and]
        rw [ih, List.append_nil, List.take_append_of_le_length (by omega)]
      · obtain ⟨hrn, hp0, hp1, hlen⟩ := Tree.wf_right hw hleaf hlt hp
        have ih := Tree.content_cut r (pos - len) hw.2.1 hp0 hp1
        have hcn := Tree.cut_ne_nil (pos - len) hrn
        rw [hcont]
        simp only [Tree.cut, hleaf, hlt, if_true, if_false, Tree.content, hcn, and_false]
        rw [ih, List.take_append_eq_append_take]
        have h1 : l.content.take pos.toNat = l.content := List.take_of_length_le (by omega)
        have h2 : pos.toNat - l.content.length = (pos - len).toNat := by omega
        rw [h1, h2]

theorem Tree.wf_cut : ∀ (t : Tree) (pos : Int), t.wf → 0 ≤ pos →
    pos < (t.content.length : Int) → (t.cut pos).wf
  | Tree.nil, _, _, _, _ => by simp [Tree.cut, Tree.wf]
  | Tree.nd a d len l r, pos, hw, h0, hp => by
    by_cases hleaf : l = Tree.nil ∧ r = Tree.nil
    · simp [Tree.cut, Tree.wf, hleaf]
    · by_cases hlt : pos < len
      · obtain ⟨hln, hp1, hlen⟩ := Tree.wf_left hw hleaf h0 hlt
        simp only [Tree.cut, hleaf, hlt, if_true, if_false, Tree.wf]
        refine ⟨Tree.wf_cut l pos hw.1 h0 hp1, trivial, fun _ => ?_⟩
        rw [Tree.content_cut l pos hw.1 h0 hp1, List.length_take]
        omega
      · obtain ⟨hrn, hp0, hp1, hlen⟩ := Tree.wf_right hw hleaf hlt hp
        simp only [Tree.cut, hleaf, hlt, if_true, if_false, Tree.wf]
        exact ⟨hw.1, Tree.wf_cut r _ hw.2.1 hp0 hp1, fun _ => hlen⟩

theorem Tree.cut_addrs_sublist : ∀ (t : Tree) (pos : Int), List.Sublist (t.cut pos).addrs t.addrs
  | Tree.nil, _ => by simp [Tree.cut]
  | Tree.nd a d len l r, pos => by
    unfold Tree.cut
    split_ifs with h1 h2
    · obtain ⟨rfl, rfl⟩ := h1
      simp [Tree.addrs]
    · simp only [Tree.addrs, List.append_nil]
      exact List.Sublist.cons₂ _ ((Tree.cut_addrs_sublist l pos).trans (List.sublist_append_left _ _))
    · simp only [Tree.addrs]
      exact List.Sublist.cons₂ _ (List.Sublist.append (List.Sublist.refl _)
        (Tree.cut_addrs_sublist r _))

/-- The characters of the grafted subtrees in the order they take in the new rope. -/
theorem spineFin_content : ∀ (G : List Tree) (n : Nat) (b : Tree), (∀ g ∈ G, g ≠ Tree.nil) →
    (spineFin G n b).content = b.content ++ (G.reverse.map Tree.content).flatten
  | [], _, _, _ => by simp [spineFin]
  | g :: gs, n, b, hg => by
    have hgn : g ≠ Tree.nil := hg g (List.mem_cons_self _ _)
    simp [spineFin, Tree.content, hgn,
      spineFin_content gs (n + 1) b (fun g2 h2 => hg g2 (List.mem_cons_of_mem _ h2))]

theorem Tree.leafPos_bounds : ∀ (t : Tree) (pos : Int), t ≠ Tree.nil → t.wf → 0 ≤ pos →
    pos < (t.content.length : Int) →
    0 ≤ t.leafPos pos ∧ t.leafPos pos < ((t.leafData pos).length : Int)
  | Tree.nil, _, h, _, _, _ => absurd rfl h
  | Tree.nd a d len l r, pos, _, hw, h0, hp => by
    by_cases hleaf : l = Tree.nil ∧ r = Tree.nil
    · simp only [Tree.content, hleaf, and_self, if_true] at hp
      simp [Tree.leafPos, Tree.leafData, hleaf, h0, hp]
    · by_cases hlt : pos < len
      · obtain ⟨hln, hp1, hlen⟩ := Tree.wf_left hw hleaf h0 hlt
        simpa [Tree.leafPos, Tree.leafData, hleaf, hlt] using
          Tree.leafPos_bounds l pos hln hw.1 h0 hp1
      · obtain ⟨hrn, hp0, hp1, hlen⟩ := Tree.wf_right hw hleaf hlt hp
        simpa [Tree.leafPos, Tree.leafData, hleaf, hlt] using
          Tree.leafPos_bounds r _ hrn hw.2.1 hp0 hp1

theorem Tree.content_drop : ∀ (t : Tree) (pos : Int), t ≠ Tree.nil → t.wf → 0 ≤ pos →
    pos < (t.content.length : Int) →
    t.content.drop pos.toNat
      = (t.leafData pos).drop (t.leafPos pos).toNat
        ++ ((t.grafts pos).reverse.map Tree.content).flatten
  | Tree.nil, _, h, _, _, _ => absurd rfl h
  | Tree.nd a d len l r, pos, _, hw, h0, hp => by
    by_cases hleaf : l = Tree.nil ∧ r = Tree.nil
    · simp [Tree.leafPos, Tree.leafData, Tree.grafts, Tree.content, hleaf]
    · have hcont := @Tree.content_nd_of_not_leaf a d len _ _ hleaf
      by_cases hlt : pos < len
      · obtain ⟨hln, hp1, hlen⟩ := Tree.wf_left hw hleaf h0 hlt
        have ih := Tree.content_drop l pos hln hw.1 h0 hp1
        rw [hcont, List.drop_append_of_le_length (by omega), ih]
        by_cases hrn : r = Tree.nil
        · simp [Tree.leafPos, Tree.leafData, Tree.grafts, hln, hlt, hrn]
        · simp [Tree.leafPos, Tree.leafData, Tree.grafts, hleaf, hlt, hrn]
      · obtain ⟨hrn, hp0, hp1, hlen⟩ := Tree.wf_right hw hleaf hlt hp
        have ih := Tree.content_drop r _ hrn hw.2.1 hp0 hp1
        rw [hcont, List.drop_append_eq_append_drop]
        have h1 : l.content.drop pos.toNat = [] := List.drop_of_length_le (by omega)
        have h2 : pos.toNat - l.content.length = (pos - len).toNat := by omega
        rw [h1, h2, ih]
        simp [Tree.leafPos, Tree.leafData, Tree.grafts, hleaf, hlt]

theorem Tree.grafts_wf : ∀ (t : Tree) (pos : Int), t.wf → ∀ g ∈ t.grafts pos, g.wf
  | Tree.nil, _, _, g, h => by simp [Tree.grafts] at h
  | Tree.nd a d len l r, pos, hw, g, h => by
    unfold Tree.grafts at h
    split_ifs at h with h1 h2 h3
    · simp at h
    · exact Tree.grafts_wf l pos hw.1 g h
    · rcases List.mem_cons.1 h with rfl | h
      · exact hw.2.1
      · exact Tree.grafts_wf l pos hw.1 g h
    · exact Tree.grafts_wf r _ hw.2.1 g h

theorem spineFin_wf : ∀ (G : List Tree) (n : Nat) (b : Tree), (∀ g ∈ G, g.wf) → b.wf →
    (spineFin G n b).wf
  | [], _, _, _, hb => by simpa [spineFin] using hb
  | g :: gs, n, b, hg, hb => by
    simp only [spineFin, Tree.wf]
    exact ⟨spineFin_wf gs (n + 1) b (fun g2 h2 => hg g2 (List.mem_cons_of_mem _ h2)) hb,
      hg g (List.mem_cons_self _ _), by simp⟩

theorem Tree.grafts_nodup {t : Tree} {pos : Int} (hnd : t.addrs.Nodup) {g : Tree}
    (hg : g ∈ t.grafts pos) : g.addrs.Nodup := by
  induction t generalizing pos with
  | nil => simp [Tree.grafts] at hg
  | nd a d len l r ihl ihr =>
    unfold Tree.grafts at hg
    split_ifs at hg with h1 h2 h3
    · simp at hg
    · exact ihl (Tree.nodup_left hnd) hg
    · rcases List.mem_cons.1 hg with rfl | hg
      · exact Tree.nodup_right hnd
      · exact ihl (Tree.nodup_left hnd) hg
    · exact ihr (Tree.nodup_right hnd) hg

theorem Tree.grafts_pairwise : ∀ (t : Tree) (pos : Int), t.addrs.Nodup →
    (t.grafts pos).Pairwise (fun g1 g2 => ∀ x ∈ g1.addrs, x ∉ g2.addrs)
  | Tree.nil, _, _ => by simp [Tree.grafts]
  | Tree.nd a d len l r, pos, hnd => by
    unfold Tree.grafts
    split_ifs with h1 h2 h3
    · simp
    · exact Tree.grafts_pairwise l pos (Tree.nodup_left hnd)
    · refine List.Pairwise.cons ?_ (Tree.grafts_pairwise l pos (Tree.nodup_left hnd))
      intro g hg x hx hx2
      exact Tree.nodup_disjoint hnd ((Tree.grafts_sub l pos g hg).2 x hx2) hx
    · exact Tree.grafts_pairwise r _ (Tree.nodup_right hnd)

theorem spineFin_nodup : ∀ (G : List Tree) (n : Nat) (b : Tree),
    (∀ g ∈ G, g.addrs.Nodup) → (∀ g ∈ G, ∀ x ∈ g.addrs, x < n) →
    G.Pairwise (fun g1 g2 => ∀ x ∈ g1.addrs, x ∉ g2.addrs) →
    b.addrs.Nodup → (∀ x ∈ b.addrs, n + G.length ≤ x) → (spineFin G n b).addrs.Nodup
  | [], _, _, _, _, _, hb, _ => by simpa [spineFin] using hb
  | g :: gs, n, b, hnd, hlt, hpw, hb, hbb => by
    have hpw2 := List.pairwise_cons.1 hpw
    have ih := spineFin_nodup gs (n + 1) b (fun g2 h2 => hnd g2 (List.mem_cons_of_mem _ h2))
      (fun g2 h2 x hx => by have := hlt g2 (List.mem_cons_of_mem _ h2) x hx; omega)
      hpw2.2 hb (fun x hx => by have := hbb x hx; simp only [List.length_cons] at this; omega)
    have hchar : ∀ x ∈ (spineFin gs (n + 1) b).addrs, n < x ∨ ∃ g2 ∈ gs, x ∈ g2.addrs := by
      intro x hx
      rcases spineFin_addrs gs (n + 1) b x hx with h | h | h
      · left; omega
      · right; exact h
      · left; have := hbb x h; simp only [List.length_cons] at this; omega
    simp only [spineFin, Tree.addrs, List.nodup_cons, List.mem_append, not_or, List.nodup_append]
    refine ⟨⟨?_, ?_⟩, ih, hnd g (List.mem_cons_self _ _), ?_⟩
    · intro hx
      rcases hchar n hx with h | ⟨g2, hg2, h⟩
      · omega
      · have := hlt g2 (List.mem_cons_of_mem _ hg2) n h; omega
    · intro hx
      have := hlt g (List.mem_cons_self _ _) n hx; omega
    · intro x hx hxg
      rcases hchar x hx with h | ⟨g2, hg2, h⟩
      · have := hlt g (List.mem_cons_self _ _) x hxg; omega
      · exact hpw2.1 g2 hg2 x hxg h

/-! ## Which addresses the phases of `split` touch -/

theorem Tree.keep_sub : ∀ (t : Tree) (pos : Int) (x : Nat), x ∈ t.keep pos → x ∈ t.addrs
  | Tree.nil, _, x, h => by simp [Tree.keep] at h
  | Tree.nd a d len l r, pos, x, h => by
    unfold Tree.keep at h
    split_ifs at h with h1 h2
    · simp at h
    · rcases List.mem_cons.1 h with rfl | h
      · exact Tree.mem_addrs_root _ _ _ _ _
      · exact Tree.mem_addrs_left _ _ _ _ (Tree.keep_sub l pos x h)
    · rcases List.mem_cons.1 h with rfl | h
      · exact Tree.mem_addrs_root _ _ _ _ _
      · rcases List.mem_append.1 h with h | h
        · exact Tree.mem_addrs_left _ _ _ _ h
        · exact Tree.mem_addrs_right _ _ _ _ (Tree.keep_sub r _ x h)

theorem Tree.pathAddrs_keep : ∀ (t : Tree) (pos : Int) (x : Nat),
    x ∈ t.pathAddrs pos → x ∈ t.keep pos
  | Tree.nil, _, x, h => by simp [Tree.pathAddrs] at h
  | Tree.nd a d len l r, pos, x, h => by
    unfold Tree.pathAddrs at h
    unfold Tree.keep
    split_ifs at h ⊢ with h1 h2
    · simp at h
    · rcases List.mem_cons.1 h with rfl | h
      · simp
      · exact List.mem_cons_of_mem _ (Tree.pathAddrs_keep l pos x h)
    · rcases List.mem_cons.1 h with rfl | h
      · simp
      · exact List.mem_cons_of_mem _ (List.mem_append_right _ (Tree.pathAddrs_keep r _ x h))

theorem Tree.keep_not_graft : ∀ (t : Tree) (pos : Int), t.addrs.Nodup →
    ∀ x ∈ t.keep pos, ∀ g ∈ t.grafts pos, x ∉ g.addrs
  | Tree.nil, _, _, x, h, _, _ => by simp [Tree.keep] at h
  | Tree.nd a d len l r, pos, hnd, x, hx, g, hg => by
    unfold Tree.keep at hx
    unfold Tree.grafts at hg
    split_ifs at hx hg with h1 h2 h3
    · simp at hx
    · rcases List.mem_cons.1 hx with rfl | hx
      · intro hxg
        exact Tree.nodup_root_left hnd ((Tree.grafts_sub l pos g hg).2 _ hxg)
      · exact Tree.keep_not_graft l pos (Tree.nodup_left hnd) x hx g hg
    · rcases List.mem_cons.1 hx with rfl | hx
      · intro hxg
        rcases List.mem_cons.1 hg with rfl | hg
        · exact Tree.nodup_root_right hnd hxg
        · exact Tree.nodup_root_left hnd ((Tree.grafts_sub l pos g hg).2 _ hxg)
      · rcases List.mem_cons.1 hg with rfl | hg
        · intro hxg
          exact Tree.nodup_disjoint hnd (Tree.keep_sub l pos x hx) hxg
        · exact Tree.keep_not_graft l pos (Tree.nodup_left hnd) x hx g hg
    · rcases List.mem_cons.1 hx with rfl | hx
      · intro hxg
        exact Tree.nodup_root_right hnd ((Tree.grafts_sub r _ g hg).2 _ hxg)
      · rcases List.mem_append.1 hx with hx | hx
        · intro hxg
          exact Tree.nodup_disjoint hnd hx ((Tree.grafts_sub r _ g hg).2 _ hxg)
        · exact Tree.keep_not_graft r _ (Tree.nodup_right hnd) x hx g hg

theorem Tree.leafAddr_mem : ∀ (t : Tree) (pos : Int), t ≠ Tree.nil → t.wf → 0 ≤ pos →
    pos < (t.content.length : Int) → t.leafAddr pos ∈ t.addrs
  | Tree.nil, _, h, _, _, _ => absurd rfl h
  | Tree.nd a d len l r, pos, _, hw, h0, hp => by
    by_cases hleaf : l = Tree.nil ∧ r = Tree.nil
    · simp [Tree.leafAddr, hleaf, Tree.addrs]
    · by_cases hlt : pos < len
      · obtain ⟨hln, hp1, hlen⟩ := Tree.wf_left hw hleaf h0 hlt
        simp only [Tree.leafAddr, hleaf, hlt, if_true, if_false]
        exact Tree.mem_addrs_left _ _ _ _ (Tree.leafAddr_mem l pos hln hw.1 h0 hp1)
      · obtain ⟨hrn, hp0, hp1, hlen⟩ := Tree.wf_right hw hleaf hlt hp
        simp only [Tree.leafAddr, hleaf, hlt, if_true, if_false]
        exact Tree.mem_addrs_right _ _ _ _ (Tree.leafAddr_mem r _ hrn hw.2.1 hp0 hp1)

theorem Tree.leafAddr_not_keep : ∀ (t : Tree) (pos : Int), t ≠ Tree.nil → t.wf → 0 ≤ pos →
    pos < (t.content.length : Int) → t.addrs.Nodup → t.leafAddr pos ∉ t.keep pos
  | Tree.nil, _, h, _, _, _, _ => absurd rfl h
  | Tree.nd a d len l r, pos, _, hw, h0, hp, hnd => by
    by_cases hleaf : l = Tree.nil ∧ r = Tree.nil
    · simp [Tree.keep, hleaf]
    · by_cases hlt : pos < len
      · obtain ⟨hln, hp1, hlen⟩ := Tree.wf_left hw hleaf h0 hlt
        have hm := Tree.leafAddr_mem l pos hln hw.1 h0 hp1
        simp only [Tree.leafAddr, Tree.keep, hleaf, hlt, if_true, if_false, List.mem_cons, not_or]
        refine ⟨?_, Tree.leafAddr_not_keep l pos hln hw.1 h0 hp1 (Tree.nodup_left hnd)⟩
        intro h
        exact Tree.nodup_root_left hnd (h ▸ hm)
      · obtain ⟨hrn, hp0, hp1, hlen⟩ := Tree.wf_right hw hleaf hlt hp
        have hm := Tree.leafAddr_mem r _ hrn hw.2.1 hp0 hp1
        simp only [Tree.leafAddr, Tree.keep, hleaf, hlt, if_true, if_false, List.mem_cons,
          List.mem_append, not_or]
        refine ⟨?_, ?_, Tree.leafAddr_not_keep r _ hrn hw.2.1 hp0 hp1 (Tree.nodup_right hnd)⟩
        · intro h
          exact Tree.nodup_root_right hnd (h ▸ hm)
        · intro h
          exact Tree.nodup_disjoint hnd h hm

theorem Tree.leafAddr_not_graft : ∀ (t : Tree) (pos : Int), t ≠ Tree.nil → t.wf → 0 ≤ pos →
    pos < (t.content.length : Int) → t.addrs.Nodup →
    ∀ g ∈ t.grafts pos, t.leafAddr pos ∉ g.addrs
  | Tree.nil, _, h, _, _, _, _, _, _ => absurd rfl h
  | Tree.nd a d len l r, pos, _, hw, h0, hp, hnd, g, hg => by
    by_cases hleaf : l = Tree.nil ∧ r = Tree.nil
    · simp [Tree.grafts, hleaf] at hg
    · by_cases hlt : pos < len
      · obtain ⟨hln, hp1, hlen⟩ := Tree.wf_left hw hleaf h0 hlt
        have hm := Tree.leafAddr_mem l pos hln hw.1 h0 hp1
        have ih := Tree.leafAddr_not_graft l pos hln hw.1 h0 hp1 (Tree.nodup_left hnd)
        simp only [Tree.leafAddr, hleaf, hlt, if_true, if_false]
        simp only [Tree.grafts, hleaf, hlt, if_true, if_false] at hg
        split_ifs at hg with hrn
        · exact ih g hg
        · rcases List.mem_cons.1 hg with rfl | hg
          · intro h; exact Tree.nodup_disjoint hnd hm h
          · exact ih g hg
      · obtain ⟨hrn, hp0, hp1, hlen⟩ := Tree.wf_right hw hleaf hlt hp
        simp only [Tree.leafAddr, hleaf, hlt, if_true, if_false]
        simp only [Tree.grafts, hleaf, hlt, if_true, if_false] at hg
        exact Tree.leafAddr_not_graft r _ hrn hw.2.1 hp0 hp1 (Tree.nodup_right hnd) g hg

/-- The record of the leaf that the descent reaches. -/
theorem Rep.leaf_rec {h : Nat → Option node} : ∀ (t : Tree) (pos : Int) (par : Option Nat),
    Rep h t par → t ≠ Tree.nil → t.wf → 0 ≤ pos → pos < (t.content.length : Int) →
    ∃ n, h (t.leafAddr pos) = some n ∧ n.data = some (t.leafData pos) ∧ n.left = none
      ∧ n.right = none
  | Tree.nil, _, _, _, h, _, _, _ => absurd rfl h
  | Tree.nd a d len l r, pos, par, hrep, _, hw, h0, hp => by
    by_cases hleaf : l = Tree.nil ∧ r = Tree.nil
    · refine ⟨_, by simpa [Tree.leafAddr, hleaf] using hrep.1, ?_, ?_, ?_⟩ <;>
        simp [Tree.leafData, hleaf]
    · by_cases hlt : pos < len
      · obtain ⟨hln, hp1, hlen⟩ := Tree.wf_left hw hleaf h0 hlt
        simpa [Tree.leafAddr, Tree.leafData, hleaf, hlt] using
          Rep.leaf_rec l pos (some a) hrep.2.1 hln hw.1 h0 hp1
      · obtain ⟨hrn, hp0, hp1, hlen⟩ := Tree.wf_right hw hleaf hlt hp
        simpa [Tree.leafAddr, Tree.leafData, hleaf, hlt] using
          Rep.leaf_rec r _ (some a) hrep.2.2 hrn hw.2.1 hp0 hp1

/-- The state of the original rope once the leaf is cut. -/
theorem PathRep.of_rep {h h2 : Nat → Option node} : ∀ (t : Tree) (pos : Int) (par : Option Nat),
    Rep h t par → t ≠ Tree.nil → t.wf → 0 ≤ pos → pos < (t.content.length : Int) →
    (∀ x ∈ t.keep pos, h2 x = h x) →
    h2 (t.leafAddr pos) = (h (t.leafAddr pos)).map
      (fun n => { n with data := some ((t.leafData pos).take (t.leafPos pos).toNat) }) →
    PathRep h2 t pos par
  | Tree.nil, _, _, _, h, _, _, _, _, _ => absurd rfl h
  | Tree.nd a d len l r, pos, par, hrep, _, hw, h0, hp, hk, hl => by
    by_cases hleaf : l = Tree.nil ∧ r = Tree.nil
    · simp only [Tree.leafAddr, Tree.leafData, Tree.leafPos, hleaf, and_self, if_true] at hl
      simp only [PathRep, hleaf, and_self, if_true]
      rw [hl, hrep.1]
      simp [hleaf]
    · by_cases hlt : pos < len
      · obtain ⟨hln, hp1, hlen⟩ := Tree.wf_left hw hleaf h0 hlt
        simp only [Tree.keep, hleaf, hlt, if_true, if_false] at hk
        simp only [Tree.leafAddr, Tree.leafData, Tree.leafPos, hleaf, hlt, if_true, if_false] at hl
        simp only [PathRep, hleaf, hlt, if_true, if_false]
        refine ⟨by rw [hk a (by simp)]; exact hrep.1, ?_⟩
        exact PathRep.of_rep l pos (some a) hrep.2.1 hln hw.1 h0 hp1
          (fun x hx => hk x (List.mem_cons_of_mem _ hx)) hl
      · obtain ⟨hrn, hp0, hp1, hlen⟩ := Tree.wf_right hw hleaf hlt hp
        simp only [Tree.keep, hleaf, hlt, if_true, if_false] at hk
        simp only [Tree.leafAddr, Tree.leafData, Tree.leafPos, hleaf, hlt, if_true, if_false] at hl
        simp only [PathRep, hleaf, hlt, if_true, if_false]
        refine ⟨by rw [hk a (by simp)]; exact hrep.1, Rep.frame hrep.2.1 ?_, ?_⟩
        · intro x hx
          exact hk x (List.mem_cons_of_mem _ (List.mem_append_left _ hx))
        · exact PathRep.of_rep r _ (some a) hrep.2.2 hrn hw.2.1 hp0 hp1
            (fun x hx => hk x (List.mem_cons_of_mem _ (List.mem_append_right _ hx))) hl

/-- The parent of the leaf, as `split` reads it to set `splitMe`. -/
theorem PathRep.leaf_parent {h : Nat → Option node} : ∀ (t : Tree) (pos : Int) (par : Option Nat),
    PathRep h t pos par → t ≠ Tree.nil → t.isLeaf = false → t.wf → 0 ≤ pos →
    pos < (t.content.length : Int) → t.addrs.Nodup →
    ∃ ln p pn, h (t.leafAddr pos) = some ln ∧ ln.parent = some p ∧ h p = some pn
      ∧ (t.lastLeft pos = true → pn.right ≠ some (t.leafAddr pos))
  | Tree.nil, _, _, _, h, _, _, _, _, _ => absurd rfl h
  | Tree.nd a d len l r, pos, par, hpr, _, hil, hw, h0, hp, hnd => by
    have hleaf : ¬ (l = Tree.nil ∧ r = Tree.nil) := by simpa [Tree.isLeaf] using hil
    by_cases hlt : pos < len
    · obtain ⟨hln, hp1, hlen⟩ := Tree.wf_left hw hleaf h0 hlt
      simp only [PathRep, hleaf, hlt, if_true, if_false] at hpr
      by_cases hll : l.isLeaf = true
      · obtain ⟨la, ld, llen, ll, lr, rfl⟩ : ∃ la ld llen ll lr, l = Tree.nd la ld llen ll lr := by
          cases l with
          | nil => exact absurd rfl hln
          | nd la ld llen ll lr => exact ⟨la, ld, llen, ll, lr, rfl⟩
        have hll2 : ll = Tree.nil ∧ lr = Tree.nil := by simpa [Tree.isLeaf] using hll
        have h1 := hpr.2
        simp only [PathRep, hll2, and_self, if_true] at h1
        refine ⟨_, a, _, by simpa [Tree.leafAddr, hleaf, hlt, hll2] using h1, rfl, hpr.1, ?_⟩
        intro _
        simp only [Tree.leafAddr, hleaf, hlt, hll2, and_self, if_true, if_false]
        intro hr
        exact Tree.nodup_disjoint hnd (Tree.mem_addrs_root _ _ _ _ _) (Tree.root_mem_addrs hr)
      · have hll3 : l.isLeaf = false := by simpa using hll
        simpa [Tree.leafAddr, Tree.lastLeft, hleaf, hlt, hll3] using
          PathRep.leaf_parent l pos (some a) hpr.2 hln hll3 hw.1 h0 hp1 (Tree.nodup_left hnd)
    · obtain ⟨hrn, hp0, hp1, hlen⟩ := Tree.wf_right hw hleaf hlt hp
      simp only [PathRep, hleaf, hlt, if_true, if_false] at hpr
      by_cases hrl : r.isLeaf = true
      · obtain ⟨ra, rd, rlen, rl, rr, rfl⟩ : ∃ ra rd rlen rl rr, r = Tree.nd ra rd rlen rl rr := by
          cases r with
          | nil => exact absurd rfl hrn
          | nd ra rd rlen rl rr => exact ⟨ra, rd, rlen, rl, rr, rfl⟩
        have hrl2 : rl = Tree.nil ∧ rr = Tree.nil := by simpa [Tree.isLeaf] using hrl
        have h1 := hpr.2.2
        simp only [PathRep, hrl2, and_self, if_true] at h1
        refine ⟨_, a, _, by simpa [Tree.leafAddr, hleaf, hlt, hrl2] using h1, rfl, hpr.1, ?_⟩
        simp [Tree.lastLeft, hleaf, hlt, hrl2]
      · have hrl3 : r.isLeaf = false := by simpa using hrl
        simpa [Tree.leafAddr, Tree.lastLeft, hleaf, hlt, hrl3] using
          PathRep.leaf_parent r _ (some a) hpr.2.2 hrn hrl3 hw.2.1 hp0 hp1 (Tree.nodup_right hnd)

/-! ## Hanging the new leaf under the spine -/

theorem deepest_cases : ∀ (G : List Tree) (par n : Nat),
    (G = [] ∧ deepest par n G = par) ∨ (n ≤ deepest par n G ∧ deepest par n G < n + G.length)
  | [], _, _ => Or.inl ⟨rfl, rfl⟩
  | g :: gs, par, n => by
    right
    simp only [deepest, List.length_cons]
    rcases deepest_cases gs n (n + 1) with ⟨_, h⟩ | h
    · rw [h]; omega
    · omega

theorem spineTmp_addrs : ∀ (G : List Tree) (n : Nat) (b : Tree) (bl : Int),
    (spineTmp G n b bl).addrs = (spineFin G n b).addrs
  | [], _, _, _ => rfl
  | g :: gs, n, b, bl => by
    simp [spineTmp, spineFin, Tree.addrs, spineTmp_addrs gs (n + 1) b bl]

theorem spineTmp_deepest_rec {h : Nat → Option node} : ∀ (G : List Tree) (n par : Nat) (np : node),
    Rep h (spineTmp G n Tree.nil 0) (some par) → h par = some np →
    ∃ nd0, h (deepest par n G) = some nd0
  | [], _, _, np, _, hp => ⟨np, hp⟩
  | g :: gs, n, par, _, hrep, _ => by
    simp only [spineTmp, Rep] at hrep
    exact spineTmp_deepest_rec gs (n + 1) n _ hrep.2.1 hrep.1

theorem spineTmp_attach {h h2 : Nat → Option node} (L X : Nat) (ld : List Char) (bl : Int) :
    ∀ (G : List Tree) (n par : Nat) (dc : Option (List Char)) (rc pc : Option Nat),
      Rep h (spineTmp G n Tree.nil 0) (some par) →
      h par = some ⟨dc, topLen G 0, (spineTmp G n Tree.nil 0).root, rc, pc⟩ →
      par < n → (∀ g ∈ G, ∀ x ∈ g.addrs, x < n) → n + G.length ≤ L →
      X < par → (∀ g ∈ G, X ∉ g.addrs) →
      h2 L = some ⟨some ld, 0, none, none, some (deepest par n G)⟩ →
      (∀ nd0, h (deepest par n G) = some nd0 →
        h2 (deepest par n G) = some { nd0 with left := some L, leftLen := bl }) →
      (∀ x, x < n + G.length → x ≠ deepest par n G → x ≠ X → h2 x = h x) →
      Rep h2 (spineTmp G n (Tree.nd L ld 0 Tree.nil Tree.nil) bl) (some par)
        ∧ h2 par = some ⟨dc, topLen G bl,
            (spineTmp G n (Tree.nd L ld 0 Tree.nil Tree.nil) bl).root, rc, pc⟩ := by
  intro G
  induction G with
  | nil =>
    intro n par dc rc pc _ hpar _ _ _ _ _ hL hd _
    simp only [deepest] at hL hd
    refine ⟨by simpa [spineTmp, Rep] using hL, ?_⟩
    rw [hd _ hpar]
    simp [spineTmp, topLen]
  | cons g gs ih =>
    intro n par dc rc pc hrep hpar hlt hg hnL hXp hXg hL hd hframe
    simp only [spineTmp, Rep] at hrep
    simp only [deepest] at hL hd hframe
    simp only [List.length_cons] at hnL hframe
    have hdc := deepest_cases gs n (n + 1)
    obtain ⟨hsub, hn2⟩ := ih (n + 1) n (some []) g.root (some par) hrep.2.1
      (by simpa using hrep.1) (by omega)
      (fun g2 h2 x hx => by have := hg g2 (List.mem_cons_of_mem _ h2) x hx; omega)
      (by omega) (by omega) (fun g2 h2 => hXg g2 (List.mem_cons_of_mem _ h2)) hL hd
      (fun x hx hxd hxX => hframe x (by omega) hxd hxX)
    refine ⟨?_, ?_⟩
    · simp only [spineTmp, Rep]
      refine ⟨by simpa using hn2, hsub, Rep.frame hrep.2.2 ?_⟩
      intro x hx
      have := hg g (List.mem_cons_self _ _) x hx
      refine hframe x (by omega) ?_ ?_
      · rcases hdc with ⟨_, h⟩ | h <;> omega
      · rintro rfl
        exact hXg g (List.mem_cons_self _ _) hx
    · rw [hframe par (by omega) (by rcases hdc with ⟨_, h⟩ | h <;> omega) (by omega), hpar]
      simp [spineTmp, topLen]

theorem splitLeaf_ok (s : State) (x : Nat) (n : node) (d : List Char) (pos : Int)
    (hx : s.heap x = some n) (hd : n.data = some d) (h0 : 0 ≤ pos)
    (h1 : pos ≤ (d.length : Int)) (ho : s.oom = []) (hxlt : x < s.next) :
    splitLeaf (some x) pos s = Res.ret (some s.next)
      (((s.bump.put s.next ⟨if (d.length : Int) - pos = 0 then some [] else none, 0, none,
          none, none⟩).put s.next ⟨some (d.drop pos.toNat), 0, none, none, none⟩).put x
        { n with data := some (d.take pos.toNat) }) := by
  have h0n : ¬ pos < 0 := by omega
  have h1n : ¬ pos > (d.length : Int) := by omega
  have hne : ¬ x = s.next := by omega
  have h1n2 : ¬ (d.length : Int) < pos := by omega
  simp [splitLeaf, load, hx, hd, cstr, h0n, h1n, h1n2,
    initNode_ok s ho _ (show (0 : Int) ≤ (d.length : Int) - pos by omega), setData,
    modify, malloc, ho, hne]

theorem Tree.depthAt_le_height : ∀ (t : Tree) (pos : Int), t.depthAt pos ≤ t.height
  | Tree.nil, _ => by simp [Tree.depthAt]
  | Tree.nd a d len l r, pos => by
    have hl := Tree.depthAt_le_height l pos
    have hr := Tree.depthAt_le_height r (pos - len)
    unfold Tree.depthAt
    simp only [Tree.height]
    split_ifs <;> omega

theorem Tree.grafts_length_le : ∀ (t : Tree) (pos : Int), (t.grafts pos).length ≤ t.depthAt pos
  | Tree.nil, _ => by simp [Tree.grafts]
  | Tree.nd a d len l r, pos => by
    have hl := Tree.grafts_length_le l pos
    have hr := Tree.grafts_length_le r (pos - len)
    unfold Tree.depthAt Tree.grafts
    split_ifs <;> simp <;> omega

theorem Tree.height_cut : ∀ (t : Tree) (pos : Int), (t.cut pos).height ≤ t.height
  | Tree.nil, _ => by simp [Tree.cut]
  | Tree.nd a d len l r, pos => by
    have hl := Tree.height_cut l pos
    have hr := Tree.height_cut r (pos - len)
    unfold Tree.cut
    split_ifs with h1 h2
    · obtain ⟨rfl, rfl⟩ := h1; simp [Tree.height]
    · simp only [Tree.height]; omega
    · simp only [Tree.height]; omega

theorem Tree.height_pos {t : Tree} (h : t ≠ Tree.nil) : 1 ≤ t.height := by
  cases t with
  | nil => exact absurd rfl h
  | nd a d len l r => simp [Tree.height]

theorem Tree.height_spine : ∀ (t : Tree) (pos : Int) (n L : Nat) (ld : List Char),
    t ≠ Tree.nil →
    (spineFin (t.grafts pos) n (Tree.nd L ld 0 Tree.nil Tree.nil)).height ≤ t.height
  | Tree.nil, _, _, _, _, h => absurd rfl h
  | Tree.nd a d len l r, pos, n, L, ld, _ => by
    unfold Tree.grafts
    split_ifs with h1 h2 h3
    · simp [spineFin, Tree.height]
    · have hln : l ≠ Tree.nil := by
        intro h; exact h1 ⟨h, h3⟩
      have := Tree.height_spine l pos n L ld hln
      simp only [Tree.height]; omega
    · by_cases hln : l = Tree.nil
      · subst hln
        have := Tree.height_pos h3
        simp [Tree.grafts, spineFin, Tree.height]
        omega
      · have := Tree.height_spine l pos (n + 1) L ld hln
        simp only [spineFin, Tree.height]; omega
    · by_cases hrn : r = Tree.nil
      · subst hrn
        simp [Tree.grafts, spineFin, Tree.height]
      · have := Tree.height_spine r (pos - len) n L ld hrn
        simp only [Tree.height]; omega

/-! ## `split` on a well-formed rope -/

theorem Tree.cut_not_graft : ∀ (t : Tree) (pos : Int), t.addrs.Nodup →
    ∀ x ∈ (t.cut pos).addrs, ∀ g ∈ t.grafts pos, x ∉ g.addrs
  | Tree.nil, _, _, x, h, _, _ => by simp [Tree.cut, Tree.addrs] at h
  | Tree.nd a d len l r, pos, hnd, x, hx, g, hg => by
    unfold Tree.cut at hx
    unfold Tree.grafts at hg
    split_ifs at hx hg with h1 h2 h3
    · simp at hg
    · simp only [Tree.addrs, List.mem_cons, List.mem_append, List.not_mem_nil, or_false] at hx
      have hgs := (Tree.grafts_sub l pos g hg).2
      rcases hx with rfl | hx
      · intro hxg; exact Tree.nodup_root_left hnd (hgs _ hxg)
      · exact Tree.cut_not_graft l pos (Tree.nodup_left hnd) x hx g hg
    · simp only [Tree.addrs, List.mem_cons, List.mem_append, List.not_mem_nil, or_false] at hx
      rcases List.mem_cons.1 hg with rfl | hg
      · rcases hx with rfl | hx
        · exact Tree.nodup_root_right hnd
        · intro hxg; exact Tree.nodup_disjoint hnd (Tree.cut_addrs l pos x hx) hxg
      · have hgs := (Tree.grafts_sub l pos g hg).2
        rcases hx with rfl | hx
        · intro hxg; exact Tree.nodup_root_left hnd (hgs _ hxg)
        · exact Tree.cut_not_graft l pos (Tree.nodup_left hnd) x hx g hg
    · simp only [Tree.addrs, List.mem_cons, List.mem_append] at hx
      have hgs := (Tree.grafts_sub r _ g hg).2
      rcases hx with rfl | hx | hx
      · intro hxg; exact Tree.nodup_root_right hnd (hgs _ hxg)
      · intro hxg; exact Tree.nodup_disjoint hnd hx (hgs _ hxg)
      · exact Tree.cut_not_graft r _ (Tree.nodup_right hnd) x hx g hg

theorem spineFin_ne_nil (G : List Tree) (n : Nat) (b : Tree) (hb : b ≠ Tree.nil) :
    spineFin G n b ≠ Tree.nil := by
  cases G <;> simp [spineFin, hb]

theorem split_spec (s : State) (rope : Nat) (l : Tree) (p : Int) (fuel : Nat)
    (hr : IsRope s rope l) (he : s.currentError = ErrorCodes.OK) (ho : s.oom = [])
    (h0 : 0 ≤ p) (hp : p < (l.content.length : Int)) (hf : l.height + 2 ≤ fuel) :
    ∃ s2 l1 l2, split fuel (some rope) p s = Res.ret (some s.next) s2
      ∧ SplitPost s s2 rope l p l1 l2 := by
  obtain ⟨d0, hroot⟩ := hr.rootRec
  have hln : l ≠ Tree.nil := by
    rintro rfl; simp at hp; omega
  -- the rope as one tree, root included
  obtain ⟨t0, ht0⟩ : ∃ t0, t0 = Tree.nd rope d0 (l.content.length : Int) l Tree.nil := ⟨_, rfl⟩
  have hleaf0 : ¬ (l = Tree.nil ∧ Tree.nil = Tree.nil) := by simp [hln]
  have ht0n : t0 ≠ Tree.nil := by simp [ht0]
  have hcont0 : t0.content = l.content := by
    simp [ht0, Tree.content, hln]
  have hrep0 : Rep s.heap t0 none := by
    rw [ht0]; exact ⟨by simpa using hroot, hr.rep, trivial⟩
  have haddr0 : t0.addrs = rope :: l.addrs := by simp [ht0, Tree.addrs]
  have hnd0 : t0.addrs.Nodup := by rw [haddr0]; exact hr.nodup
  have hb0 : ∀ a ∈ t0.addrs, a < s.next := by rw [haddr0]; exact hr.bound
  have hwf0 : t0.wf := by
    rw [ht0]; exact ⟨hr.wf, trivial, fun _ => rfl⟩
  have hp0 : p < (t0.content.length : Int) := by rw [hcont0]; exact hp
  have hgr0 : t0.grafts p = l.grafts p := by simp [ht0, Tree.grafts, hln, hp]
  have hla0 : t0.leafAddr p = l.leafAddr p := by simp [ht0, Tree.leafAddr, hln, hp]
  have hld0 : t0.leafData p = l.leafData p := by simp [ht0, Tree.leafData, hln, hp]
  have hlp0 : t0.leafPos p = l.leafPos p := by simp [ht0, Tree.leafPos, hln, hp]
  have hdp0 : t0.depthAt p = l.depthAt p + 1 := by simp [ht0, Tree.depthAt, hln, hp]
  have hcut0 : t0.cut p = Tree.nd rope d0 p (l.cut p) Tree.nil := by
    simp [ht0, Tree.cut, hln, hp]
  have hdepth := Tree.depthAt_le_height l p
  have hglen := Tree.grafts_length_le l p
  -- phase a: the new root
  obtain ⟨sa, hsa⟩ : ∃ sa, sa = s.bump.put s.next ⟨some [], 0, none, none, none⟩ := ⟨_, rfl⟩
  have hinit : initNode 0 s = Res.ret (some s.next) sa := by
    rw [initNode_ok s ho 0 (le_refl 0), hsa]; simp
  have hsa_old : ∀ x, x < s.next → sa.heap x = s.heap x := by
    intro x hx; rw [hsa]; simp [show ¬ x = s.next by omega]
  have hrepa : Rep sa.heap t0 none :=
    Rep.frame hrep0 (fun a ha => hsa_old a (hb0 a ha))
  -- phase b: the descent
  obtain ⟨f1, hf1⟩ : ∃ f1, fuel = f1 + t0.depthAt p + 1 := ⟨fuel - t0.depthAt p - 1, by omega⟩
  obtain ⟨sb, hrunb, hnextb, herrb, hoomb, hframeb, hspb, hcnb⟩ :=
    splitDescend_spec fuel (some s.next) t0 sa f1 s.next (some []) none none p none ht0n hrepa
      hnd0 (fun a ha => by have := hb0 a ha; rw [hsa]; simp; omega) hwf0 h0 hp0
      (by rw [hsa]; simp) (fun hm => by have := hb0 _ hm; omega) (by rw [hsa]; simp)
      (by rw [hsa]; simpa using ho)
  rw [← hf1] at hrunb
  have hsan : sa.next = s.next + 1 := by rw [hsa]; simp
  have hsae : sa.currentError = ErrorCodes.OK := by rw [hsa]; simpa using he
  rw [hgr0, hsan] at hnextb hframeb hspb hcnb
  rw [hgr0, hla0, hlp0, hsan, hcont0, show t0.root = some rope by rw [ht0]; rfl] at hrunb
  have hGsub : ∀ g ∈ l.grafts p, g ≠ Tree.nil ∧ ∀ x ∈ g.addrs, x ∈ l.addrs :=
    fun g hg => Tree.grafts_sub l p g hg
  have hGlt : ∀ g ∈ l.grafts p, ∀ x ∈ g.addrs, x < s.next :=
    fun g hg x hx => hr.bound x (List.mem_cons_of_mem _ ((hGsub g hg).2 x hx))
  -- phase c: the leaf and its split
  obtain ⟨nX, hX, hXd, hXl, hXr⟩ := Rep.leaf_rec t0 p none hrep0 ht0n hwf0 h0 hp0
  rw [hld0] at hXd
  rw [hla0] at hX
  have hXmem : l.leafAddr p ∈ t0.addrs := hla0 ▸ Tree.leafAddr_mem t0 p ht0n hwf0 h0 hp0
  have hXlt : l.leafAddr p < s.next := hb0 _ hXmem
  have hXng : ∀ g ∈ l.grafts p, l.leafAddr p ∉ g.addrs := by
    intro g hg
    have := Tree.leafAddr_not_graft t0 p ht0n hwf0 h0 hp0 hnd0 g (hgr0 ▸ hg)
    rwa [hla0] at this
  have hXb : sb.heap (l.leafAddr p) = some nX := by
    rw [hframeb _ (by omega) (by omega)
      (fun g hg hgr => hXng g hg (Tree.root_mem_addrs hgr)), hsa_old _ hXlt, hX]
  obtain ⟨hq0, hq1⟩ := Tree.leafPos_bounds t0 p ht0n hwf0 h0 hp0
  rw [hlp0] at hq0
  rw [hlp0, hld0] at hq1
  have hoomb2 : sb.oom = [] := hoomb
  have hsplit := splitLeaf_ok sb (l.leafAddr p) nX (l.leafData p) (l.leafPos p) hXb hXd hq0
    (by omega) hoomb2 (by omega)
  obtain ⟨sc, hsc⟩ : ∃ sc, sc = ((sb.bump.put sb.next
      ⟨if ((l.leafData p).length : Int) - l.leafPos p = 0 then some [] else none, 0, none, none,
        none⟩).put sb.next ⟨some ((l.leafData p).drop (l.leafPos p).toNat), 0, none, none,
        none⟩).put (l.leafAddr p) { nX with data := some ((l.leafData p).take (l.leafPos p).toNat) } :=
    ⟨_, rfl⟩
  rw [← hsc] at hsplit
  have hsce : sc.currentError = ErrorCodes.OK := by
    rw [hsc]; simp [herrb, hsae]
  have hscL : sc.heap sb.next
      = some ⟨some ((l.leafData p).drop (l.leafPos p).toNat), 0, none, none, none⟩ := by
    rw [hsc]; simp [show ¬ sb.next = l.leafAddr p by omega]
  have hscX : sc.heap (l.leafAddr p)
      = some { nX with data := some ((l.leafData p).take (l.leafPos p).toNat) } := by
    rw [hsc]; simp
  have hsc_other : ∀ x, x ≠ sb.next → x ≠ l.leafAddr p → sc.heap x = sb.heap x := by
    intro x h1 h2; rw [hsc]; simp [h1, h2]
  -- phase d: the new leaf goes under the innermost spine record
  have hdc := deepest_cases (l.grafts p) s.next (s.next + 1)
  obtain ⟨cn, hcn⟩ : ∃ cn, cn = deepest s.next (s.next + 1) (l.grafts p) := ⟨_, rfl⟩
  rw [← hcn] at hdc hrunb
  have hcn_ge : s.next ≤ cn := by rcases hdc with ⟨_, h⟩ | h <;> omega
  have hcn_lt : cn < sb.next := by rcases hdc with ⟨_, h⟩ | h <;> omega
  obtain ⟨nd0, hnd0b⟩ := spineTmp_deepest_rec (l.grafts p) (s.next + 1) s.next _ hspb hcnb
  rw [← hcn] at hnd0b
  have hnd0c : sc.heap cn = some nd0 := by
    rw [hsc_other cn (by omega) (by omega), hnd0b]
  obtain ⟨se, hse⟩ : ∃ se, se = ((sc.put sb.next
      ⟨some ((l.leafData p).drop (l.leafPos p).toNat), 0, none, none, some cn⟩).put cn
      { nd0 with left := some sb.next }).put cn
      { nd0 with left := some sb.next,
                 leftLen := ((l.leafData p).length : Int) - l.leafPos p } := ⟨_, rfl⟩
  have hseL : se.heap sb.next
      = some ⟨some ((l.leafData p).drop (l.leafPos p).toNat), 0, none, none, some cn⟩ := by
    rw [hse]; simp [show ¬ sb.next = cn by omega]
  have hsecn : se.heap cn = some ({ nd0 with left := some sb.next, leftLen :=
      ((l.leafData p).length : Int) - l.leafPos p } : node) := by
    rw [hse]; simp
  have hse_other : ∀ x, x ≠ sb.next → x ≠ cn → se.heap x = sc.heap x := by
    intro x h1 h2; rw [hse]; simp [h1, h2]
  have hseX : se.heap (l.leafAddr p)
      = some { nX with data := some ((l.leafData p).take (l.leafPos p).toNat) } := by
    rw [hse_other _ (by omega) (by omega), hscX]
  obtain ⟨hspe, hcne⟩ := @spineTmp_attach sb.heap se.heap sb.next (l.leafAddr p)
    ((l.leafData p).drop (l.leafPos p).toNat) (((l.leafData p).length : Int) - l.leafPos p)
    (l.grafts p) (s.next + 1) s.next (some []) none none hspb hcnb (by omega)
    (fun g hg x hx => by have := hGlt g hg x hx; omega) (by omega) hXlt hXng
    (by rw [← hcn]; exact hseL)
    (by
      intro n1 hn1
      rw [← hcn] at hn1 ⊢
      rw [hnd0b] at hn1
      cases hn1
      exact hsecn)
    (by
      intro x hx hxd hxX
      rw [← hcn] at hxd
      rw [hse_other x (by omega) hxd, hsc_other x (by omega) hxX])
  -- phase e: the original rope as the first ascending loop finds it
  have hse_old : ∀ x, x < s.next → x ≠ l.leafAddr p →
      (∀ g ∈ l.grafts p, g.root ≠ some x) → se.heap x = s.heap x := by
    intro x hx hxX hxg
    rw [hse_other x (by omega) (by omega), hsc_other x (by omega) hxX,
      hframeb x (by omega) (by omega) hxg, hsa_old x hx]
  have hpre : PathRep se.heap t0 p none := by
    refine PathRep.of_rep t0 p none hrep0 ht0n hwf0 h0 hp0 ?_ ?_
    · intro x hx
      have hxm := Tree.keep_sub t0 p x hx
      refine hse_old x (hb0 x hxm) ?_ ?_
      · rintro rfl
        exact Tree.leafAddr_not_keep t0 p ht0n hwf0 h0 hp0 hnd0 (hla0 ▸ hx)
      · intro g hg hgr
        exact Tree.keep_not_graft t0 p hnd0 x hx g (hgr0 ▸ hg) (Tree.root_mem_addrs hgr)
    · rw [hla0, hld0, hlp0, hX, hseX]; rfl
  have hil0 : t0.isLeaf = false := by simp [ht0, Tree.isLeaf, hln]
  obtain ⟨ln, pa, pn, hln1, hln2, hpn, hpnr⟩ :=
    PathRep.leaf_parent t0 p none hpre ht0n hil0 hwf0 h0 hp0 hnd0
  rw [hla0] at hln1 hpnr
  obtain ⟨sm, hsm⟩ : ∃ sm : Int, sm = if pn.right = some (l.leafAddr p) then 0 else 1 := ⟨_, rfl⟩
  have hsm1 : t0.lastLeft p = true → sm = 1 := by
    intro h; rw [hsm]; simp [hpnr h]
  -- phase f: the first ascending loop
  obtain ⟨sf, hrunf, hrepf, hframef, hnextf, herrf, hoomf⟩ :=
    splitAscendOrig_spec (some rope) t0 se (f1 + 1) p none sm ht0n hpre hnd0 hwf0 h0 hp0
      (fun x _ hx => by rw [ht0]; simpa using hx.symm) hsm1
  rw [hla0, hlp0, show f1 + 1 + t0.depthAt p = fuel by omega, hil0] at hrunf
  have hrunf2 : splitAscendOrig (some rope) fuel (some (l.leafAddr p)) (l.leafPos p) sm se
      = Res.ret () sf := by
    rw [hrunf, ht0, splitAscendOrig]; simp
  have hpath_lt : ∀ x ∈ t0.pathAddrs p, x < s.next :=
    fun x hx => hb0 x (Tree.pathAddrs_sub t0 p x hx)
  -- phase g: the second ascending loop
  have hspf : Rep sf.heap (spineTmp (l.grafts p) (s.next + 1)
      (Tree.nd sb.next ((l.leafData p).drop (l.leafPos p).toNat) 0 Tree.nil Tree.nil)
      (((l.leafData p).length : Int) - l.leafPos p)) (some s.next) := by
    refine Rep.frame hspe ?_
    intro x hx
    rw [spineTmp_addrs] at hx
    refine hframef x ?_
    intro hxp
    have hxlt := hpath_lt x hxp
    rcases spineFin_addrs _ _ _ x hx with h | ⟨g, hg, h⟩ | h
    · omega
    · exact Tree.keep_not_graft t0 p hnd0 x (Tree.pathAddrs_keep t0 p x hxp) g (hgr0 ▸ hg) h
    · simp [Tree.addrs] at h; omega
  have hbl : ((l.leafData p).length : Int) - l.leafPos p
      = (((Tree.nd sb.next ((l.leafData p).drop (l.leafPos p).toNat) 0 Tree.nil
          Tree.nil).content.length : Nat) : Int) := by
    simp [Tree.content]; omega
  obtain ⟨sg, hrung, hrepg, hframeg, hnextg, herrg, hoomg⟩ :=
    splitAscendNew_spec (some s.next) (l.grafts p) sf (fuel - (l.grafts p).length) (s.next + 1)
      s.next _ _ hspf (fun g hg => (hGsub g hg).1) hbl
      (fun j _ => by simp; omega)
      (fun g hg x hx => by have := hGlt g hg x hx; omega)
      (fun x hx => by simp [Tree.addrs] at hx; omega)
  rw [← hcn, show fuel - (l.grafts p).length + (l.grafts p).length = fuel by omega] at hrung
  obtain ⟨f2, hf2⟩ : ∃ f2, fuel - (l.grafts p).length = f2 + 1 :=
    ⟨fuel - (l.grafts p).length - 1, by omega⟩
  have hrung2 : splitAscendNew (some s.next) fuel (some cn) 0 sf
      = Res.ret (some s.next, cumOf (l.grafts p) (s.next + 1)
          (Tree.nd sb.next ((l.leafData p).drop (l.leafPos p).toNat) 0 Tree.nil Tree.nil)) sg := by
    rw [hrung, hf2, splitAscendNew]; simp
  -- phase h: the length of the new root
  have hsgN : sg.heap s.next = some ⟨some [], topLen (l.grafts p)
      (((l.leafData p).length : Int) - l.leafPos p), (spineFin (l.grafts p) (s.next + 1)
        (Tree.nd sb.next ((l.leafData p).drop (l.leafPos p).toNat) 0 Tree.nil Tree.nil)).root,
      none, none⟩ := by
    rw [hframeg s.next (Or.inl (by omega)),
      hframef s.next (fun h => by have := hpath_lt _ h; omega), hcne]
    simp
  obtain ⟨sh, hsh⟩ : ∃ sh, sh = sg.put s.next ⟨some [], ((spineFin (l.grafts p) (s.next + 1)
        (Tree.nd sb.next ((l.leafData p).drop (l.leafPos p).toNat) 0 Tree.nil
          Tree.nil)).content.length : Int), (spineFin (l.grafts p) (s.next + 1)
        (Tree.nd sb.next ((l.leafData p).drop (l.leafPos p).toNat) 0 Tree.nil Tree.nil)).root,
      none, none⟩ := ⟨_, rfl⟩
  have hsum := topLen_add_cumOf (l.grafts p) (s.next + 1)
    (Tree.nd sb.next ((l.leafData p).drop (l.leafPos p).toNat) 0 Tree.nil Tree.nil)
    (((l.leafData p).length : Int) - l.leafPos p) (fun g hg => (hGsub g hg).1) hbl
  have hm1 : setParent (some sb.next) (some cn) sc = Res.ret () (sc.put sb.next
      ⟨some ((l.leafData p).drop (l.leafPos p).toNat), 0, none, none, some cn⟩) := by
    simp [setParent, modify, hscL]
  have hm2 : setLeft (some cn) (some sb.next) (sc.put sb.next
      ⟨some ((l.leafData p).drop (l.leafPos p).toNat), 0, none, none, some cn⟩)
      = Res.ret () ((sc.put sb.next
      ⟨some ((l.leafData p).drop (l.leafPos p).toNat), 0, none, none, some cn⟩).put cn
      { nd0 with left := some sb.next }) := by
    simp [setLeft, modify, hnd0c, show ¬ cn = sb.next by omega]
  have hm3 : setLeftLen (some cn) (((l.leafData p).length : Int) - l.leafPos p) ((sc.put sb.next
      ⟨some ((l.leafData p).drop (l.leafPos p).toNat), 0, none, none, some cn⟩).put cn
      { nd0 with left := some sb.next }) = Res.ret () se := by
    rw [hse]; simp [setLeftLen, modify]
  have hm4 : setLeftLen (some s.next) (topLen (l.grafts p)
      (((l.leafData p).length : Int) - l.leafPos p) + cumOf (l.grafts p) (s.next + 1)
          (Tree.nd sb.next ((l.leafData p).drop (l.leafPos p).toNat) 0 Tree.nil Tree.nil)) sg
      = Res.ret () sh := by
    rw [hsh, hsum]; simp [setLeftLen, modify, hsgN]
  have hrun : split fuel (some rope) p s = Res.ret (some s.next) sh := by
    have hc1 : ¬ p < 0 := by omega
    have hc2 : ¬ p ≥ (l.content.length : Int) := by omega
    simp [split, load_ok hroot, hinit, hrunb, load_ok hXb, hXd, cstr,
      hsplit, getError, hsce, hm1, hm2, hm3, load_ok hln1, hln2, load_ok hpn, ← hsm, hrunf2,
      hrung2, load_ok hsgN, hm4, hc1, hc2]
  -- the two ropes after the call
  have hshn : sh.next = sb.next + 1 := by
    rw [hsh, put_next, hnextg, hnextf, hse]; simp [hsc]
  have hsh_old : ∀ x, x < s.next → sh.heap x = sf.heap x := by
    intro x hx
    rw [hsh, put_heap, if_neg (by omega), hframeg x (Or.inl (by omega))]
  rw [hcut0] at hrepf
  obtain ⟨hrf1, hrf2, _⟩ := hrepf
  have hcutc := Tree.content_cut l p hr.wf h0 hp
  have hropelt : rope < s.next := hr.bound rope (List.mem_cons_self _ _)
  have hl2a : ∀ x ∈ (spineFin (l.grafts p) (s.next + 1)
      (Tree.nd sb.next ((l.leafData p).drop (l.leafPos p).toNat) 0 Tree.nil Tree.nil)).addrs,
      (s.next < x ∧ x ≤ sb.next) ∨ ∃ g ∈ l.grafts p, x ∈ g.addrs := by
    intro x hx
    rcases spineFin_addrs _ _ _ x hx with h | h | h
    · left; omega
    · right; exact h
    · left; simp [Tree.addrs] at h; omega
  refine ⟨sh, l.cut p, spineFin (l.grafts p) (s.next + 1)
      (Tree.nd sb.next ((l.leafData p).drop (l.leafPos p).toNat) 0 Tree.nil Tree.nil), hrun, ?_⟩
  refine
    { left := ?_, right := ?_, leftContent := hcutc, rightContent := ?_,
      leftNe := Tree.cut_ne_nil p hln, rightNe := spineFin_ne_nil _ _ _ (by simp),
      err := ?_, oom := ?_, next := by omega, leftAddrs := Tree.cut_addrs l p,
      rightAddrs := ?_, disjoint := ?_, frame := ?_, leftHeight := Tree.height_cut l p,
      rightHeight := Tree.height_spine l p _ _ _ hln }
  · refine ⟨⟨d0, ?_⟩, ?_, ?_, ?_, Tree.wf_cut l p hr.wf h0 hp⟩
    · rw [hsh_old rope hropelt, hrf1, hcutc, List.length_take]
      have : ((min p.toNat l.content.length : Nat) : Int) = p := by omega
      rw [this]; simp
    · refine Rep.frame hrf2 (fun x hx => hsh_old x ?_)
      exact hr.bound x (List.mem_cons_of_mem _ (Tree.cut_addrs l p x hx))
    · exact hr.nodup.sublist (List.Sublist.cons₂ _ (Tree.cut_addrs_sublist l p))
    · intro x hx
      have : x < s.next := by
        rcases List.mem_cons.1 hx with rfl | hx
        · exact hropelt
        · exact hr.bound x (List.mem_cons_of_mem _ (Tree.cut_addrs l p x hx))
      omega
  · refine ⟨⟨[], by rw [hsh]; simp⟩, ?_, ?_, ?_, ?_⟩
    · refine Rep.frame hrepg (fun x hx => ?_)
      have : x ≠ s.next := by
        rcases hl2a x hx with h | ⟨g, hg, h⟩
        · omega
        · have := hGlt g hg x h; omega
      rw [hsh, put_heap, if_neg this]
    · refine List.nodup_cons.2 ⟨?_, ?_⟩
      · intro hx
        rcases hl2a _ hx with h | ⟨g, hg, h⟩
        · omega
        · have := hGlt g hg _ h; omega
      · refine spineFin_nodup _ _ _ (fun g hg => ?_)
          (fun g hg x hx => by have := hGlt g hg x hx; omega) ?_ (by simp [Tree.addrs])
          (fun x hx => by simp [Tree.addrs] at hx; omega)
        · exact Tree.grafts_nodup (List.nodup_cons.1 hr.nodup).2 hg
        · exact Tree.grafts_pairwise l p (List.nodup_cons.1 hr.nodup).2
    · intro x hx
      rcases List.mem_cons.1 hx with rfl | hx
      · omega
      · rcases hl2a x hx with h | ⟨g, hg, h⟩
        · omega
        · have := hGlt g hg x h; omega
    · exact spineFin_wf _ _ _ (Tree.grafts_wf l p hr.wf) (by simp [Tree.wf])
  · rw [spineFin_content _ _ _ (fun g hg => (hGsub g hg).1), Tree.content_drop l p hln hr.wf h0 hp]
    simp [Tree.content]
  · rw [hsh, put_err, herrg, herrf, hse]; simp [hsce, he]
  · rw [hsh, put_oom, hoomg, hoomf, hse]; simp [hsc, hoomb2, ho]
  · intro x hx
    rcases hl2a x hx with h | ⟨g, hg, h⟩
    · right; omega
    · left; exact (hGsub g hg).2 x h
  · intro x hx hx2
    rcases hl2a x hx2 with h | ⟨g, hg, h⟩
    · have := hr.bound x (List.mem_cons_of_mem _ (Tree.cut_addrs l p x hx)); omega
    · exact Tree.cut_not_graft l p (List.nodup_cons.1 hr.nodup).2 x hx g hg h
  · intro x hx hxr hxl
    have hxt : x ∉ t0.addrs := by rw [haddr0]; simp [hxr, hxl]
    rw [hsh_old x hx, hframef x (fun h => hxt (Tree.pathAddrs_sub t0 p x h))]
    refine hse_old x hx ?_ ?_
    · rintro rfl; exact hxt hXmem
    · intro g hg hgr
      exact hxl ((hGsub g hg).2 x (Tree.root_mem_addrs hgr))

/-! ## Building blocks of `insert` and `delete` -/

theorem hasParent_ok {s : State} {a : Nat} {n : node} (h : s.heap a = some n) :
    hasParent (some a) s = Res.ret (decide (n.parent ≠ none)) s := by
  simp [hasParent, load, h]

/-- `concat` of two present, parentless, disjoint trees. -/
theorem concat_spec (s : State) (tl tr : Tree) (len : Int)
    (hl : Rep s.heap tl none) (hr : Rep s.heap tr none) (hln : tl ≠ Tree.nil)
    (hrn : tr ≠ Tree.nil) (hnd : (tl.addrs ++ tr.addrs).Nodup)
    (hb : ∀ x ∈ tl.addrs ++ tr.addrs, x < s.next) (ho : s.oom = []) :
    ∃ s2, concat tl.root tr.root len s = Res.ret (some s.next) s2
      ∧ Rep s2.heap (Tree.nd s.next [] len tl tr) none
      ∧ s2.next = s.next + 1 ∧ s2.currentError = s.currentError ∧ s2.oom = s.oom
      ∧ (∀ x, x ≠ s.next → tl.root ≠ some x → tr.root ≠ some x → s2.heap x = s.heap x) := by
  obtain ⟨la, ld, llen, ll, lr, rfl⟩ : ∃ la ld llen ll lr, tl = Tree.nd la ld llen ll lr := by
    cases tl with
    | nil => exact absurd rfl hln
    | nd la ld llen ll lr => exact ⟨la, ld, llen, ll, lr, rfl⟩
  obtain ⟨ra, rd, rlen, rl, rr, rfl⟩ : ∃ ra rd rlen rl rr, tr = Tree.nd ra rd rlen rl rr := by
    cases tr with
    | nil => exact absurd rfl hrn
    | nd ra rd rlen rl rr => exact ⟨ra, rd, rlen, rl, rr, rfl⟩
  have hla := hl.1
  have hra := hr.1
  have hla_lt : la < s.next := hb la (by simp [Tree.addrs])
  have hra_lt : ra < s.next := hb ra (by simp [Tree.addrs])
  have hne : la ≠ ra := by
    rintro rfl
    rw [List.nodup_append] at hnd
    exact hnd.2.2 (Tree.mem_addrs_root _ _ _ _ _) (Tree.mem_addrs_root _ _ _ _ _)
  have h1 : ¬ la = s.next := by omega
  have h2 : ¬ ra = s.next := by omega
  have h3 : ¬ s.next = la := by omega
  have h4 : ¬ s.next = ra := by omega
  have h5 : ¬ ra = la := fun h => hne h.symm
  refine ⟨(((((s.bump.put s.next ⟨some [], 0, none, none, none⟩).put s.next
      ⟨some [], 0, some la, none, none⟩).put s.next ⟨some [], 0, some la, some ra, none⟩).put s.next
      ⟨some [], len, some la, some ra, none⟩).put la
      ⟨some ld, llen, ll.root, lr.root, some s.next⟩).put ra
      ⟨some rd, rlen, rl.root, rr.root, some s.next⟩, ?_, ?_, ?_, ?_, ?_, ?_⟩
  · simp [concat, hasParent_ok hla, hasParent_ok hra, initNode_ok s ho 0 (le_refl 0), setLeft,
      setRight, setLeftLen, setParent, modify, hla, hra, h1, h2, h3, h4, hne, h5]
  · refine ⟨by simp [h3, h4], ?_, ?_⟩
    · refine Rep.reparent hl (by simp [hne]) ?_
      intro x hx
      have hxm : x ∈ (Tree.nd la ld llen ll lr).addrs := by
        simp only [Tree.addrs, List.mem_cons]; right; exact hx
      have hxlt := hb x (List.mem_append_left _ hxm)
      have hx1 : x ≠ la := by
        rintro rfl
        have := Tree.nodup_root_left (List.Nodup.of_append_left hnd)
        have := Tree.nodup_root_right (List.Nodup.of_append_left hnd)
        simp_all
      have hx2 : x ≠ ra := by
        rintro rfl
        rw [List.nodup_append] at hnd
        exact hnd.2.2 hxm (Tree.mem_addrs_root _ _ _ _ _)
      simp [hx1, hx2, show ¬ x = s.next by omega]
    · refine Rep.reparent hr (by simp) ?_
      intro x hx
      have hxm : x ∈ (Tree.nd ra rd rlen rl rr).addrs := by
        simp only [Tree.addrs, List.mem_cons]; right; exact hx
      have hxlt := hb x (List.mem_append_right _ hxm)
      have hx1 : x ≠ ra := by
        rintro rfl
        have := Tree.nodup_root_left (List.Nodup.of_append_right hnd)
        have := Tree.nodup_root_right (List.Nodup.of_append_right hnd)
        simp_all
      have hx2 : x ≠ la := by
        rintro rfl
        rw [List.nodup_append] at hnd
        exact hnd.2.2 (Tree.mem_addrs_root _ _ _ _ _) hxm
      simp [hx1, hx2, show ¬ x = s.next by omega]
  · simp
  · simp
  · simp
  · intro x hx1 hx2 hx3
    simp at hx2 hx3
    simp [hx1, Ne.symm hx2, Ne.symm hx3]

theorem freeNode_ok {s : State} {a : Nat} {n : node} (h : s.heap a = some n) :
    freeNode (some a) s = Res.ret () (s.del a) := by
  simp [freeNode, load, free, h]

/-- Clearing the parent pointer of the tree under a root. -/
theorem Rep.detach {s : State} {t : Tree} {par : Option Nat} (hr : Rep s.heap t par)
    (hn : t ≠ Tree.nil) (hnd : t.addrs.Nodup) :
    ∃ s2, setParent t.root none s = Res.ret () s2 ∧ Rep s2.heap t none
      ∧ s2.next = s.next ∧ s2.currentError = s.currentError ∧ s2.oom = s.oom
      ∧ (∀ x, t.root ≠ some x → s2.heap x = s.heap x) := by
  obtain ⟨a, d, len, l, r, rfl⟩ : ∃ a d len l r, t = Tree.nd a d len l r := by
    cases t with
    | nil => exact absurd rfl hn
    | nd a d len l r => exact ⟨a, d, len, l, r, rfl⟩
  refine ⟨s.put a ⟨some d, len, l.root, r.root, none⟩, ?_, ?_, rfl, rfl, rfl, ?_⟩
  · simp [setParent, modify, hr.1]
  · refine Rep.reparent hr (by simp) ?_
    intro x hx
    have : x ≠ a := by
      rintro rfl
      have h1 := Tree.nodup_root_left hnd
      have h2 := Tree.nodup_root_right hnd
      simp_all
    simp [this]
  · intro x hx
    simp at hx
    simp [Ne.symm hx]

/-- A fresh root over a parentless tree, as at the end of `insert` and `delete`. -/
theorem newRoot_spec (s : State) (t : Tree) (len : Int) (hr : Rep s.heap t none)
    (hn : t ≠ Tree.nil) (hnd : t.addrs.Nodup) (hb : ∀ x ∈ t.addrs, x < s.next)
    (hw : t.wf) (hlen : len = (t.content.length : Int)) (ho : s.oom = []) :
    ∃ s2, (do
        let retval ← initNode 0
        setLeftLen retval len
        setLeft retval t.root
        setParent t.root retval
        pure retval : M (Option Nat)) s = Res.ret (some s.next) s2
      ∧ IsRope s2 s.next t
      ∧ s2.next = s.next + 1 ∧ s2.currentError = s.currentError ∧ s2.oom = s.oom
      ∧ (∀ x, x ≠ s.next → t.root ≠ some x → s2.heap x = s.heap x) := by
  obtain ⟨a, d, tlen, l, r, rfl⟩ : ∃ a d tlen l r, t = Tree.nd a d tlen l r := by
    cases t with
    | nil => exact absurd rfl hn
    | nd a d tlen l r => exact ⟨a, d, tlen, l, r, rfl⟩
  have ha := hr.1
  have halt : a < s.next := hb a (Tree.mem_addrs_root _ _ _ _ _)
  have h1 : ¬ a = s.next := by omega
  have h2 : ¬ s.next = a := by omega
  refine ⟨(((s.bump.put s.next ⟨some [], 0, none, none, none⟩).put s.next
      ⟨some [], len, none, none, none⟩).put s.next ⟨some [], len, some a, none, none⟩).put a
      ⟨some d, tlen, l.root, r.root, some s.next⟩, ?_, ?_, ?_, ?_, ?_, ?_⟩
  · simp [initNode_ok s ho 0 (le_refl 0), setLeft, setLeftLen, setParent, modify, ha, h1, h2]
  · refine ⟨⟨[], by simp [h2, hlen]⟩, ?_, ?_, ?_, hw⟩
    · refine Rep.reparent hr (by simp) ?_
      intro x hx
      have hxm : x ∈ (Tree.nd a d tlen l r).addrs := by
        simp only [Tree.addrs, List.mem_cons]; right; exact hx
      have hxlt := hb x hxm
      have hx1 : x ≠ a := by
        rintro rfl
        have := Tree.nodup_root_left hnd
        have := Tree.nodup_root_right hnd
        simp_all
      simp [hx1, show ¬ x = s.next by omega]
    · refine List.nodup_cons.2 ⟨fun h => ?_, hnd⟩
      have := hb _ h; omega
    · intro x hx
      rcases List.mem_cons.1 hx with rfl | hx
      · simp
      · have := hb x hx; simp; omega
  · simp
  · simp
  · simp
  · intro x hx1 hx2
    simp at hx2
    simp [hx1, Ne.symm hx2]

/-! ## `insert` on a well-formed rope -/

theorem IsRope.carry {s s2 : State} {rope : Nat} {l : Tree} (hr : IsRope s rope l)
    (hf : ∀ x ∈ rope :: l.addrs, s2.heap x = s.heap x) (hn : s.next ≤ s2.next) :
    IsRope s2 rope l := by
  obtain ⟨d, hd⟩ := hr.rootRec
  refine ⟨⟨d, by rw [hf rope (List.mem_cons_self _ _)]; exact hd⟩, ?_, hr.nodup, ?_, hr.wf⟩
  · exact Rep.frame hr.rep (fun x hx => hf x (List.mem_cons_of_mem _ hx))
  · intro x hx; have := hr.bound x hx; omega

theorem insertFinish_spec (s : State) (fuel : Nat) (rope : Nat) (t : Tree) (rr : Option Nat)
    (dl ol : Int) (n : node) (hrope : s.heap rope = some n) (hrt : rope ∉ t.addrs)
    (hr : Rep s.heap t none) (hn : t ≠ Tree.nil) (hnd : t.addrs.Nodup)
    (hb : ∀ x ∈ t.addrs, x < s.next) (hw : t.wf) (hlen : dl + ol = (t.content.length : Int))
    (ho : s.oom = []) (he : s.currentError = ErrorCodes.OK) :
    ∃ s2, insertFinish fuel (some rope) t.root rr dl ol s = Res.ret (some s.next) s2
      ∧ IsRope s2 s.next t
      ∧ s2.next = s.next + 1 ∧ s2.currentError = ErrorCodes.OK ∧ s2.oom = []
      ∧ (∀ x, x ≠ s.next → x ≠ rope → t.root ≠ some x → s2.heap x = s.heap x) := by
  obtain ⟨a, d, tlen, l, r, rfl⟩ : ∃ a d tlen l r, t = Tree.nd a d tlen l r := by
    cases t with
    | nil => exact absurd rfl hn
    | nd a d tlen l r => exact ⟨a, d, tlen, l, r, rfl⟩
  have ha := hr.1
  have halt : a < s.next := hb a (Tree.mem_addrs_root _ _ _ _ _)
  have har : ¬ a = rope := by
    rintro rfl; exact hrt (Tree.mem_addrs_root _ _ _ _ _)
  have h1 : ¬ a = s.next := by omega
  have h2 : ¬ s.next = a := by omega
  have ho2 : (s.del rope).oom = [] := by simpa using ho
  refine ⟨((((s.del rope).bump.put s.next ⟨some [], 0, none, none, none⟩).put s.next
      ⟨some [], dl + ol, none, none, none⟩).put s.next
      ⟨some [], dl + ol, some a, none, none⟩).put a
      ⟨some d, tlen, l.root, r.root, some s.next⟩, ?_, ?_, ?_, ?_, ?_, ?_⟩
  · simp [insertFinish, freeNode_ok hrope, initNode_ok _ ho2 0 (le_refl 0), getError, he, setLeft,
      setLeftLen, setParent, modify, ha, h1, h2, har]
  · refine ⟨⟨[], by simp [h2, hlen]⟩, ?_, ?_, ?_, hw⟩
    · refine Rep.reparent hr (by simp) ?_
      intro x hx
      have hxm : x ∈ (Tree.nd a d tlen l r).addrs := by
        simp only [Tree.addrs, List.mem_cons]; right; exact hx
      have hxlt := hb x hxm
      have hx1 : x ≠ a := by
        rintro rfl
        have := Tree.nodup_root_left hnd
        have := Tree.nodup_root_right hnd
        simp_all
      have hx2 : x ≠ rope := by
        rintro rfl; exact hrt hxm
      simp [hx1, hx2, show ¬ x = s.next by omega]
    · refine List.nodup_cons.2 ⟨fun h => ?_, hnd⟩
      have := hb _ h; omega
    · intro x hx
      rcases List.mem_cons.1 hx with rfl | hx
      · simp
      · have := hb x hx; simp; omega
  · simp
  · simpa using he
  · simpa using ho
  · intro x hx1 hx2 hx3
    simp at hx3
    simp [hx1, hx2, Ne.symm hx3]

/-- The tree that `insert` builds: the new leaf at `a` alone, in front of or
behind the old tree under a `concat` record at `a + 1`, or between the two
parts of a split under two `concat` records. -/
theorem insert_empty (s : State) (rope : Nat) (l : Tree) (t : List Char) (fuel : Nat)
    (hr : IsRope s rope l) (he : s.currentError = ErrorCodes.OK) (ho : s.oom = [])
    (ht : t ≠ []) (hl : l.content = []) :
    ∃ s2, insert fuel (some rope) 1 t s = Res.ret (some (s.next + 1)) s2
      ∧ IsRope s2 (s.next + 1) (Tree.nd s.next t 0 Tree.nil Tree.nil)
      ∧ s2.currentError = ErrorCodes.OK ∧ s2.oom = [] := by
  obtain ⟨d0, hroot⟩ := hr.rootRec
  have hlen : (t.length : Int) ≠ 0 := by
    intro h; exact ht (List.length_eq_zero.1 (by omega))
  have hropelt : rope < s.next := hr.bound rope (List.mem_cons_self _ _)
  obtain ⟨s1, hs1⟩ : ∃ s1, s1 = (s.bump.put s.next ⟨none, 0, none, none, none⟩).put s.next
      ⟨some t, 0, none, none, none⟩ := ⟨_, rfl⟩
  have hs1rope : s1.heap rope = s.heap rope := by
    rw [hs1]; simp [show ¬ rope = s.next by omega]
  obtain ⟨s2, hrun, hrope2, hnext, herr, hoom, _⟩ :=
    insertFinish_spec s1 fuel rope (Tree.nd s.next t 0 Tree.nil Tree.nil) none (t.length : Int)
      (l.content.length : Int) _ (hs1rope.trans hroot)
      (by simp [Tree.addrs]; omega) (by rw [hs1]; simp [Rep]) (by simp)
      (by simp [Tree.addrs]) (by rw [hs1]; simp [Tree.addrs]) (by simp [Tree.wf])
      (by simp [Tree.content, hl]) (by rw [hs1]; simpa using ho) (by rw [hs1]; simpa using he)
  have hs1n : s1.next = s.next + 1 := by rw [hs1]; simp
  rw [hs1n] at hrun hrope2
  refine ⟨s2, ?_, hrope2, herr, hoom⟩
  have hemp : isEmpty (some rope) s1 = Res.ret 1 s1 := by
    simp [isEmpty, load, hs1rope, hroot, hl]
  have hinit : initNode (t.length : Int) s = Res.ret (some s.next)
      (s.bump.put s.next ⟨none, 0, none, none, none⟩) := by
    rw [initNode_ok s ho _ (by omega)]; simp [hlen]
  have hset : setData (some s.next) (some t) (s.bump.put s.next ⟨none, 0, none, none, none⟩)
      = Res.ret () s1 := by
    rw [hs1]; simp [setData, modify]
  have hc1 : ¬ (t.length : Int) ≤ 0 := by omega
  simp [insert, load_ok hroot, hl, hc1, hinit, getError, he, hset, hemp]
  simpa [hl] using hrun

theorem insert_front (s : State) (rope : Nat) (l : Tree) (t : List Char) (fuel : Nat)
    (hr : IsRope s rope l) (he : s.currentError = ErrorCodes.OK) (ho : s.oom = [])
    (ht : t ≠ []) (hl : l.content ≠ []) :
    ∃ s2, insert fuel (some rope) 1 t s = Res.ret (some (s.next + 2)) s2
      ∧ IsRope s2 (s.next + 2)
          (Tree.nd (s.next + 1) [] (t.length : Int) (Tree.nd s.next t 0 Tree.nil Tree.nil) l)
      ∧ s2.currentError = ErrorCodes.OK ∧ s2.oom = [] := by
  obtain ⟨d0, hroot⟩ := hr.rootRec
  have hlen : (t.length : Int) ≠ 0 := by
    intro h; exact ht (List.length_eq_zero.1 (by omega))
  have hllen : (l.content.length : Int) ≠ 0 := by
    intro h; exact hl (List.length_eq_zero.1 (by omega))
  have hln : l ≠ Tree.nil := by
    rintro rfl; simp at hl
  have hropelt : rope < s.next := hr.bound rope (List.mem_cons_self _ _)
  have hllt : ∀ x ∈ l.addrs, x < s.next := fun x hx => hr.bound x (List.mem_cons_of_mem _ hx)
  have hndl : l.addrs.Nodup := (List.nodup_cons.1 hr.nodup).2
  have hrl : rope ∉ l.addrs := (List.nodup_cons.1 hr.nodup).1
  obtain ⟨s1, hs1⟩ : ∃ s1, s1 = (s.bump.put s.next ⟨none, 0, none, none, none⟩).put s.next
      ⟨some t, 0, none, none, none⟩ := ⟨_, rfl⟩
  have hs1n : s1.next = s.next + 1 := by rw [hs1]; simp
  have hs1o : s1.oom = [] := by rw [hs1]; simpa using ho
  have hs1e : s1.currentError = ErrorCodes.OK := by rw [hs1]; simpa using he
  have hs1A : s1.heap s.next = some ⟨some t, 0, none, none, none⟩ := by rw [hs1]; simp
  have hs1old : ∀ x, x < s.next → s1.heap x = s.heap x := by
    intro x hx; rw [hs1]; simp [show ¬ x = s.next by omega]
  have hr1 : IsRope s1 rope l :=
    hr.carry (fun x hx => hs1old x (hr.bound x hx)) (by omega)
  -- the old tree is taken off its root
  obtain ⟨s2, hdet, hrep2, hs2n, hs2e, hs2o, hs2f⟩ := Rep.detach hr1.rep hln hndl
  have hlrootA : l.root ≠ some s.next := by
    intro h; have := hllt _ (Tree.root_mem_addrs h); omega
  have hlrootR : l.root ≠ some rope := fun h => hrl (Tree.root_mem_addrs h)
  have hs2A : s2.heap s.next = some ⟨some t, 0, none, none, none⟩ := by
    rw [hs2f _ hlrootA, hs1A]
  -- the new leaf goes in front of it
  obtain ⟨s3, hcat, hrep3, hs3n, hs3e, hs3o, hs3f⟩ :=
    concat_spec s2 (Tree.nd s.next t 0 Tree.nil Tree.nil) l (t.length : Int)
      (by simp [Rep, hs2A]) hrep2 (by simp) hln
      (by
        simp only [Tree.addrs, List.append_nil, List.singleton_append]
        exact List.nodup_cons.2 ⟨fun h => by have := hllt _ h; omega, hndl⟩)
      (by
        intro x hx
        simp only [Tree.addrs, List.append_nil, List.singleton_append, List.mem_cons] at hx
        rcases hx with rfl | hx
        · omega
        · have := hllt x hx; omega)
      (by rw [hs2o, hs1o])
  rw [hs2n, hs1n] at hcat hrep3 hs3n hs3f
  simp only [Tree.root_nd] at hcat hs3f
  have hs3rope : s3.heap rope = some ⟨some d0, (l.content.length : Int), l.root, none, none⟩ := by
    rw [hs3f rope (by omega) (by simp; omega) hlrootR, hs2f rope hlrootR, hs1old rope hropelt,
      hroot]
  -- the fresh root
  obtain ⟨s4, hfin, hrope4, hs4n, hs4e, hs4o, _⟩ :=
    insertFinish_spec s3 fuel rope
      (Tree.nd (s.next + 1) [] (t.length : Int) (Tree.nd s.next t 0 Tree.nil Tree.nil) l) none
      (t.length : Int) (l.content.length : Int) _ hs3rope
      (by
        simp only [Tree.addrs, List.append_nil, List.mem_cons, List.mem_append, not_or,
          List.not_mem_nil, or_false]
        exact ⟨by omega, by omega, hrl⟩)
      hrep3 (by simp)
      (by
        simp only [Tree.addrs, List.append_nil, List.singleton_append, List.nodup_cons,
          List.mem_cons, not_or]
        exact ⟨⟨by omega, fun h => by have := hllt _ h; omega⟩,
          fun h => by have := hllt _ h; omega, hndl⟩)
      (by
        intro x hx
        simp only [Tree.addrs, List.append_nil, List.singleton_append, List.mem_cons] at hx
        rcases hx with rfl | rfl | hx
        · omega
        · omega
        · have := hllt x hx; omega)
      (by simp [Tree.wf, Tree.content, hr.wf])
      (by simp [Tree.content, hln])
      (by rw [hs3o, hs2o, hs1o]) (by rw [hs3e, hs2e, hs1e])
  rw [hs3n] at hfin hrope4
  refine ⟨s4, ?_, hrope4, hs4e, hs4o⟩
  have hemp : isEmpty (some rope) s1 = Res.ret 0 s1 := by
    simp [isEmpty, load, hs1old rope hropelt, hroot, hllen, hln]
  have hinit : initNode (t.length : Int) s = Res.ret (some s.next)
      (s.bump.put s.next ⟨none, 0, none, none, none⟩) := by
    rw [initNode_ok s ho _ (by omega)]; simp [hlen]
  have hset : setData (some s.next) (some t) (s.bump.put s.next ⟨none, 0, none, none, none⟩)
      = Res.ret () s1 := by
    rw [hs1]; simp [setData, modify]
  have hc1 : ¬ (t.length : Int) ≤ 0 := by omega
  have hc2 : ¬ (l.content.length : Int) < 0 := by omega
  have he3 : s3.currentError = ErrorCodes.OK := by rw [hs3e, hs2e, hs1e]
  simp [insert, load_ok hroot, hc1, hc2, hinit, getError, he, hset, hemp, hdet, hcat, he3]
  simpa using hfin

theorem insert_back (s : State) (rope : Nat) (l : Tree) (t : List Char) (fuel : Nat)
    (hr : IsRope s rope l) (he : s.currentError = ErrorCodes.OK) (ho : s.oom = [])
    (ht : t ≠ []) (hl : l.content ≠ []) :
    ∃ s2, insert fuel (some rope) ((l.content.length : Int) + 1) t s
        = Res.ret (some (s.next + 2)) s2
      ∧ IsRope s2 (s.next + 2)
          (Tree.nd (s.next + 1) [] (l.content.length : Int) l
            (Tree.nd s.next t 0 Tree.nil Tree.nil))
      ∧ s2.currentError = ErrorCodes.OK ∧ s2.oom = [] := by
  obtain ⟨d0, hroot⟩ := hr.rootRec
  have hlen : (t.length : Int) ≠ 0 := by
    intro h; exact ht (List.length_eq_zero.1 (by omega))
  have hllen : (l.content.length : Int) ≠ 0 := by
    intro h; exact hl (List.length_eq_zero.1 (by omega))
  have hln : l ≠ Tree.nil := by
    rintro rfl; simp at hl
  have hropelt : rope < s.next := hr.bound rope (List.mem_cons_self _ _)
  have hllt : ∀ x ∈ l.addrs, x < s.next := fun x hx => hr.bound x (List.mem_cons_of_mem _ hx)
  have hndl : l.addrs.Nodup := (List.nodup_cons.1 hr.nodup).2
  have hrl : rope ∉ l.addrs := (List.nodup_cons.1 hr.nodup).1
  obtain ⟨s1, hs1⟩ : ∃ s1, s1 = (s.bump.put s.next ⟨none, 0, none, none, none⟩).put s.next
      ⟨some t, 0, none, none, none⟩ := ⟨_, rfl⟩
  have hs1n : s1.next = s.next + 1 := by rw [hs1]; simp
  have hs1o : s1.oom = [] := by rw [hs1]; simpa using ho
  have hs1e : s1.currentError = ErrorCodes.OK := by rw [hs1]; simpa using he
  have hs1A : s1.heap s.next = some ⟨some t, 0, none, none, none⟩ := by rw [hs1]; simp
  have hs1old : ∀ x, x < s.next → s1.heap x = s.heap x := by
    intro x hx; rw [hs1]; simp [show ¬ x = s.next by omega]
  have hr1 : IsRope s1 rope l :=
    hr.carry (fun x hx => hs1old x (hr.bound x hx)) (by omega)
  -- the old tree is taken off its root
  obtain ⟨s2, hdet, hrep2, hs2n, hs2e, hs2o, hs2f⟩ := Rep.detach hr1.rep hln hndl
  have hlrootA : l.root ≠ some s.next := by
    intro h; have := hllt _ (Tree.root_mem_addrs h); omega
  have hlrootR : l.root ≠ some rope := fun h => hrl (Tree.root_mem_addrs h)
  have hs2A : s2.heap s.next = some ⟨some t, 0, none, none, none⟩ := by
    rw [hs2f _ hlrootA, hs1A]
  -- the new leaf goes behind it
  obtain ⟨s3, hcat, hrep3, hs3n, hs3e, hs3o, hs3f⟩ :=
    concat_spec s2 l (Tree.nd s.next t 0 Tree.nil Tree.nil) (l.content.length : Int)
      hrep2 (by simp [Rep, hs2A]) hln (by simp)
      (by
        simp only [Tree.addrs, List.append_nil]
        rw [List.nodup_append]
        exact ⟨hndl, by simp, fun x hx hx2 => by
          have := hllt x hx; simp at hx2; omega⟩)
      (by
        intro x hx
        simp only [Tree.addrs, List.append_nil, List.mem_append, List.mem_cons,
          List.not_mem_nil, or_false] at hx
        rcases hx with hx | rfl
        · have := hllt x hx; omega
        · omega)
      (by rw [hs2o, hs1o])
  rw [hs2n, hs1n] at hcat hrep3 hs3n hs3f
  simp only [Tree.root_nd] at hcat hs3f
  have hs3rope : s3.heap rope = some ⟨some d0, (l.content.length : Int), l.root, none, none⟩ := by
    rw [hs3f rope (by omega) hlrootR (by simp; omega), hs2f rope hlrootR, hs1old rope hropelt,
      hroot]
  -- the fresh root
  obtain ⟨s4, hfin, hrope4, hs4n, hs4e, hs4o, _⟩ :=
    insertFinish_spec s3 fuel rope
      (Tree.nd (s.next + 1) [] (l.content.length : Int) l (Tree.nd s.next t 0 Tree.nil Tree.nil))
      none (t.length : Int) (l.content.length : Int) _ hs3rope
      (by
        simp only [Tree.addrs, List.append_nil, List.mem_cons, List.mem_append, not_or,
          List.not_mem_nil, or_false]
        exact ⟨by omega, hrl, by omega⟩)
      hrep3 (by simp)
      (by
        simp only [Tree.addrs, List.append_nil, List.nodup_cons, List.mem_append,
          List.mem_cons, List.not_mem_nil, or_false, not_or]
        refine ⟨⟨fun h => by have := hllt _ h; omega, by omega⟩, ?_⟩
        rw [List.nodup_append]
        exact ⟨hndl, by simp, fun x hx hx2 => by
          have := hllt x hx; simp at hx2; omega⟩)
      (by
        intro x hx
        simp only [Tree.addrs, List.append_nil, List.mem_cons, List.mem_append,
          List.not_mem_nil, or_false] at hx
        rcases hx with rfl | hx | rfl
        · omega
        · have := hllt x hx; omega
        · omega)
      (by simp [Tree.wf, Tree.content, hr.wf])
      (by simp [Tree.content, hln]; omega)
      (by rw [hs3o, hs2o, hs1o]) (by rw [hs3e, hs2e, hs1e])
  rw [hs3n] at hfin hrope4
  refine ⟨s4, ?_, hrope4, hs4e, hs4o⟩
  have hemp : isEmpty (some rope) s1 = Res.ret 0 s1 := by
    simp [isEmpty, load, hs1old rope hropelt, hroot, hllen, hln]
  have hinit : initNode (t.length : Int) s = Res.ret (some s.next)
      (s.bump.put s.next ⟨none, 0, none, none, none⟩) := by
    rw [initNode_ok s ho _ (by omega)]; simp [hlen]
  have hset : setData (some s.next) (some t) (s.bump.put s.next ⟨none, 0, none, none, none⟩)
      = Res.ret () s1 := by
    rw [hs1]; simp [setData, modify]
  have hc1 : ¬ (t.length : Int) ≤ 0 := by omega
  have hc2 : ¬ (l.content.length : Int) + 1 < 1 := by omega
  have hc3 : ¬ (l.content.length : Int) + 1 = 1 := by omega
  have he3 : s3.currentError = ErrorCodes.OK := by rw [hs3e, hs2e, hs1e]
  simp [insert, load_ok hroot, hc1, hc2, hc3, hinit, getError, he, hset, hemp, hdet, hcat, he3]
  simpa using hfin

theorem insert_middle (s : State) (rope : Nat) (l : Tree) (i : Int) (t : List Char) (fuel : Nat)
    (hr : IsRope s rope l) (he : s.currentError = ErrorCodes.OK) (ho : s.oom = [])
    (ht : t ≠ []) (hi1 : 1 < i) (hi2 : i ≤ (l.content.length : Int))
    (hf : l.height + 2 ≤ fuel) :
    ∃ s2 l1 l2 c1, insert fuel (some rope) i t s = Res.ret (some (c1 + 2)) s2
      ∧ IsRope s2 (c1 + 2)
          (Tree.nd (c1 + 1) [] (i - 1 + (t.length : Int))
            (Tree.nd c1 [] (l1.content.length : Int) l1 (Tree.nd s.next t 0 Tree.nil Tree.nil)) l2)
      ∧ l1.content = l.content.take (i - 1).toNat ∧ l2.content = l.content.drop (i - 1).toNat
      ∧ l1 ≠ Tree.nil ∧ l2 ≠ Tree.nil
      ∧ l1.height ≤ l.height ∧ l2.height ≤ l.height
      ∧ s2.currentError = ErrorCodes.OK ∧ s2.oom = [] := by
  obtain ⟨d0, hroot⟩ := hr.rootRec
  have hlen : (t.length : Int) ≠ 0 := by
    intro h; exact ht (List.length_eq_zero.1 (by omega))
  have hln : l ≠ Tree.nil := by
    rintro rfl; simp at hi2; omega
  have hropelt : rope < s.next := hr.bound rope (List.mem_cons_self _ _)
  have hllt : ∀ x ∈ l.addrs, x < s.next := fun x hx => hr.bound x (List.mem_cons_of_mem _ hx)
  have hrl : rope ∉ l.addrs := (List.nodup_cons.1 hr.nodup).1
  obtain ⟨s1, hs1⟩ : ∃ s1, s1 = (s.bump.put s.next ⟨none, 0, none, none, none⟩).put s.next
      ⟨some t, 0, none, none, none⟩ := ⟨_, rfl⟩
  have hs1n : s1.next = s.next + 1 := by rw [hs1]; simp
  have hs1o : s1.oom = [] := by rw [hs1]; simpa using ho
  have hs1e : s1.currentError = ErrorCodes.OK := by rw [hs1]; simpa using he
  have hs1A : s1.heap s.next = some ⟨some t, 0, none, none, none⟩ := by rw [hs1]; simp
  have hs1old : ∀ x, x < s.next → s1.heap x = s.heap x := by
    intro x hx; rw [hs1]; simp [show ¬ x = s.next by omega]
  have hr1 : IsRope s1 rope l :=
    hr.carry (fun x hx => hs1old x (hr.bound x hx)) (by omega)
  -- the split
  obtain ⟨s2, l1, l2, hsplit, P⟩ := split_spec s1 rope l (i - 1) fuel hr1 hs1e hs1o (by omega)
    (by omega) hf
  rw [hs1n] at hsplit
  have hP2 := P.right
  rw [hs1n] at hP2
  have hs2e : s2.currentError = ErrorCodes.OK := by rw [P.err, hs1e]
  have hs2o : s2.oom = [] := by rw [P.oom, hs1o]
  have hs2n : s.next + 1 < s2.next := by have := P.next; omega
  have hA1 : ∀ x ∈ l1.addrs, x < s.next := fun x hx => hllt x (P.leftAddrs x hx)
  have hA2 : ∀ x ∈ l2.addrs, (x < s.next ∨ s.next + 1 < x) ∧ x < s2.next := by
    intro x hx
    refine ⟨?_, hP2.bound x (List.mem_cons_of_mem _ hx)⟩
    rcases P.rightAddrs x hx with h | h
    · left; exact hllt x h
    · right; omega
  have hrope1 : rope ∉ l1.addrs := (List.nodup_cons.1 P.left.nodup).1
  have hrope2 : rope ∉ l2.addrs := by
    intro h
    rcases P.rightAddrs rope h with h | h
    · exact hrl h
    · omega
  have hndl1 : l1.addrs.Nodup := (List.nodup_cons.1 P.left.nodup).2
  have hndl2 : l2.addrs.Nodup := (List.nodup_cons.1 hP2.nodup).2
  have hs2A : s2.heap s.next = some ⟨some t, 0, none, none, none⟩ := by
    rw [P.frame s.next (by omega) (by omega) (fun h => by have := hllt _ h; omega), hs1A]
  obtain ⟨d1, hroot2⟩ := P.left.rootRec
  obtain ⟨d2, hrroot2⟩ := hP2.rootRec
  have hl1root : ∀ x, l1.root = some x → x < s.next := fun x h => hA1 x (Tree.root_mem_addrs h)
  have hl2root : ∀ x, l2.root = some x → (x < s.next ∨ s.next + 1 < x) ∧ x < s2.next :=
    fun x h => hA2 x (Tree.root_mem_addrs h)
  -- the left part is taken off its root and joined with the new leaf
  obtain ⟨s3, hdet3, hrep3, hs3n, hs3e, hs3o, hs3f⟩ := Rep.detach P.left.rep P.leftNe hndl1
  have hs3rope : s3.heap rope = some ⟨some d1, (l1.content.length : Int), l1.root, none, none⟩ := by
    rw [hs3f rope (fun h => hrope1 (Tree.root_mem_addrs h)), hroot2]
  have hs3A : s3.heap s.next = some ⟨some t, 0, none, none, none⟩ := by
    rw [hs3f _ (fun h => by have := hl1root _ h; omega), hs2A]
  obtain ⟨s4, hcat4, hrep4, hs4n, hs4e, hs4o, hs4f⟩ :=
    concat_spec s3 l1 (Tree.nd s.next t 0 Tree.nil Tree.nil) (l1.content.length : Int)
      hrep3 (by simp [Rep, hs3A]) P.leftNe (by simp)
      (by
        simp only [Tree.addrs, List.append_nil]
        rw [List.nodup_append]
        exact ⟨hndl1, by simp, fun x hx hx2 => by
          have := hA1 x hx; simp at hx2; omega⟩)
      (by
        intro x hx
        simp only [Tree.addrs, List.append_nil, List.mem_append, List.mem_cons,
          List.not_mem_nil, or_false] at hx
        rcases hx with hx | rfl
        · have := hA1 x hx; omega
        · omega)
      (by rw [hs3o, hs2o])
  rw [hs3n] at hcat4 hrep4 hs4n hs4f
  simp only [Tree.root_nd] at hcat4 hs4f
  -- the right part is taken off its root
  have hs4R : s4.heap (s.next + 1)
      = some ⟨some d2, (l2.content.length : Int), l2.root, none, none⟩ := by
    rw [hs4f _ (by omega) (fun h => by have := hl1root _ h; omega) (by simp),
      hs3f _ (fun h => by have := hl1root _ h; omega), hrroot2]
  have hrep4r : Rep s4.heap l2 (some (s.next + 1)) := by
    refine Rep.frame hP2.rep ?_
    intro x hx
    have hx2 := hA2 x hx
    rw [hs4f x (by omega) (fun h => P.disjoint x (Tree.root_mem_addrs h) hx)
      (by simp; omega), hs3f x (fun h => P.disjoint x (Tree.root_mem_addrs h) hx)]
  obtain ⟨s5, hdet5, hrep5, hs5n, hs5e, hs5o, hs5f⟩ := Rep.detach hrep4r P.rightNe hndl2
  have hrep5l : Rep s5.heap (Tree.nd s2.next [] (l1.content.length : Int) l1
      (Tree.nd s.next t 0 Tree.nil Tree.nil)) none := by
    refine Rep.frame hrep4 ?_
    intro x hx
    refine hs5f x (fun h => ?_)
    have h2 := hl2root x h
    simp only [Tree.addrs, List.append_nil, List.mem_cons, List.mem_append,
      List.not_mem_nil, or_false] at hx
    rcases hx with rfl | hx | rfl
    · omega
    · exact P.disjoint x hx (Tree.root_mem_addrs h)
    · omega
  obtain ⟨s6, hcat6, hrep6, hs6n, hs6e, hs6o, hs6f⟩ :=
    concat_spec s5 (Tree.nd s2.next [] (l1.content.length : Int) l1
      (Tree.nd s.next t 0 Tree.nil Tree.nil)) l2 (i - 1 + (t.length : Int))
      hrep5l hrep5 (by simp) P.rightNe
      (by
        simp only [Tree.addrs, List.append_nil, List.cons_append, List.nodup_cons,
          List.mem_append, List.mem_cons, List.not_mem_nil, or_false, not_or]
        refine ⟨⟨⟨fun h => by have := hA1 _ h; omega, by omega⟩,
          fun h => by have := hA2 _ h; omega⟩, ?_⟩
        rw [List.nodup_append]
        refine ⟨?_, hndl2, ?_⟩
        · rw [List.nodup_append]
          exact ⟨hndl1, by simp, fun x hx hx2 => by
            have := hA1 x hx; simp at hx2; omega⟩
        · intro x hx hx2
          rcases List.mem_append.1 hx with hx | hx
          · exact P.disjoint x hx hx2
          · simp at hx; have := hA2 x hx2; omega)
      (by
        intro x hx
        simp only [Tree.addrs, List.append_nil, List.cons_append, List.mem_cons,
          List.mem_append, List.not_mem_nil, or_false] at hx
        rw [hs5n, hs4n]
        rcases hx with rfl | (hx | rfl) | hx
        · omega
        · have := hA1 x hx; omega
        · omega
        · have := hA2 x hx; omega)
      (by rw [hs5o, hs4o, hs3o, hs2o])
  rw [hs5n, hs4n] at hcat6 hrep6 hs6n hs6f
  simp only [Tree.root_nd] at hcat6 hs6f
  -- the old roots go, a fresh root comes
  have hs6R : s6.heap (s.next + 1)
      = some ⟨some d2, (l2.content.length : Int), l2.root, none, none⟩ := by
    rw [hs6f _ (by omega) (by simp; omega) (fun h => by have := hl2root _ h; omega),
      hs5f _ (fun h => by have := hl2root _ h; omega), hs4R]
  obtain ⟨nr, hs6rope⟩ : ∃ nr, s6.heap rope = some nr := by
    have h63 : s6.heap rope = s3.heap rope := by
      rw [hs6f rope (by omega) (by simp; omega) (fun h => hrope2 (Tree.root_mem_addrs h)),
        hs5f rope (fun h => hrope2 (Tree.root_mem_addrs h)),
        hs4f rope (by omega) (fun h => hrope1 (Tree.root_mem_addrs h)) (by simp; omega)]
    exact ⟨_, h63.trans hs3rope⟩
  have hbig : ∀ x ∈ (Tree.nd (s2.next + 1) [] (i - 1 + (t.length : Int))
      (Tree.nd s2.next [] (l1.content.length : Int) l1 (Tree.nd s.next t 0 Tree.nil Tree.nil))
      l2).addrs, x ≠ rope ∧ x ≠ s.next + 1 ∧ x < s2.next + 2 := by
    intro x hx
    simp only [Tree.addrs, List.append_nil, List.cons_append, List.mem_cons,
      List.mem_append, List.not_mem_nil, or_false] at hx
    rcases hx with rfl | rfl | (hx | rfl) | hx
    · omega
    · omega
    · have := hA1 x hx
      exact ⟨fun h => hrope1 (h ▸ hx), by omega, by omega⟩
    · omega
    · have := hA2 x hx
      have h3 := (List.nodup_cons.1 hP2.nodup).1
      exact ⟨fun h => hrope2 (h ▸ hx), fun h => h3 (h ▸ hx), by omega⟩
  have hl1c : (l1.content.length : Int) = i - 1 := by
    rw [P.leftContent, List.length_take]; omega
  have hl2c : (l2.content.length : Int) = (l.content.length : Int) - (i - 1) := by
    rw [P.rightContent, List.length_drop]; omega
  obtain ⟨s8, hfin, hrope8, hs8n, hs8e, hs8o, _⟩ :=
    insertFinish_spec (s6.del (s.next + 1)) fuel rope
      (Tree.nd (s2.next + 1) [] (i - 1 + (t.length : Int))
        (Tree.nd s2.next [] (l1.content.length : Int) l1 (Tree.nd s.next t 0 Tree.nil Tree.nil))
        l2) (some (s.next + 1)) (t.length : Int) (l.content.length : Int) nr
      (by simp [show ¬ rope = s.next + 1 by omega, hs6rope])
      (fun h => (hbig rope h).1 rfl)
      (Rep.frame hrep6 (fun x hx => by simp [(hbig x hx).2.1]))
      (by simp)
      (by
        simp only [Tree.addrs, List.append_nil, List.cons_append, List.nodup_cons,
          List.mem_append, List.mem_cons, List.not_mem_nil, or_false, not_or]
        refine ⟨⟨by omega, ⟨fun h => by have := hA1 _ h; omega, by omega⟩,
          fun h => by have := hA2 _ h; omega⟩,
          ⟨⟨fun h => by have := hA1 _ h; omega, by omega⟩,
          fun h => by have := hA2 _ h; omega⟩, ?_⟩
        rw [List.nodup_append]
        refine ⟨?_, hndl2, ?_⟩
        · rw [List.nodup_append]
          exact ⟨hndl1, by simp, fun x hx hx2 => by
            have := hA1 x hx; simp at hx2; omega⟩
        · intro x hx hx2
          rcases List.mem_append.1 hx with hx | hx
          · exact P.disjoint x hx hx2
          · simp at hx; have := hA2 x hx2; omega)
      (by
        intro x hx
        have := (hbig x hx).2.2
        simp only [del_next]; omega)
      (by
        simp only [Tree.wf, Tree.content, P.left.wf, hP2.wf, true_and, and_true]
        simp [P.leftNe, hl1c])
      (by
        simp [Tree.content, P.leftNe, hl1c, hl2c]; omega)
      (by simp [hs6o, hs5o, hs4o, hs3o, hs2o]) (by simp [hs6e, hs5e, hs4e, hs3e, hs2e])
  simp only [del_next, hs6n] at hfin hrope8
  refine ⟨s8, l1, l2, s2.next, ?_, hrope8, P.leftContent, P.rightContent, P.leftNe, P.rightNe,
    P.leftHeight, P.rightHeight, hs8e, hs8o⟩
  have hemp : isEmpty (some rope) s1 = Res.ret 0 s1 := by
    have h1 : (l.content.length : Int) ≠ 0 := by omega
    simp [isEmpty, load, hs1old rope hropelt, hroot, h1, hln]
  have hinit : initNode (t.length : Int) s = Res.ret (some s.next)
      (s.bump.put s.next ⟨none, 0, none, none, none⟩) := by
    rw [initNode_ok s ho _ (by omega)]; simp [hlen]
  have hset : setData (some s.next) (some t) (s.bump.put s.next ⟨none, 0, none, none, none⟩)
      = Res.ret () s1 := by
    rw [hs1]; simp [setData, modify]
  have hc1 : ¬ (t.length : Int) ≤ 0 := by omega
  have hc2 : ¬ i < 1 := by omega
  have hc3 : ¬ i = 1 := by omega
  have hc4 : ¬ (l.content.length : Int) + 1 < i := by omega
  have hc5 : ¬ i = (l.content.length : Int) + 1 := by omega
  have he4 : s4.currentError = ErrorCodes.OK := by rw [hs4e, hs3e, hs2e]
  have he6 : s6.currentError = ErrorCodes.OK := by rw [hs6e, hs5e, hs4e, hs3e, hs2e]
  have hs3rope2 : s3.heap rope = s2.heap rope := by rw [hs3rope, hroot2]
  simp [insert, load_ok hroot, hc1, hc2, hc3, hc4, hc5, hinit, getError, he, hset, hemp, hsplit,
    hs2e, load_ok hroot2, hdet3, load_ok hs3rope, hcat4, he4, load_ok hs4R, hdet5, hcat6, he6,
    freeNode_ok hs6R]
  simpa using hfin

theorem insert_spec (s : State) (rope : Nat) (l : Tree) (i : Int) (t : List Char) (fuel : Nat)
    (hr : IsRope s rope l) (he : s.currentError = ErrorCodes.OK) (ho : s.oom = [])
    (ht : t ≠ []) (hi1 : 1 ≤ i) (hi2 : i ≤ (l.content.length : Int) + 1)
    (hf : l.height + 2 ≤ fuel) :
    ∃ s2 rv l2, insert fuel (some rope) i t s = Res.ret (some rv) s2
      ∧ IsRope s2 rv l2
      ∧ l2.content = l.content.take (i - 1).toNat ++ t ++ l.content.drop (i - 1).toNat
      ∧ l2.height ≤ l.height + 2
      ∧ s2.currentError = ErrorCodes.OK ∧ s2.oom = [] := by
  by_cases hl : l.content = []
  · have hi : i = 1 := by simp [hl] at hi2; omega
    subst hi
    obtain ⟨s2, hrun, hrope, herr, hoom⟩ := insert_empty s rope l t fuel hr he ho ht hl
    exact ⟨s2, _, _, hrun, hrope, by simp [Tree.content, hl], by simp [Tree.height], herr, hoom⟩
  · have hln : l ≠ Tree.nil := by
      rintro rfl; simp at hl
    by_cases h1 : i = 1
    · subst h1
      obtain ⟨s2, hrun, hrope, herr, hoom⟩ := insert_front s rope l t fuel hr he ho ht hl
      refine ⟨s2, _, _, hrun, hrope, by simp [Tree.content, hln], ?_, herr, hoom⟩
      simp only [Tree.height]; omega
    · by_cases h2 : i = (l.content.length : Int) + 1
      · subst h2
        obtain ⟨s2, hrun, hrope, herr, hoom⟩ := insert_back s rope l t fuel hr he ho ht hl
        refine ⟨s2, _, _, hrun, hrope, by simp [Tree.content, hln], ?_, herr, hoom⟩
        simp only [Tree.height]; omega
      · obtain ⟨s2, l1, l2, c1, hrun, hrope, hc1, hc2, hn1, hn2, hh1, hh2, herr, hoom⟩ :=
          insert_middle s rope l i t fuel hr he ho ht (by omega) (by omega) hf
        refine ⟨s2, _, _, hrun, hrope, by simp [Tree.content, hn1, hn2, hc1, hc2], ?_, herr, hoom⟩
        have hp1 := Tree.height_pos hn1
        simp [Tree.height]
        omega

/-! ## `freeAll` and `delete` -/

theorem freeAll_nil (fuel : Nat) (s : State) : freeAll (fuel + 1) none s = Res.ret () s := by
  simp [freeAll]

theorem freeAll_spec : ∀ (t : Tree) (s : State) (fuel : Nat) (par : Option Nat),
    Rep s.heap t par → t.addrs.Nodup → t.height + 1 ≤ fuel →
    ∃ s2, freeAll fuel t.root s = Res.ret () s2
      ∧ (∀ x, x ∉ t.addrs → s2.heap x = s.heap x) ∧ (∀ x ∈ t.addrs, s2.heap x = none)
      ∧ s2.next = s.next ∧ s2.currentError = s.currentError ∧ s2.oom = s.oom := by
  intro t
  induction t with
  | nil =>
    intro s fuel par _ _ hf
    obtain ⟨f, rfl⟩ : ∃ f, fuel = f + 1 := ⟨fuel - 1, by omega⟩
    exact ⟨s, freeAll_nil f s, fun _ _ => rfl, by simp [Tree.addrs], rfl, rfl, rfl⟩
  | nd a d len l r ihl ihr =>
    intro s fuel par hrep hnd hf
    obtain ⟨f, rfl⟩ : ∃ f, fuel = f + 1 := ⟨fuel - 1, by omega⟩
    simp only [Tree.height] at hf
    obtain ⟨ha, hl, hr⟩ := hrep
    obtain ⟨sl, hrunl, hfl, hnl, hnextl, herrl, hooml⟩ :=
      ihl s f (some a) hl (Tree.nodup_left hnd) (by omega)
    have hal : sl.heap a = s.heap a := hfl a (Tree.nodup_root_left hnd)
    have hr2 : Rep sl.heap r (some a) :=
      Rep.frame hr (fun x hx => hfl x (fun h => Tree.nodup_disjoint hnd h hx))
    obtain ⟨sr, hrunr, hfr, hnr, hnextr, herrr, hoomr⟩ :=
      ihr sl f (some a) hr2 (Tree.nodup_right hnd) (by omega)
    have har : sr.heap a = s.heap a := by
      rw [hfr a (Tree.nodup_root_right hnd), hal]
    refine ⟨sr.del a, ?_, ?_, ?_, ?_, ?_, ?_⟩
    · rw [freeAll]
      have hsl : l = Tree.nil → sl = s := by
        rintro rfl
        obtain ⟨f2, rfl⟩ : ∃ f2, f = f2 + 1 := ⟨f - 1, by omega⟩
        rw [Tree.root_nil, freeAll_nil] at hrunl
        cases hrunl; rfl
      have hsr : r = Tree.nil → sr = sl := by
        rintro rfl
        obtain ⟨f2, rfl⟩ : ∃ f2, f = f2 + 1 := ⟨f - 1, by omega⟩
        rw [Tree.root_nil, freeAll_nil] at hrunr
        cases hrunr; rfl
      simp only [Tree.root_nd, ne_eq, reduceCtorEq, not_false_eq_true, if_true, bind_apply,
        load_ok ha]
      by_cases hln : l = Tree.nil
      · have e1 := hsl hln
        subst e1
        by_cases hrn : r = Tree.nil
        · have e2 := hsr hrn
          subst e2
          simp [hln, hrn, load_ok ha, freeNode_ok ha]
        · have hrr : ¬ r.root = none := by simpa using hrn
          simp [hln, load_ok ha, hrr, hrunr, freeNode_ok (har.trans ha)]
      · have hlr : ¬ l.root = none := by simpa using hln
        by_cases hrn : r = Tree.nil
        · have e2 := hsr hrn
          subst e2
          simp [hlr, hrunl, hrn, load_ok (hal.trans ha), freeNode_ok (hal.trans ha)]
        · have hrr : ¬ r.root = none := by simpa using hrn
          simp [hlr, hrunl, load_ok (hal.trans ha), hrr, hrunr, freeNode_ok (har.trans ha)]
    · intro x hx
      simp only [Tree.addrs, List.mem_cons, List.mem_append, not_or] at hx
      simp [hx.1, hfr x hx.2.2, hfl x hx.2.1]
    · intro x hx
      simp only [Tree.addrs, List.mem_cons, List.mem_append] at hx
      by_cases hxa : x = a
      · simp [hxa]
      · simp only [del_heap, hxa, if_false]
        rcases hx with h | h | h
        · exact absurd h hxa
        · rw [hfr x (fun h2 => Tree.nodup_disjoint hnd h h2)]; exact hnl x h
        · exact hnr x h
    · simp [hnextr, hnextl]
    · simp [herrr, herrl]
    · simp [hoomr, hooml]

/-- Freeing a whole rope touches nothing but its own records. -/
theorem freeRope_spec (s : State) (rope : Nat) (l : Tree) (fuel : Nat)
    (hr : IsRope s rope l) (hf : l.height + 2 ≤ fuel) :
    ∃ s2, freeAll fuel (some rope) s = Res.ret () s2
      ∧ (∀ x, x ∉ rope :: l.addrs → s2.heap x = s.heap x)
      ∧ s2.next = s.next ∧ s2.currentError = s.currentError ∧ s2.oom = s.oom := by
  obtain ⟨d0, hroot⟩ := hr.rootRec
  have hrep : Rep s.heap (Tree.nd rope d0 (l.content.length : Int) l Tree.nil) none :=
    ⟨by simpa using hroot, hr.rep, trivial⟩
  obtain ⟨s2, hrun, hf2, _, hn, he, ho⟩ := freeAll_spec _ s fuel none hrep
    (by simpa [Tree.addrs] using hr.nodup) (by simp [Tree.height]; omega)
  exact ⟨s2, by simpa using hrun, fun x hx => hf2 x (by simpa [Tree.addrs] using hx), hn, he, ho⟩

theorem isEmpty_rope {s : State} {rope : Nat} {l : Tree} (hr : IsRope s rope l)
    (hl : l.content ≠ []) : isEmpty (some rope) s = Res.ret 0 s := by
  obtain ⟨d0, hroot⟩ := hr.rootRec
  have hln : l ≠ Tree.nil := by rintro rfl; simp at hl
  have h1 : (l.content.length : Int) ≠ 0 := by
    intro h; exact hl (List.length_eq_zero.1 (by omega))
  simp [isEmpty, load, hroot, h1, hln]

/-- `delete` of the whole rope. -/
theorem delete_all (s : State) (rope : Nat) (l : Tree) (fuel : Nat)
    (hr : IsRope s rope l) (he : s.currentError = ErrorCodes.OK) (ho : s.oom = [])
    (hl : l.content ≠ []) (hf : l.height + 2 ≤ fuel) :
    ∃ s2, delete fuel (some rope) 1 (l.content.length : Int) s = Res.ret (some s.next) s2
      ∧ IsRope s2 s.next Tree.nil
      ∧ s2.currentError = ErrorCodes.OK ∧ s2.oom = [] := by
  obtain ⟨d0, hroot⟩ := hr.rootRec
  have hlen : 0 < (l.content.length : Int) := by
    have : l.content.length ≠ 0 := fun h => hl (List.length_eq_zero.1 h)
    omega
  obtain ⟨s1, hs1⟩ : ∃ s1, s1 = s.bump.put s.next ⟨some [], 0, none, none, none⟩ := ⟨_, rfl⟩
  have hinit : initNode 0 s = Res.ret (some s.next) s1 := by
    rw [initNode_ok s ho 0 (le_refl 0), hs1]; simp
  have hs1old : ∀ x, x < s.next → s1.heap x = s.heap x := by
    intro x hx; rw [hs1]; simp [show ¬ x = s.next by omega]
  have hr1 : IsRope s1 rope l :=
    hr.carry (fun x hx => hs1old x (hr.bound x hx)) (by rw [hs1]; simp)
  obtain ⟨s2, hfree, hf2, hn2, he2, ho2⟩ := freeRope_spec s1 rope l fuel hr1 hf
  have hs1e : s1.currentError = ErrorCodes.OK := by rw [hs1]; simpa using he
  refine ⟨s2, ?_, ?_, by rw [he2, hs1e], by rw [ho2, hs1]; simpa using ho⟩
  · have hc1 : ¬ (l.content.length : Int) < 1 := by omega
    simp [delete, isEmpty_rope hr hl, load_ok hroot, hc1, deleteFinish, hinit, getError, hs1e,
      hfree]
  · have hnot : s.next ∉ rope :: l.addrs := fun h => by have := hr.bound _ h; omega
    refine ⟨⟨[], by rw [hf2 _ hnot, hs1]; simp⟩, trivial, by simp [Tree.addrs], ?_, trivial⟩
    intro x hx
    simp [Tree.addrs] at hx
    rw [hn2, hs1, hx]; simp

/-- `delete` of a proper front part: the rest is the right part of one split. -/
theorem delete_front (s : State) (rope : Nat) (l : Tree) (j : Int) (fuel : Nat)
    (hr : IsRope s rope l) (he : s.currentError = ErrorCodes.OK) (ho : s.oom = [])
    (hj1 : 1 ≤ j) (hj2 : j < (l.content.length : Int)) (hf : l.height + 2 ≤ fuel) :
    ∃ s2 l2, delete fuel (some rope) 1 j s = Res.ret (some s.next) s2
      ∧ IsRope s2 s.next l2 ∧ l2.content = l.content.drop j.toNat ∧ l2.height ≤ l.height
      ∧ s2.currentError = ErrorCodes.OK ∧ s2.oom = [] := by
  obtain ⟨d0, hroot⟩ := hr.rootRec
  have hl : l.content ≠ [] := by
    intro h; simp [h] at hj2; omega
  obtain ⟨s2, l1, l2, hsplit, P⟩ := split_spec s rope l j fuel hr he ho (by omega) hj2 hf
  have hs2e : s2.currentError = ErrorCodes.OK := by rw [P.err, he]
  obtain ⟨s3, hfree, hf3, hn3, he3, ho3⟩ := freeRope_spec s2 rope l1 fuel P.left
    (by have := P.leftHeight; omega)
  have hropelt : rope < s.next := hr.bound rope (List.mem_cons_self _ _)
  have hrl : rope ∉ l.addrs := (List.nodup_cons.1 hr.nodup).1
  refine ⟨s3, l2, ?_, ?_, P.rightContent, P.rightHeight, by rw [he3, hs2e],
    by rw [ho3, P.oom, ho]⟩
  · have hc1 : ¬ j < 1 := by omega
    have hc2 : ¬ (l.content.length : Int) < j := by omega
    have hc3 : ¬ j = (l.content.length : Int) := by omega
    simp [delete, isEmpty_rope hr hl, load_ok hroot, hc1, hc2, hc3, hj2, hsplit, getError, hs2e,
      deleteFinish, hfree]
  · refine P.right.carry ?_ (by omega)
    intro x hx
    refine hf3 x ?_
    intro hx2
    rcases List.mem_cons.1 hx with rfl | hx
    · rcases List.mem_cons.1 hx2 with h | h
      · omega
      · have := hr.bound _ (List.mem_cons_of_mem _ (P.leftAddrs _ h)); omega
    · rcases List.mem_cons.1 hx2 with rfl | h
      · rcases P.rightAddrs _ hx with h | h
        · exact hrl h
        · omega
      · exact P.disjoint x h hx

/-- `delete` of a proper back part: the rest is the left part of one split. -/
theorem delete_back (s : State) (rope : Nat) (l : Tree) (i : Int) (fuel : Nat)
    (hr : IsRope s rope l) (he : s.currentError = ErrorCodes.OK) (ho : s.oom = [])
    (hi1 : 1 < i) (hi2 : i ≤ (l.content.length : Int)) (hf : l.height + 2 ≤ fuel) :
    ∃ s2 l1, delete fuel (some rope) i (l.content.length : Int) s = Res.ret (some rope) s2
      ∧ IsRope s2 rope l1 ∧ l1.content = l.content.take (i - 1).toNat ∧ l1.height ≤ l.height
      ∧ s2.currentError = ErrorCodes.OK ∧ s2.oom = [] := by
  obtain ⟨d0, hroot⟩ := hr.rootRec
  have hl : l.content ≠ [] := by
    intro h; simp [h] at hi2; omega
  obtain ⟨s2, l1, l2, hsplit, P⟩ := split_spec s rope l (i - 1) fuel hr he ho (by omega)
    (by omega) hf
  have hs2e : s2.currentError = ErrorCodes.OK := by rw [P.err, he]
  obtain ⟨s3, hfree, hf3, hn3, he3, ho3⟩ := freeRope_spec s2 s.next l2 fuel P.right
    (by have := P.rightHeight; omega)
  have hropelt : rope < s.next := hr.bound rope (List.mem_cons_self _ _)
  have hrl : rope ∉ l.addrs := (List.nodup_cons.1 hr.nodup).1
  refine ⟨s3, l1, ?_, ?_, P.leftContent, P.leftHeight, by rw [he3, hs2e],
    by rw [ho3, P.oom, ho]⟩
  · have hc1 : ¬ i < 1 := by omega
    have hc3 : ¬ i = 1 := by omega
    have hc4 : ¬ (l.content.length : Int) < i := by omega
    simp [delete, isEmpty_rope hr hl, load_ok hroot, hc1, hc3, hc4, hsplit, getError, hs2e,
      deleteFinish, hfree]
  · refine P.left.carry ?_ (by omega)
    intro x hx
    refine hf3 x ?_
    intro hx2
    rcases List.mem_cons.1 hx with rfl | hx
    · rcases List.mem_cons.1 hx2 with h | h
      · omega
      · rcases P.rightAddrs _ h with h | h
        · exact hrl h
        · omega
    · rcases List.mem_cons.1 hx2 with rfl | h
      · have := hr.bound _ (List.mem_cons_of_mem _ (P.leftAddrs _ hx)); omega
      · exact P.disjoint x hx h

/-- `delete` of a proper middle part: two splits, the outer parts are joined
under a `concat` record `c` and a fresh root `c + 1`. -/
theorem delete_middle (s : State) (rope : Nat) (l : Tree) (i j : Int) (fuel : Nat)
    (hr : IsRope s rope l) (he : s.currentError = ErrorCodes.OK) (ho : s.oom = [])
    (hi1 : 1 < i) (hij : i ≤ j) (hj2 : j < (l.content.length : Int))
    (hf : l.height + 2 ≤ fuel) :
    ∃ s2 l1 l2 c, delete fuel (some rope) i j s = Res.ret (some (c + 1)) s2
      ∧ IsRope s2 (c + 1) (Tree.nd c [] (l1.content.length : Int) l1 l2)
      ∧ l1.content = l.content.take (i - 1).toNat ∧ l2.content = l.content.drop j.toNat
      ∧ l1 ≠ Tree.nil ∧ l2 ≠ Tree.nil ∧ l1.height ≤ l.height ∧ l2.height ≤ l.height
      ∧ s2.currentError = ErrorCodes.OK ∧ s2.oom = [] := by
  obtain ⟨d0, hroot⟩ := hr.rootRec
  have hl : l.content ≠ [] := by
    intro h; simp [h] at hj2; omega
  have hropelt : rope < s.next := hr.bound rope (List.mem_cons_self _ _)
  have hllt : ∀ x ∈ l.addrs, x < s.next := fun x hx => hr.bound x (List.mem_cons_of_mem _ hx)
  have hrl : rope ∉ l.addrs := (List.nodup_cons.1 hr.nodup).1
  -- first split: l1 | m
  obtain ⟨s2, l1, m, hsplit1, P⟩ := split_spec s rope l (i - 1) fuel hr he ho (by omega)
    (by omega) hf
  have hs2e : s2.currentError = ErrorCodes.OK := by rw [P.err, he]
  have hs2o : s2.oom = [] := by rw [P.oom, ho]
  have hmc : (m.content.length : Int) = (l.content.length : Int) - (i - 1) := by
    rw [P.rightContent, List.length_drop]; omega
  have hl1c : (l1.content.length : Int) = i - 1 := by
    rw [P.leftContent, List.length_take]; omega
  -- second split: m1 | l2
  obtain ⟨s3, m1, l2, hsplit2, Q⟩ := split_spec s2 s.next m (j - i + 1) fuel P.right hs2e hs2o
    (by omega) (by omega) (by have := P.rightHeight; omega)
  have hs3e : s3.currentError = ErrorCodes.OK := by rw [Q.err, hs2e]
  have hs3o : s3.oom = [] := by rw [Q.oom, hs2o]
  have hn23 : s2.next < s3.next := Q.next
  have hn12 : s.next < s2.next := P.next
  have hA1 : ∀ x ∈ l1.addrs, x < s.next := fun x hx => hllt x (P.leftAddrs x hx)
  have hAm : ∀ x ∈ m.addrs, (x < s.next ∨ s.next < x) ∧ x < s2.next := by
    intro x hx
    refine ⟨?_, P.right.bound x (List.mem_cons_of_mem _ hx)⟩
    rcases P.rightAddrs x hx with h | h
    · left; exact hllt x h
    · right; omega
  have hA2 : ∀ x ∈ l2.addrs, (x < s.next ∨ s.next < x) ∧ x ≠ s2.next ∧ x < s3.next
      ∧ x ∉ l1.addrs ∧ x ≠ rope := by
    intro x hx
    have hb := Q.right.bound x (List.mem_cons_of_mem _ hx)
    have hne := (List.nodup_cons.1 Q.right.nodup).1
    rcases Q.rightAddrs x hx with h | h
    · have h2 := hAm x h
      refine ⟨h2.1, by omega, hb, fun h3 => P.disjoint x h3 h, ?_⟩
      rintro rfl
      rcases P.rightAddrs _ h with h4 | h4
      · exact hrl h4
      · omega
    · refine ⟨by omega, by omega, hb, fun h3 => by have := hA1 x h3; omega, by omega⟩
  have hrope1 : rope ∉ l1.addrs := (List.nodup_cons.1 P.left.nodup).1
  have hndl1 : l1.addrs.Nodup := (List.nodup_cons.1 P.left.nodup).2
  have hndl2 : l2.addrs.Nodup := (List.nodup_cons.1 Q.right.nodup).2
  -- the left rope survives the second split
  have hleft3 : IsRope s3 rope l1 := by
    refine P.left.carry ?_ (by omega)
    intro x hx
    have hxlt : x < s.next := by
      rcases List.mem_cons.1 hx with rfl | hx
      · exact hropelt
      · exact hA1 x hx
    refine Q.frame x (by omega) (by omega) ?_
    intro hxm
    rcases List.mem_cons.1 hx with rfl | hx
    · rcases P.rightAddrs _ hxm with h | h
      · exact hrl h
      · omega
    · exact P.disjoint x hx hxm
  obtain ⟨d1, hroot3⟩ := hleft3.rootRec
  obtain ⟨d2, hrroot3⟩ := Q.right.rootRec
  have hl1root : ∀ x, l1.root = some x → x < s.next := fun x h => hA1 x (Tree.root_mem_addrs h)
  -- both outer parts are taken off their roots
  obtain ⟨s4, hdet4, hrep4, hs4n, hs4e, hs4o, hs4f⟩ := Rep.detach hleft3.rep P.leftNe hndl1
  have hs4R : s4.heap s2.next
      = some ⟨some d2, (l2.content.length : Int), l2.root, none, none⟩ := by
    rw [hs4f _ (fun h => by have := hl1root _ h; omega), hrroot3]
  have hrep4r : Rep s4.heap l2 (some s2.next) := by
    refine Rep.frame Q.right.rep ?_
    intro x hx
    exact hs4f x (fun h => (hA2 x hx).2.2.2.1 (Tree.root_mem_addrs h))
  obtain ⟨s5, hdet5, hrep5, hs5n, hs5e, hs5o, hs5f⟩ := Rep.detach hrep4r Q.rightNe hndl2
  have hl2root : ∀ x, l2.root = some x → x ∈ l2.addrs := fun x h => Tree.root_mem_addrs h
  have hrep5l : Rep s5.heap l1 none := by
    refine Rep.frame hrep4 ?_
    intro x hx
    exact hs5f x (fun h => (hA2 x (hl2root x h)).2.2.2.1 hx)
  have hs5rope : s5.heap rope = some ⟨some d1, (l1.content.length : Int), l1.root, none, none⟩ := by
    rw [hs5f rope (fun h => (hA2 _ (hl2root _ h)).2.2.2.2 rfl),
      hs4f rope (fun h => hrope1 (Tree.root_mem_addrs h)), hroot3]
  have hs5R : s5.heap s2.next
      = some ⟨some d2, (l2.content.length : Int), l2.root, none, none⟩ := by
    rw [hs5f _ (fun h => (hA2 _ (hl2root _ h)).2.1 rfl), hs4R]
  -- they are joined
  obtain ⟨s6, hcat6, hrep6, hs6n, hs6e, hs6o, hs6f⟩ :=
    concat_spec s5 l1 l2 (l1.content.length : Int) hrep5l hrep5 P.leftNe Q.rightNe
      (by
        rw [List.nodup_append]
        exact ⟨hndl1, hndl2, fun x hx hx2 => (hA2 x hx2).2.2.2.1 hx⟩)
      (by
        intro x hx
        rw [hs5n, hs4n]
        rcases List.mem_append.1 hx with hx | hx
        · have := hA1 x hx; omega
        · exact (hA2 x hx).2.2.1)
      (by rw [hs5o, hs4o, hs3o])
  rw [hs5n, hs4n] at hcat6 hrep6 hs6n hs6f
  have hs6e2 : s6.currentError = ErrorCodes.OK := by rw [hs6e, hs5e, hs4e, hs3e]
  have hs6o2 : s6.oom = [] := by rw [hs6o, hs5o, hs4o, hs3o]
  have hs6C : s6.heap s3.next = some ⟨some [], (l1.content.length : Int), l1.root, l2.root,
      none⟩ := hrep6.1
  -- the fresh root
  obtain ⟨s8, hs8⟩ : ∃ s8, s8 = ((((s6.bump.put (s3.next + 1) ⟨some [], 0, none, none, none⟩).put
      s3.next ⟨some [], (l1.content.length : Int), l1.root, l2.root, some (s3.next + 1)⟩).put
      (s3.next + 1) ⟨some [], (l1.content.length : Int) + (l2.content.length : Int), none, none,
        none⟩).put (s3.next + 1) ⟨some [], (l1.content.length : Int) + (l2.content.length : Int),
        some s3.next, none, none⟩) := ⟨_, rfl⟩
  have hs8old : ∀ x, x < s3.next → s8.heap x = s6.heap x := by
    intro x hx
    rw [hs8]; simp [show ¬ x = s3.next by omega, show ¬ x = s3.next + 1 by omega]
  have hroot8 : (do
      let retVal ← initNode 0
      let e ← getError
      if e ≠ ErrorCodes.OK then
        errorInDelete fuel (some rope) (some s.next) (some s2.next) retVal (some rope)
      else
        setParent (some s3.next) retVal
        setLeftLen retVal ((l1.content.length : Int) + (l2.content.length : Int))
        setLeft retVal (some s3.next)
        freeNode (some rope)
        freeNode (some s2.next)
        freeAll fuel (some s.next)
        pure retVal : M (Option Nat)) s6
      = (do
        freeNode (some rope)
        freeNode (some s2.next)
        freeAll fuel (some s.next)
        pure (some (s3.next + 1)) : M (Option Nat)) s8 := by
    have h0 : initNode 0 s6 = Res.ret (some (s3.next + 1))
        (s6.bump.put (s3.next + 1) ⟨some [], 0, none, none, none⟩) := by
      rw [initNode_ok s6 hs6o2 0 (le_refl 0), hs6n]; simp
    rw [hs8]
    simp [h0, getError, hs6e2, setParent, setLeftLen, setLeft, modify, hs6C]
  -- the three old roots and the middle part go
  have hs8rope : s8.heap rope = some ⟨some d1, (l1.content.length : Int), l1.root, none, none⟩ := by
    rw [hs8old rope (by omega),
      hs6f rope (by omega) (fun h => hrope1 (Tree.root_mem_addrs h))
        (fun h => (hA2 _ (hl2root _ h)).2.2.2.2 rfl), hs5rope]
  have hs8R : s8.heap s2.next
      = some ⟨some d2, (l2.content.length : Int), l2.root, none, none⟩ := by
    rw [hs8old _ (by omega),
      hs6f _ (by omega) (fun h => by have := hl1root _ h; omega)
        (fun h => (hA2 _ (hl2root _ h)).2.1 rfl), hs5R]
  -- the middle rope in the state after the two frees
  have hmid : IsRope ((s8.del rope).del s2.next) s.next m1 := by
    refine Q.left.carry ?_ (by rw [hs8]; simp [hs6n]; omega)
    intro x hx
    have hxlt : x < s2.next := by
      rcases List.mem_cons.1 hx with rfl | hx
      · omega
      · exact (hAm x (Q.leftAddrs x hx)).2
    have hxr : x ≠ rope := by
      rintro rfl
      rcases List.mem_cons.1 hx with h | hx
      · omega
      · rcases P.rightAddrs _ (Q.leftAddrs _ hx) with h | h
        · exact hrl h
        · omega
    have hx1 : l1.root ≠ some x := by
      intro h
      have h1 := Tree.root_mem_addrs h
      rcases List.mem_cons.1 hx with rfl | hx
      · have := hA1 _ h1; omega
      · exact P.disjoint x h1 (Q.leftAddrs x hx)
    have hx2 : l2.root ≠ some x := by
      intro h
      have h1 := Tree.root_mem_addrs h
      rcases List.mem_cons.1 hx with rfl | hx
      · have := (List.nodup_cons.1 P.right.nodup).1
        rcases Q.rightAddrs _ h1 with h3 | h3
        · exact this h3
        · omega
      · exact Q.disjoint x hx h1
    simp only [del_heap, show ¬ x = s2.next by omega, hxr, if_false]
    rw [hs8old x (by omega), hs6f x (by omega) hx1 hx2, hs5f x hx2, hs4f x hx1]
  obtain ⟨s11, hfree, hf11, hn11, he11, ho11⟩ := freeRope_spec _ s.next m1 fuel hmid
    (by have := Q.leftHeight; have := P.rightHeight; omega)
  refine ⟨s11, l1, l2, s3.next, ?_, ?_, P.leftContent, ?_, P.leftNe, Q.rightNe, P.leftHeight,
    by have := Q.rightHeight; have := P.rightHeight; omega, ?_, ?_⟩
  · have hc1 : ¬ i < 1 := by omega
    have hc2 : ¬ (l.content.length : Int) < j := by omega
    have hc3 : ¬ j < i := by omega
    have hc4 : ¬ i = 1 := by omega
    have hc5 : ¬ j = (l.content.length : Int) := by omega
    have hfin : (do
        freeNode (some rope)
        freeNode (some s2.next)
        freeAll fuel (some s.next)
        pure (some (s3.next + 1)) : M (Option Nat)) s8 = Res.ret (some (s3.next + 1)) s11 := by
      have h2 : (s8.del rope).heap s2.next
          = some ⟨some d2, (l2.content.length : Int), l2.root, none, none⟩ := by
        simp [show ¬ s2.next = rope by omega, hs8R]
      simp [freeNode_ok hs8rope, freeNode_ok h2, hfree]
    rw [hfin] at hroot8
    simp [delete, isEmpty_rope hr hl, load_ok hroot, hc1, hc2, hc3, hc4, hc5, hj2, hsplit1,
      getError, hs2e, hsplit2, hs3e, deleteFinish, load_ok hroot3, load_ok hrroot3, hdet4,
      load_ok hs4R, hdet5, load_ok hs5rope, load_ok hs5R, hcat6, hs6e2]
    simpa using hroot8
  · -- the resulting rope
    have hkeep : ∀ x ∈ (Tree.nd s3.next [] (l1.content.length : Int) l1 l2).addrs,
        s11.heap x = s8.heap x ∧ x < s3.next + 1 := by
      intro x hx
      simp only [Tree.addrs, List.mem_cons, List.mem_append] at hx
      have hx3 : x ≠ rope ∧ x ≠ s2.next ∧ x ≠ s.next ∧ x ∉ m1.addrs ∧ x < s3.next + 1 := by
        rcases hx with rfl | hx | hx
        · refine ⟨by omega, by omega, by omega, fun h => ?_, by omega⟩
          have := (hAm _ (Q.leftAddrs _ h)).2; omega
        · have := hA1 x hx
          exact ⟨fun h => hrope1 (h ▸ hx), by omega, by omega,
            fun h => P.disjoint x hx (Q.leftAddrs x h), by omega⟩
        · have h2 := hA2 x hx
          refine ⟨h2.2.2.2.2, h2.2.1, by omega, fun h => Q.disjoint x h hx, by omega⟩
      refine ⟨?_, hx3.2.2.2.2⟩
      rw [hf11 x (by simp [hx3.2.2.1, hx3.2.2.2.1])]
      simp [hx3.1, hx3.2.1]
    have hs11R : s11.heap (s3.next + 1) = some ⟨some [],
        (l1.content.length : Int) + (l2.content.length : Int), some s3.next, none, none⟩ := by
      rw [hf11 _ (by
        simp only [List.mem_cons, not_or]
        exact ⟨by omega, fun h => by have := (hAm _ (Q.leftAddrs _ h)).2; omega⟩)]
      rw [hs8]; simp [show ¬ s3.next + 1 = rope by omega, show ¬ s3.next + 1 = s2.next by omega]
    have hrep8 : Rep s8.heap (Tree.nd s3.next [] (l1.content.length : Int) l1 l2)
        (some (s3.next + 1)) := by
      refine Rep.reparent hrep6 (by rw [hs8]; simp) ?_
      intro x hx
      have hxlt : x < s3.next := by
        rcases List.mem_append.1 hx with hx | hx
        · have := hA1 x hx; omega
        · exact (hA2 x hx).2.2.1
      exact hs8old x hxlt
    refine ⟨⟨[], ?_⟩, Rep.frame hrep8 (fun x hx => (hkeep x hx).1), ?_, ?_, ?_⟩
    · rw [hs11R]; simp [Tree.content, P.leftNe]
    · refine List.nodup_cons.2 ⟨fun h => by have := (hkeep _ h).2; omega, ?_⟩
      simp only [Tree.addrs, List.nodup_cons, List.mem_append, not_or]
      refine ⟨⟨fun h => by have := hA1 _ h; omega, fun h => by have := (hA2 _ h).2.2.1; omega⟩, ?_⟩
      rw [List.nodup_append]
      exact ⟨hndl1, hndl2, fun x hx hx2 => (hA2 x hx2).2.2.2.1 hx⟩
    · intro x hx
      have hn : s11.next = s3.next + 2 := by
        rw [hn11]; simp [hs8, hs6n]
      rcases List.mem_cons.1 hx with rfl | hx
      · omega
      · have := (hkeep x hx).2; omega
    · simp only [Tree.wf]
      exact ⟨P.left.wf, Q.right.wf, by simp⟩
  · rw [Q.rightContent, P.rightContent, List.drop_drop]
    congr 1
    omega
  · rw [he11]; simp [hs8, hs6e2]
  · rw [ho11]; simp [hs8, hs6o2]

theorem delete_spec (s : State) (rope : Nat) (l : Tree) (i j : Int) (fuel : Nat)
    (hr : IsRope s rope l) (he : s.currentError = ErrorCodes.OK) (ho : s.oom = [])
    (hi1 : 1 ≤ i) (hij : i ≤ j) (hj : j ≤ (l.content.length : Int))
    (hf : l.height + 2 ≤ fuel) :
    ∃ s2 rv l2, delete fuel (some rope) i j s = Res.ret (some rv) s2
      ∧ IsRope s2 rv l2
      ∧ l2.content = l.content.take (i - 1).toNat ++ l.content.drop j.toNat
      ∧ l2.height ≤ l.height + 1
      ∧ s2.currentError = ErrorCodes.OK ∧ s2.oom = [] := by
  have hl : l.content ≠ [] := by
    intro h; simp [h] at hj; omega
  by_cases h1 : i = 1
  · subst h1
    by_cases h2 : j = (l.content.length : Int)
    · subst h2
      obtain ⟨s2, hrun, hrope, herr, hoom⟩ := delete_all s rope l fuel hr he ho hl hf
      exact ⟨s2, _, _, hrun, hrope, by simp, by simp [Tree.height], herr, hoom⟩
    · obtain ⟨s2, l2, hrun, hrope, hc, hh, herr, hoom⟩ :=
        delete_front s rope l j fuel hr he ho hij (by omega) hf
      exact ⟨s2, _, _, hrun, hrope, by simp [hc], by omega, herr, hoom⟩
  · by_cases h2 : j = (l.content.length : Int)
    · subst h2
      obtain ⟨s2, l1, hrun, hrope, hc, hh, herr, hoom⟩ :=
        delete_back s rope l i fuel hr he ho (by omega) (by omega) hf
      exact ⟨s2, _, _, hrun, hrope, by simp [hc], by omega, herr, hoom⟩
    · obtain ⟨s2, l1, l2, c, hrun, hrope, hc1, hc2, hn1, hn2, hh1, hh2, herr, hoom⟩ :=
        delete_middle s rope l i j fuel hr he ho (by omega) hij (by omega) hf
      refine ⟨s2, _, _, hrun, hrope, by simp [Tree.content, hn1, hc1, hc2], ?_, herr, hoom⟩
      simp only [Tree.height]; omega

/-! ## `kthChar`, `gotoNode` and `collect` on a well-formed rope -/

theorem kthChar_spec : ∀ (t : Tree) (s : State) (fuel : Nat) (k : Int) (par : Option Nat),
    t ≠ Tree.nil → Rep s.heap t par → t.wf → 0 ≤ k → k < (t.content.length : Int) →
    kthChar (fuel + t.depthAt k + 1) t.root k s
      = Res.ret ((t.leafData k).getD (t.leafPos k).toNat (Char.ofNat 0)) s := by
  intro t
  induction t with
  | nil => intro s fuel k par h; exact absurd rfl h
  | nd a d len l r ihl ihr =>
    intro s fuel k par _ hrep hw h0 hk
    obtain ⟨ha, hrl, hrr⟩ := hrep
    have hk0 : ¬ k < 0 := by omega
    by_cases hleaf : l = Tree.nil ∧ r = Tree.nil
    · have hk2 : ¬ (d.length : Int) ≤ k := by
        simp only [Tree.content, hleaf, and_self, if_true] at hk; omega
      obtain ⟨rfl, rfl⟩ := hleaf
      simp [kthChar, Tree.depthAt, load_ok ha, hk0, hk2, Tree.leafData, Tree.leafPos]
    · by_cases hlt : k < len
      · obtain ⟨hln, hp1, hlen⟩ := Tree.wf_left hw hleaf h0 hlt
        have hfuel : fuel + (Tree.nd a d len l r).depthAt k + 1 = (fuel + l.depthAt k + 1) + 1 := by
          simp [Tree.depthAt, hleaf, hlt]; omega
        have hnl : ¬ (l.root = none ∧ r.root = none) := by simp [hln]
        rw [hfuel, kthChar]
        simp only [Tree.root_nd, bind_apply, load_ok ha, hk0, hnl, hlt, or_false, reduceCtorEq,
          false_or, if_true, if_false]
        rw [ihl s fuel k (some a) hln hrl hw.1 h0 hp1]
        simp [Tree.leafData, Tree.leafPos, hleaf, hlt]
      · obtain ⟨hrn, hp0, hp1, hlen⟩ := Tree.wf_right hw hleaf hlt hk
        have hfuel : fuel + (Tree.nd a d len l r).depthAt k + 1
            = (fuel + r.depthAt (k - len) + 1) + 1 := by
          simp [Tree.depthAt, hleaf, hlt]; omega
        have hnl : ¬ (l.root = none ∧ r.root = none) := by simp [hrn]
        rw [hfuel, kthChar]
        simp only [Tree.root_nd, bind_apply, load_ok ha, hk0, hnl, hlt, or_false, reduceCtorEq,
          false_or, if_true, if_false]
        rw [ihr s fuel (k - len) (some a) hrn hrr hw.2.1 hp0 hp1]
        simp [Tree.leafData, Tree.leafPos, hleaf, hlt]

theorem gotoNode_spec : ∀ (t : Tree) (s : State) (fuel : Nat) (k : Int) (par : Option Nat),
    t ≠ Tree.nil → Rep s.heap t par → t.wf → 0 ≤ k → k < (t.content.length : Int) →
    s.oom = [] →
    gotoNode (fuel + t.depthAt k + 1) t.root k s
      = Res.ret (some ⟨some (t.leafAddr k), t.leafPos k⟩) s := by
  intro t
  induction t with
  | nil => intro s fuel k par h; exact absurd rfl h
  | nd a d len l r ihl ihr =>
    intro s fuel k par _ hrep hw h0 hk ho
    obtain ⟨ha, hrl, hrr⟩ := hrep
    have hk0 : ¬ k < 0 := by omega
    by_cases hleaf : l = Tree.nil ∧ r = Tree.nil
    · have hk2 : ¬ (d.length : Int) ≤ k := by
        simp only [Tree.content, hleaf, and_self, if_true] at hk; omega
      obtain ⟨rfl, rfl⟩ := hleaf
      simp [gotoNode, Tree.depthAt, load_ok ha, hk0, hk2, Tree.leafAddr, Tree.leafPos,
        malloc_ok s ho]
    · by_cases hlt : k < len
      · obtain ⟨hln, hp1, hlen⟩ := Tree.wf_left hw hleaf h0 hlt
        have hfuel : fuel + (Tree.nd a d len l r).depthAt k + 1 = (fuel + l.depthAt k + 1) + 1 := by
          simp [Tree.depthAt, hleaf, hlt]; omega
        have hnl : ¬ (l.root = none ∧ r.root = none) := by simp [hln]
        rw [hfuel, gotoNode]
        simp only [Tree.root_nd, bind_apply, load_ok ha, hk0, hnl, hlt, or_false, reduceCtorEq,
          false_or, if_true, if_false]
        rw [ihl s fuel k (some a) hln hrl hw.1 h0 hp1 ho]
        simp [Tree.leafAddr, Tree.leafPos, hleaf, hlt]
      · obtain ⟨hrn, hp0, hp1, hlen⟩ := Tree.wf_right hw hleaf hlt hk
        have hfuel : fuel + (Tree.nd a d len l r).depthAt k + 1
            = (fuel + r.depthAt (k - len) + 1) + 1 := by
          simp [Tree.depthAt, hleaf, hlt]; omega
        have hnl : ¬ (l.root = none ∧ r.root = none) := by simp [hrn]
        rw [hfuel, gotoNode]
        simp only [Tree.root_nd, bind_apply, load_ok ha, hk0, hnl, hlt, or_false, reduceCtorEq,
          false_or, if_true, if_false]
        rw [ihr s fuel (k - len) (some a) hrn hrr hw.2.1 hp0 hp1 ho]
        simp [Tree.leafAddr, Tree.leafPos, hleaf, hlt]

theorem inOrderPick_spec : ∀ (t : Tree) (s : State) (fuel : Nat) (cl : Int) (buf : List Char)
    (par : Option Nat), Rep s.heap t par → 0 ≤ cl → t.height + 1 ≤ fuel →
    inOrderPick fuel t.root cl buf s
      = Res.ret (min cl (t.content.length : Int), buf ++ t.content.take cl.toNat) s := by
  intro t
  induction t with
  | nil =>
    intro s fuel cl buf par _ h0 hf
    obtain ⟨f, rfl⟩ : ∃ f, fuel = f + 1 := ⟨fuel - 1, by omega⟩
    have : ¬ cl < 0 := by omega
    simp [inOrderPick, this, h0]
  | nd a d len l r ihl ihr =>
    intro s fuel cl buf par hrep h0 hf
    obtain ⟨f, rfl⟩ : ∃ f, fuel = f + 1 := ⟨fuel - 1, by omega⟩
    simp only [Tree.height] at hf
    obtain ⟨ha, hrl, hrr⟩ := hrep
    have hc0 : ¬ cl < 0 := by omega
    rw [inOrderPick]
    by_cases hz : cl = 0
    · subst hz
      simp
    · have hl := ihl s f cl buf (some a) hrl h0 (by omega)
      simp only [Tree.root_nd, bind_apply, pure_apply, hc0, hz, reduceCtorEq, or_self, if_false,
        load_ok ha, hl]
      by_cases hleaf : l = Tree.nil ∧ r = Tree.nil
      · obtain ⟨rfl, rfl⟩ := hleaf
        have h1 : 0 ≤ cl - min cl 0 - myMin (cl - min cl 0) (d.length : Int) := by
          simp only [myMin]; split_ifs <;> omega
        have hr2 := ihr s f (cl - min cl 0 - myMin (cl - min cl 0) (d.length : Int))
          (buf ++ List.take (myMin (cl - min cl 0) (d.length : Int)).toNat d) (some a) hrr h1
          (by omega)
        simp only [Tree.root_nil] at hr2
        simp [cstr, hr2, Tree.content]
        have hm : min cl 0 = 0 := by omega
        simp only [hm, myMin, sub_zero]
        constructor
        · split_ifs <;> omega
        · split_ifs with h <;> omega
      · have hnl : ¬ (l.root = none ∧ r.root = none) := by simpa using hleaf
        have h1 : 0 ≤ cl - min cl (l.content.length : Int) := by omega
        have hr2 := ihr s f (cl - min cl (l.content.length : Int))
          (buf ++ l.content.take cl.toNat) (some a) hrr h1 (by omega)
        simp only [hnl, if_false, bind_apply, hr2, pure_apply]
        simp only [Tree.content, hleaf, if_false, List.length_append, Nat.cast_add]
        congr 1
        · congr 1
          · omega
          · rw [List.take_append_eq_append_take, List.append_assoc]
            congr 2
            congr 1
            omega

theorem Tree.content_drop_after : ∀ (t : Tree) (pos : Int), t ≠ Tree.nil → t.wf → 0 ≤ pos →
    pos < (t.content.length : Int) →
    t.content.drop pos.toNat = (t.leafData pos).drop (t.leafPos pos).toNat ++ t.after pos
  | Tree.nil, _, h, _, _, _ => absurd rfl h
  | Tree.nd a d len l r, pos, _, hw, h0, hp => by
    by_cases hleaf : l = Tree.nil ∧ r = Tree.nil
    · simp [Tree.leafPos, Tree.leafData, Tree.after, Tree.content, hleaf]
    · have hcont := @Tree.content_nd_of_not_leaf a d len _ _ hleaf
      by_cases hlt : pos < len
      · obtain ⟨hln, hp1, hlen⟩ := Tree.wf_left hw hleaf h0 hlt
        have ih := Tree.content_drop_after l pos hln hw.1 h0 hp1
        rw [hcont, List.drop_append_of_le_length (by omega), ih]
        simp [Tree.leafPos, Tree.leafData, Tree.after, hleaf, hlt]
      · obtain ⟨hrn, hp0, hp1, hlen⟩ := Tree.wf_right hw hleaf hlt hp
        have ih := Tree.content_drop_after r _ hrn hw.2.1 hp0 hp1
        rw [hcont, List.drop_append_eq_append_drop]
        have h1 : l.content.drop pos.toNat = [] := List.drop_of_length_le (by omega)
        have h2 : pos.toNat - l.content.length = (pos - len).toNat := by omega
        rw [h1, h2, ih]
        simp [Tree.leafPos, Tree.leafData, Tree.after, hleaf, hlt]

theorem collectAscend_stop (fp : Nat) (rope : Option Nat) (fuel : Nat) (w : Option Nat)
    (nn : List Char) (s : State) :
    collectAscend fp rope (fuel + 1) w 0 nn s = Res.ret (0, nn) s := by
  simp [collectAscend]

theorem collectAscend_spec (fp : Nat) (rope : Option Nat) :
    ∀ (t : Tree) (s : State) (fuel : Nat) (pos : Int) (par : Option Nat) (cl : Int)
      (nn : List Char),
      t ≠ Tree.nil → Rep s.heap t par → t.addrs.Nodup → t.wf →
      0 ≤ pos → pos < (t.content.length : Int) →
      (∀ x ∈ t.addrs, some x = rope → t.root = some x) →
      0 ≤ cl → t.height ≤ fp → s.currentError = ErrorCodes.OK →
      collectAscend fp rope (fuel + 1 + t.depthAt pos) (some (t.leafAddr pos)) cl nn s
        = collectAscend fp rope (fuel + 1) t.root (cl - min cl ((t.after pos).length : Int))
            (nn ++ (t.after pos).take cl.toNat) s := by
  intro t
  induction t with
  | nil => intro s fuel pos par cl nn h; exact absurd rfl h
  | nd a d len l r ihl ihr =>
    intro s fuel pos par cl nn _ hrep hnd hw h0 hp hrope hcl hfp he
    obtain ⟨ha, hrl, hrr⟩ := hrep
    simp only [Tree.height] at hfp
    by_cases hleaf : l = Tree.nil ∧ r = Tree.nil
    · have : min cl 0 = 0 := by omega
      simp [Tree.depthAt, Tree.leafAddr, Tree.after, hleaf, this]
    · have hndl := Tree.nodup_left hnd
      have hndr := Tree.nodup_right hnd
      by_cases hlt : pos < len
      · obtain ⟨hln, hp1, hlen⟩ := Tree.wf_left hw hleaf h0 hlt
        obtain ⟨la, hlroot⟩ : ∃ la, l.root = some la := by
          cases l with
          | nil => exact absurd rfl hln
          | nd la ld llen ll lr => exact ⟨la, rfl⟩
        have hla_mem : la ∈ l.addrs := Tree.root_mem_addrs hlroot
        have hla_ne : some la ≠ rope := by
          intro h
          have := hrope la (Tree.mem_addrs_left _ _ _ _ hla_mem) h
          simp at this
          exact Tree.nodup_root_left hnd (this ▸ hla_mem)
        obtain ⟨nla, hnla, hnlap⟩ := Rep.root_rec hrl hlroot
        have ih := ihl s (fuel + 1) pos (some a) cl nn hln hrl hndl hw.1 h0 hp1
          (fun x hx hxr => by
            have := hrope x (Tree.mem_addrs_left _ _ _ _ hx) hxr
            simp at this
            exact absurd hx (this ▸ Tree.nodup_root_left hnd)) hcl (by omega) he
        have hfuel : fuel + 1 + (Tree.nd a d len l r).depthAt pos
            = fuel + 1 + 1 + l.depthAt pos := by
          simp [Tree.depthAt, hleaf, hlt]; omega
        have haft : (Tree.nd a d len l r).after pos = l.after pos ++ r.content := by
          simp [Tree.after, hleaf, hlt]
        rw [hfuel, haft]
        simp only [Tree.leafAddr, hleaf, hlt, if_true, if_false]
        rw [ih, hlroot]
        by_cases hz : cl - min cl ((l.after pos).length : Int) = 0
        · -- the budget is used up inside the left subtree
          rw [hz, collectAscend_stop]
          have hz2 : cl - min cl (((l.after pos ++ r.content).length : Nat) : Int) = 0 := by
            simp only [List.length_append, Nat.cast_add]; omega
          rw [hz2, Tree.root_nd, collectAscend_stop]
          rw [List.take_append_of_le_length (by omega)]
        · have hpos : cl - min cl ((l.after pos).length : Int) > 0 := by omega
          have hpick := inOrderPick_spec r s fp (cl - min cl ((l.after pos).length : Int))
            (nn ++ (l.after pos).take cl.toNat) (some a) hrr (by omega) (by omega)
          rw [collectAscend]
          simp only [hla_ne, hpos, ne_eq, not_false_eq_true, and_self, if_true, bind_apply,
            load_ok hnla, hnlap, load_ok ha, hlroot, hpick, getError, he, not_true_eq_false,
            if_false, Tree.root_nd]
          congr 1
          · simp only [List.length_append, Nat.cast_add]; omega
          · rw [List.take_append_eq_append_take, List.append_assoc]
            congr 2
            congr 1
            omega
      · obtain ⟨hrn, hp0, hp1, hlen⟩ := Tree.wf_right hw hleaf hlt hp
        obtain ⟨ra, hrroot⟩ : ∃ ra, r.root = some ra := by
          cases r with
          | nil => exact absurd rfl hrn
          | nd ra rd rlen rl rr => exact ⟨ra, rfl⟩
        have hra_mem : ra ∈ r.addrs := Tree.root_mem_addrs hrroot
        have hra_ne : some ra ≠ rope := by
          intro h
          have := hrope ra (Tree.mem_addrs_right _ _ _ _ hra_mem) h
          simp at this
          exact Tree.nodup_root_right hnd (this ▸ hra_mem)
        obtain ⟨nra, hnra, hnrap⟩ := Rep.root_rec hrr hrroot
        have hlne : l.root ≠ some ra := by
          intro h
          exact Tree.nodup_disjoint hnd (Tree.root_mem_addrs h) hra_mem
        have ih := ihr s (fuel + 1) (pos - len) (some a) cl nn hrn hrr hndr hw.2.1 hp0 hp1
          (fun x hx hxr => by
            have := hrope x (Tree.mem_addrs_right _ _ _ _ hx) hxr
            simp at this
            exact absurd hx (this ▸ Tree.nodup_root_right hnd)) hcl (by omega) he
        have hfuel : fuel + 1 + (Tree.nd a d len l r).depthAt pos
            = fuel + 1 + 1 + r.depthAt (pos - len) := by
          simp [Tree.depthAt, hleaf, hlt]; omega
        have haft : (Tree.nd a d len l r).after pos = r.after (pos - len) := by
          simp [Tree.after, hleaf, hlt]
        rw [hfuel, haft]
        simp only [Tree.leafAddr, hleaf, hlt, if_true, if_false]
        rw [ih, hrroot]
        by_cases hz : cl - min cl ((r.after (pos - len)).length : Int) = 0
        · rw [hz, collectAscend_stop, Tree.root_nd, collectAscend_stop]
        · have hpos : cl - min cl ((r.after (pos - len)).length : Int) > 0 := by omega
          rw [collectAscend]
          simp only [hra_ne, hpos, ne_eq, not_false_eq_true, and_self, if_true, bind_apply,
            load_ok hnra, hnrap, load_ok ha, hlne, if_false, Tree.root_nd]

/-- `collect` on a well-formed rope returns the requested characters and
leaves the state as it was. -/
theorem collect_spec (s : State) (rope : Nat) (l : Tree) (i j : Int) (fuel : Nat)
    (hr : IsRope s rope l) (he : s.currentError = ErrorCodes.OK) (ho : s.oom = [])
    (hi : 1 ≤ i) (hij : i ≤ j) (hj : j ≤ (l.content.length : Int))
    (hf : l.height + 2 ≤ fuel) :
    collect fuel (some rope) i j s
      = Res.ret (some ((l.content.drop (i - 1).toNat).take (j - i + 1).toNat)) s := by
  obtain ⟨d0, hroot⟩ := hr.rootRec
  have hln : l ≠ Tree.nil := by
    rintro rfl; simp at hj; omega
  obtain ⟨t0, ht0⟩ : ∃ t0, t0 = Tree.nd rope d0 (l.content.length : Int) l Tree.nil := ⟨_, rfl⟩
  have ht0n : t0 ≠ Tree.nil := by simp [ht0]
  have hcont0 : t0.content = l.content := by simp [ht0, Tree.content, hln]
  have hrep0 : Rep s.heap t0 none := by
    rw [ht0]; exact ⟨by simpa using hroot, hr.rep, trivial⟩
  have hnd0 : t0.addrs.Nodup := by simpa [ht0, Tree.addrs] using hr.nodup
  have hwf0 : t0.wf := by rw [ht0]; exact ⟨hr.wf, trivial, fun _ => rfl⟩
  have hp0 : i - 1 < (t0.content.length : Int) := by rw [hcont0]; omega
  have hh0 : t0.height = l.height + 1 := by simp [ht0, Tree.height]
  have hroot0 : t0.root = some rope := by rw [ht0]; rfl
  have hdepth := Tree.depthAt_le_height t0 (i - 1)
  have hdle : t0.depthAt (i - 1) + 1 ≤ fuel := by
    have : t0.depthAt (i - 1) = l.depthAt (i - 1) + 1 := by
      simp [ht0, Tree.depthAt, hln]; omega
    have := Tree.depthAt_le_height l (i - 1)
    omega
  obtain ⟨f1, hf1⟩ : ∃ f1, fuel = f1 + t0.depthAt (i - 1) + 1 := ⟨fuel - t0.depthAt (i - 1) - 1, by omega⟩
  have hgoto := gotoNode_spec t0 s f1 (i - 1) none ht0n hrep0 hwf0 (by omega) hp0 ho
  rw [← hf1, hroot0] at hgoto
  obtain ⟨nX, hX, hXd, _, _⟩ := Rep.leaf_rec t0 (i - 1) none hrep0 ht0n hwf0 (by omega) hp0
  obtain ⟨hq0, hq1⟩ := Tree.leafPos_bounds t0 (i - 1) ht0n hwf0 (by omega) hp0
  have hcl : 0 ≤ j - i + 1 - myMin (j - i + 1)
      (((t0.leafData (i - 1)).length : Int) - t0.leafPos (i - 1)) := by
    simp only [myMin]; split_ifs <;> omega
  have hasc := collectAscend_spec fuel (some rope) t0 s f1 (i - 1) none
    (j - i + 1 - myMin (j - i + 1) (((t0.leafData (i - 1)).length : Int) - t0.leafPos (i - 1)))
    (((t0.leafData (i - 1)).drop (t0.leafPos (i - 1)).toNat).take
      (myMin (j - i + 1) (((t0.leafData (i - 1)).length : Int) - t0.leafPos (i - 1))).toNat)
    ht0n hrep0 hnd0 hwf0 (by omega) hp0 (fun x _ hx => by rw [hroot0]; simpa using hx.symm) hcl
    (by omega) he
  rw [show f1 + 1 + t0.depthAt (i - 1) = fuel by omega, hroot0, collectAscend] at hasc
  simp only [ne_eq, not_true_eq_false, false_and, if_false, pure_apply] at hasc
  have hc1 : ¬ i < 1 := by omega
  have hc2 : ¬ (l.content.length : Int) < j := by omega
  have hc3 : ¬ j < i := by omega
  simp [collect, hc1, hc2, hc3, load_ok hroot, hgoto, getError, he, load_ok hX, hXd, cstr,
    malloc_ok s ho, hasc]
  have hdrop := Tree.content_drop_after t0 (i - 1) ht0n hwf0 (by omega) hp0
  rw [show (i - 1).toNat = i.toNat - 1 by omega] at hdrop
  rw [← hcont0, hdrop, List.take_append_eq_append_take]
  simp only [myMin, List.length_drop]
  split_ifs with h
  · have e1 : (j - i + 1).toNat - ((t0.leafData (i - 1)).length - (t0.leafPos (i - 1)).toNat) = 0 := by
      omega
    have e2 : (j - i + 1 - (j - i + 1)).toNat = 0 := by omega
    rw [e1, e2]
  · have e1 : (j - i + 1).toNat - ((t0.leafData (i - 1)).length - (t0.leafPos (i - 1)).toNat)
        = (j - i + 1 - (((t0.leafData (i - 1)).length : Int) - t0.leafPos (i - 1))).toNat := by
      omega
    rw [e1]
    congr 1
    rw [List.take_of_length_le (by simp only [List.length_drop]; omega),
      List.take_of_length_le (by simp only [List.length_drop]; omega)]

/-! ## The tree that `rebuild` builds -/

theorem build_content (ns : Nat) : ∀ (d n : Nat) (rest : List Char),
    (build ns d n rest).1.content ++ (build ns d n rest).2.2 = rest
  | 0, n, rest => by
    unfold build
    split_ifs with h
    · simp [h]
    · simp [Tree.content]
  | d + 1, n, rest => by
    have h1 := build_content ns d (n + 1) rest
    have h2 := build_content ns d (build ns d (n + 1) rest).2.1 (build ns d (n + 1) rest).2.2
    simp only [build, Tree.content]
    split_ifs with h
    · rw [h.1] at h1
      rw [h.2] at h2
      simp only [Tree.content_nil, List.nil_append] at h1 h2
      rw [List.nil_append, h2, h1]
    · rw [List.append_assoc, h2, h1]

theorem build_next_le (ns : Nat) : ∀ (d n : Nat) (rest : List Char), n ≤ (build ns d n rest).2.1
  | 0, n, rest => by
    unfold build
    split_ifs <;> simp
  | d + 1, n, rest => by
    have h1 := build_next_le ns d (n + 1) rest
    have h2 := build_next_le ns d (build ns d (n + 1) rest).2.1 (build ns d (n + 1) rest).2.2
    simp only [build]
    omega

theorem build_addrs (ns : Nat) : ∀ (d n : Nat) (rest : List Char),
    ∀ x ∈ (build ns d n rest).1.addrs, n ≤ x ∧ x < (build ns d n rest).2.1
  | 0, n, rest => by
    unfold build
    split_ifs <;> simp [Tree.addrs]
  | d + 1, n, rest => by
    intro x hx
    have h1 := build_addrs ns d (n + 1) rest
    have h2 := build_addrs ns d (build ns d (n + 1) rest).2.1 (build ns d (n + 1) rest).2.2
    have h3 := build_next_le ns d (n + 1) rest
    have h4 := build_next_le ns d (build ns d (n + 1) rest).2.1 (build ns d (n + 1) rest).2.2
    simp only [build, Tree.addrs, List.mem_cons, List.mem_append] at hx ⊢
    rcases hx with rfl | hx | hx
    · omega
    · have := h1 x hx; omega
    · have := h2 x hx; omega

theorem build_nodup (ns : Nat) : ∀ (d n : Nat) (rest : List Char),
    (build ns d n rest).1.addrs.Nodup
  | 0, n, rest => by
    unfold build
    split_ifs <;> simp [Tree.addrs]
  | d + 1, n, rest => by
    have h1 := build_addrs ns d (n + 1) rest
    have h2 := build_addrs ns d (build ns d (n + 1) rest).2.1 (build ns d (n + 1) rest).2.2
    simp only [build, Tree.addrs, List.nodup_cons, List.mem_append, not_or, List.nodup_append]
    refine ⟨⟨fun h => by have := h1 _ h; omega, fun h => ?_⟩, build_nodup ns d _ _,
      build_nodup ns d _ _, fun x hx hx2 => ?_⟩
    · have := h2 _ h
      have := build_next_le ns d (n + 1) rest
      omega
    · have := h1 x hx
      have := h2 x hx2
      omega

theorem build_wf (ns : Nat) : ∀ (d n : Nat) (rest : List Char), (build ns d n rest).1.wf
  | 0, n, rest => by
    unfold build
    split_ifs <;> simp [Tree.wf]
  | d + 1, n, rest => by
    have h1 := build_content ns d (n + 1) rest
    simp only [build, Tree.wf]
    refine ⟨build_wf ns d _ _, build_wf ns d _ _, fun _ => ?_⟩
    have : rest.length = (build ns d (n + 1) rest).1.content.length
        + (build ns d (n + 1) rest).2.2.length := by
      rw [← List.length_append, h1]
    omega

theorem build_ne_nil (ns : Nat) : ∀ (d n : Nat) (rest : List Char), rest ≠ [] →
    (build ns d n rest).1 ≠ Tree.nil
  | 0, n, rest, h => by
    unfold build
    simp [h]
  | d + 1, n, rest, _ => by
    simp [build]

theorem build_height (ns : Nat) : ∀ (d n : Nat) (rest : List Char), rest ≠ [] →
    (build ns d n rest).1.height = d + 1
  | 0, n, rest, h => by
    unfold build
    simp [h, Tree.height]
  | d + 1, n, rest, h => by
    have h1 := build_height ns d (n + 1) rest h
    have h2 : (build ns d (build ns d (n + 1) rest).2.1 (build ns d (n + 1) rest).2.2).1.height
        ≤ d + 1 := by
      by_cases hr : (build ns d (n + 1) rest).2.2 = []
      · rw [hr]
        have : ∀ (d m : Nat), (build ns d m []).1.height ≤ d + 1 := by
          intro d
          induction d with
          | zero => intro m; simp [build, Tree.height]
          | succ d ih =>
            intro m
            have e1 : (build ns d (m + 1) []).2.2 = [] := by
              have := build_content ns d (m + 1) []
              exact (List.append_eq_nil.1 this).2
            simp only [build, Tree.height, e1]
            have := ih (m + 1)
            have := ih (build ns d (m + 1) []).2.1
            omega
        exact this d _
      · exact le_of_eq (build_height ns d _ _ hr)
    simp only [build, Tree.height]
    omega

theorem build_rest_length (ns : Nat) : ∀ (d n : Nat) (rest : List Char),
    (build ns d n rest).2.2.length = rest.length - 2 ^ d * ns
  | 0, n, rest => by
    unfold build
    split_ifs with h
    · simp [h]
    · simp
  | d + 1, n, rest => by
    have h1 := build_rest_length ns d (n + 1) rest
    have h2 := build_rest_length ns d (build ns d (n + 1) rest).2.1 (build ns d (n + 1) rest).2.2
    simp only [build]
    rw [h2, h1, pow_succ]
    have : 2 ^ d * 2 * ns = 2 ^ d * ns + 2 ^ d * ns := by ring
    omega

theorem ceilLog2From_eq (n : Nat) : ∀ (f k : Nat), k ≤ Nat.clog 2 n → Nat.clog 2 n ≤ k + f →
    ceilLog2From f n k = Nat.clog 2 n
  | 0, k, h1, h2 => by
    simp only [ceilLog2From]; omega
  | f + 1, k, h1, h2 => by
    simp only [ceilLog2From]
    split_ifs with h
    · have := (Nat.le_pow_iff_clog_le (by decide : 1 < 2)).1 h
      omega
    · have h3 : ¬ Nat.clog 2 n ≤ k := fun h4 =>
        h ((Nat.le_pow_iff_clog_le (by decide : 1 < 2)).2 h4)
      exact ceilLog2From_eq n f (k + 1) (by omega) (by omega)

theorem ceilLog2_eq (n : Nat) : ceilLog2 n = Nat.clog 2 n := by
  unfold ceilLog2
  apply ceilLog2From_eq n n 0 (Nat.zero_le _)
  rw [Nat.zero_add]
  exact (Nat.le_pow_iff_clog_le (by decide : 1 < 2)).1 (le_of_lt (Nat.lt_two_pow n))

theorem le_pow_ceilLog2 (n : Nat) : n ≤ 2 ^ ceilLog2 n := by
  rw [ceilLog2_eq]
  exact (Nat.le_pow_iff_clog_le (by decide : 1 < 2)).2 (le_refl _)

theorem ceilDiv_toNat (a b : Nat) (hb : 0 < b) :
    (ceilDiv (a : Int) (b : Int)).toNat = (a + b - 1) / b := by
  unfold ceilDiv
  have : ((a : Int) + (b : Int) - 1) = ((a + b - 1 : Nat) : Int) := by omega
  rw [this, ← Int.natCast_div, Int.toNat_natCast]

theorem le_ceil_mul (a b : Nat) (hb : 0 < b) : a ≤ (a + b - 1) / b * b := by
  have := Nat.lt_div_mul_add hb (a := a + b - 1)
  omega

/-- The leaf level of `rebuild` has room for all the characters. -/
theorem rebuild_room (a b : Nat) (hb : 0 < b) :
    a ≤ 2 ^ ceilLog2 ((a + b - 1) / b) * b :=
  le_trans (le_ceil_mul a b hb) (Nat.mul_le_mul_right _ (le_pow_ceilLog2 _))

/-! ## `rebuildNodes` and `rebuild` -/

/-- A freshly built tree is linked under its parent. -/
theorem Rep.adopt {s : State} {t : Tree} (N : Nat) (hr : Rep s.heap t none)
    (hnd : t.addrs.Nodup) :
    ∃ s2, (t.root ≠ none → setParent t.root (some N) s = Res.ret () s2)
      ∧ (t.root = none → s2 = s)
      ∧ Rep s2.heap t (some N)
      ∧ s2.next = s.next ∧ s2.currentError = s.currentError ∧ s2.oom = s.oom
      ∧ (∀ x, t.root ≠ some x → s2.heap x = s.heap x) := by
  cases t with
  | nil => exact ⟨s, by simp, fun _ => rfl, trivial, rfl, rfl, rfl, fun _ _ => rfl⟩
  | nd a d len l r =>
    refine ⟨s.put a ⟨some d, len, l.root, r.root, some N⟩, ?_, by simp, ?_, rfl, rfl, rfl, ?_⟩
    · intro _
      simp [setParent, modify, hr.1]
    · refine Rep.reparent hr (by simp) ?_
      intro x hx
      have : x ≠ a := by
        rintro rfl
        rcases List.mem_append.1 hx with h | h
        · exact Tree.nodup_root_left hnd h
        · exact Tree.nodup_root_right hnd h
      simp [this]
    · intro x hx
      have : x ≠ a := fun h => hx (by simp [h])
      simp [this]

theorem adopt_step {β : Type} (t : Tree) (N : Nat) (s sC : State)
    (had : t.root ≠ none → setParent t.root (some N) s = Res.ret () sC)
    (hnil : t.root = none → sC = s) (k : M β) :
    (if t = Tree.nil then (pure PUnit.unit >>= fun _ => k)
      else (setParent t.root (some N) >>= fun _ => k)) s = k sC := by
  by_cases h : t = Tree.nil
  · have e := hnil (by simp [h])
    subst e
    simp [h]
  · simp [h, had (by simpa using h)]

theorem rebuildNodes_spec (fc : Nat) (rope : Nat) (l : Tree) (ns : Nat) (hns : 0 < ns)
    (levels : Int) (hfc : l.height + 2 ≤ fc) :
    ∀ (d : Nat) (s : State) (fuel : Nat) (cur : Int) (rest : List Char),
      levels - cur = (d : Int) → IsRope s rope l → s.currentError = ErrorCodes.OK → s.oom = [] →
      (∃ k, rest = l.content.drop k) → d + 1 ≤ fuel →
      ∃ s2, rebuildNodes fc (some rope) (ns : Int) levels fuel cur (rest.length : Int) s
          = Res.ret ((build ns d s.next rest).1.root, ((build ns d s.next rest).2.2.length : Int)) s2
        ∧ Rep s2.heap (build ns d s.next rest).1 none
        ∧ s2.next = (build ns d s.next rest).2.1
        ∧ s2.currentError = ErrorCodes.OK ∧ s2.oom = []
        ∧ (∀ x, x < s.next → s2.heap x = s.heap x) := by
  intro d
  induction d with
  | zero =>
    intro s fuel cur rest hlev hr he ho hsuf hf
    obtain ⟨fuel, rfl⟩ : ∃ f, fuel = f + 1 := ⟨fuel - 1, by omega⟩
    have hc : ¬ cur < levels := by omega
    rw [rebuildNodes]
    by_cases hrest : rest = []
    · subst hrest
      refine ⟨s, ?_, ?_, ?_, he, ho, fun _ _ => rfl⟩
      · simp [hc, build]
      · simp [build, Rep]
      · simp [build]
    · have hpos : 0 < rest.length := List.length_pos.2 hrest
      obtain ⟨d0, hroot⟩ := hr.rootRec
      obtain ⟨k, hk⟩ := hsuf
      have hklen : rest.length = l.content.length - k := by rw [hk]; simp
      have hkle : k ≤ l.content.length := by omega
      obtain ⟨m, hm⟩ : ∃ m, m = min ns rest.length := ⟨_, rfl⟩
      have hm1 : m ≤ rest.length := by omega
      have hm2 : 0 < m := by omega
      have hmin : myMin (ns : Int) (rest.length : Int) = (m : Int) := by
        unfold myMin
        split_ifs <;> omega
      obtain ⟨s1, hs1⟩ : ∃ s1, s1 = s.bump.put s.next ⟨none, 0, none, none, none⟩ := ⟨_, rfl⟩
      have hs1n : s1.next = s.next + 1 := by rw [hs1]; simp
      have hs1o : s1.oom = [] := by rw [hs1]; simpa using ho
      have hs1e : s1.currentError = ErrorCodes.OK := by rw [hs1]; simpa using he
      have hs1A : s1.heap s.next = some ⟨none, 0, none, none, none⟩ := by rw [hs1]; simp
      have hs1old : ∀ x, x < s.next → s1.heap x = s.heap x := by
        intro x hx; rw [hs1]; simp [show ¬ x = s.next by omega]
      have hr1 : IsRope s1 rope l :=
        hr.carry (fun x hx => hs1old x (hr.bound x hx)) (by omega)
      have hinit : initNode (m : Int) s = Res.ret (some s.next) s1 := by
        rw [initNode_ok s ho _ (by omega), hs1]
        simp [show ¬ m = 0 by omega]
      have hroot1 : s1.heap rope = some ⟨some d0, (l.content.length : Int), l.root, none, none⟩ := by
        rw [hs1old rope (hr.bound rope (List.mem_cons_self _ _)), hroot]
      have hcol := collect_spec s1 rope l ((l.content.length : Int) - (rest.length : Int) + 1)
        ((l.content.length : Int) - (rest.length : Int) + 1 + (m : Int) - 1)
        fc hr1 hs1e hs1o (by omega) (by omega) (by omega) hfc
      have hchunk : (l.content.drop ((l.content.length : Int) - (rest.length : Int) + 1 - 1).toNat).take
          ((l.content.length : Int) - (rest.length : Int) + 1 + (m : Int) - 1
            - ((l.content.length : Int) - (rest.length : Int) + 1) + 1).toNat = rest.take ns := by
        have e1 : ((l.content.length : Int) - (rest.length : Int) + 1 - 1).toNat = k := by omega
        have e2 : ((l.content.length : Int) - (rest.length : Int) + 1 + (m : Int) - 1
            - ((l.content.length : Int) - (rest.length : Int) + 1) + 1).toNat = m := by omega
        rw [e1, e2, ← hk, hm]
        rcases le_total ns rest.length with h | h
        · rw [min_eq_left h]
        · rw [min_eq_right h, List.take_length, List.take_of_length_le h]
      rw [hchunk] at hcol
      refine ⟨s1.put s.next ⟨some (rest.take ns), 0, none, none, none⟩, ?_, ?_, ?_, ?_, ?_, ?_⟩
      · simp [hc, hpos, hmin, hinit, getError, hs1e, load_ok hroot1, hcol, cstr, setData,
          modify_ok _ hs1A, build, hrest]
        omega
      · simp [build, hrest, Rep]
      · simp [build, hrest, hs1n]
      · simpa using hs1e
      · simpa using hs1o
      · intro x hx
        simp [show ¬ x = s.next by omega, hs1old x hx]
  | succ d ih =>
    intro s fuel cur rest hlev hr he ho hsuf hf
    obtain ⟨fuel, rfl⟩ : ∃ f, fuel = f + 1 := ⟨fuel - 1, by omega⟩
    have hc : cur < levels := by omega
    have hropelt : ∀ x ∈ rope :: l.addrs, x < s.next := hr.bound
    obtain ⟨TL, n1, rest1, hb1⟩ : ∃ TL n1 rest1, build ns d (s.next + 1) rest = (TL, n1, rest1) :=
      ⟨_, _, _, rfl⟩
    obtain ⟨TR, n2, rest2, hb2⟩ : ∃ TR n2 rest2, build ns d n1 rest1 = (TR, n2, rest2) :=
      ⟨_, _, _, rfl⟩
    have hTLa := build_addrs ns d (s.next + 1) rest
    have hTLnd := build_nodup ns d (s.next + 1) rest
    have hTLc := build_content ns d (s.next + 1) rest
    have hn1 := build_next_le ns d (s.next + 1) rest
    have hTRa := build_addrs ns d n1 rest1
    have hTRnd := build_nodup ns d n1 rest1
    have hn2 := build_next_le ns d n1 rest1
    rw [hb1] at hTLa hTLnd hTLc hn1
    rw [hb2] at hTRa hTRnd hn2
    simp only at hTLa hTLnd hTLc hn1 hTRa hTRnd hn2
    -- the record of this level
    obtain ⟨s1, hs1⟩ : ∃ s1, s1 = s.bump.put s.next ⟨some [], 0, none, none, none⟩ := ⟨_, rfl⟩
    have hs1n : s1.next = s.next + 1 := by rw [hs1]; simp
    have hs1o : s1.oom = [] := by rw [hs1]; simpa using ho
    have hs1e : s1.currentError = ErrorCodes.OK := by rw [hs1]; simpa using he
    have hs1A : s1.heap s.next = some ⟨some [], 0, none, none, none⟩ := by rw [hs1]; simp
    have hs1old : ∀ x, x < s.next → s1.heap x = s.heap x := by
      intro x hx; rw [hs1]; simp [show ¬ x = s.next by omega]
    have hr1 : IsRope s1 rope l :=
      hr.carry (fun x hx => hs1old x (hr.bound x hx)) (by omega)
    have hinit : initNode 0 s = Res.ret (some s.next) s1 := by
      rw [initNode_ok s ho 0 (le_refl _), hs1]; simp
    -- the left subtree
    obtain ⟨sA, hrunA, hrepA, hsAn, hsAe, hsAo, hsAf⟩ :=
      ih s1 fuel (cur + 1) rest (by omega) hr1 hs1e hs1o hsuf (by omega)
    rw [hs1n, hb1] at hrunA hrepA hsAn
    simp only at hrunA hrepA hsAn
    rw [hs1n] at hsAf
    have hsAN : sA.heap s.next = some ⟨some [], 0, none, none, none⟩ := by
      rw [hsAf _ (by omega), hs1A]
    obtain ⟨sB, hsB⟩ : ∃ sB, sB = sA.put s.next ⟨some [], 0, TL.root, none, none⟩ := ⟨_, rfl⟩
    have hNL : s.next ∉ TL.addrs := fun h => by have := hTLa _ h; omega
    have hrepB : Rep sB.heap TL none := by
      refine Rep.frame hrepA (fun x hx => ?_)
      have : x ≠ s.next := fun h => hNL (h ▸ hx)
      rw [hsB]; simp [this]
    obtain ⟨sC, hadC, hnilC, hrepC, hsCn, hsCe, hsCo, hsCf⟩ := Rep.adopt s.next hrepB hTLnd
    have hsCN : sC.heap s.next = some ⟨some [], 0, TL.root, none, none⟩ := by
      rw [hsCf _ (fun h => hNL (Tree.root_mem_addrs h)), hsB]; simp
    obtain ⟨sD, hsD⟩ : ∃ sD, sD = sC.put s.next
        ⟨some [], (rest.length : Int) - (rest1.length : Int), TL.root, none, none⟩ := ⟨_, rfl⟩
    have hsDn : sD.next = n1 := by rw [hsD, put_next, hsCn, hsB, put_next, hsAn]
    have hsDe : sD.currentError = ErrorCodes.OK := by
      rw [hsD, put_err, hsCe, hsB, put_err, hsAe]
    have hsDo : sD.oom = [] := by rw [hsD, put_oom, hsCo, hsB, put_oom, hsAo]
    have hsDold : ∀ x, x < s.next → sD.heap x = s.heap x := by
      intro x hx
      have h1 : x ≠ s.next := by omega
      have h2 : TL.root ≠ some x := fun h => by
        have := hTLa _ (Tree.root_mem_addrs h); omega
      rw [hsD, put_heap, if_neg h1, hsCf x h2, hsB, put_heap, if_neg h1, hsAf x (by omega),
        hs1old x hx]
    have hrD : IsRope sD rope l :=
      hr.carry (fun x hx => hsDold x (hr.bound x hx)) (by omega)
    have hsuf1 : ∃ k, rest1 = l.content.drop k := by
      obtain ⟨k, hk⟩ := hsuf
      refine ⟨k + TL.content.length, ?_⟩
      rw [← List.drop_drop, ← hk]
      conv_rhs => rw [← hTLc]
      simp
    -- the right subtree
    obtain ⟨sE, hrunE, hrepE, hsEn, hsEe, hsEo, hsEf⟩ :=
      ih sD fuel (cur + 1) rest1 (by omega) hrD hsDe hsDo hsuf1 (by omega)
    rw [hsDn, hb2] at hrunE hrepE hsEn
    simp only at hrunE hrepE hsEn
    rw [hsDn] at hsEf
    have hsDN : sD.heap s.next = some
        ⟨some [], (rest.length : Int) - (rest1.length : Int), TL.root, none, none⟩ := by
      rw [hsD]; simp
    have hsEN : sE.heap s.next = some
        ⟨some [], (rest.length : Int) - (rest1.length : Int), TL.root, none, none⟩ := by
      rw [hsEf _ (by omega), hsDN]
    obtain ⟨sF, hsF⟩ : ∃ sF, sF = sE.put s.next
        ⟨some [], (rest.length : Int) - (rest1.length : Int), TL.root, TR.root, none⟩ := ⟨_, rfl⟩
    have hNR : s.next ∉ TR.addrs := fun h => by have := hTRa _ h; omega
    have hrepF : Rep sF.heap TR none := by
      refine Rep.frame hrepE (fun x hx => ?_)
      have : x ≠ s.next := fun h => hNR (h ▸ hx)
      rw [hsF]; simp [this]
    obtain ⟨sG, hadG, hnilG, hrepG, hsGn, hsGe, hsGo, hsGf⟩ := Rep.adopt s.next hrepF hTRnd
    refine ⟨sG, ?_, ?_, ?_, ?_, ?_, ?_⟩
    · rw [rebuildNodes]
      simp only [build, hb1, hb2]
      simp [hc, hinit, getError, hs1e, hrunA, setLeft, setLeftLen, setRight, modify_ok _ hsAN,
          ← hsB]
      rw [adopt_step TL s.next sB sC hadC hnilC]
      simp [modify_ok _ hsCN, ← hsD, hrunE, modify_ok _ hsEN, ← hsF]
      rw [adopt_step TR s.next sF sG hadG hnilG]
      rfl
    · simp only [build, hb1, hb2]
      refine ⟨?_, ?_, ?_⟩
      · rw [hsGf _ (fun h => hNR (Tree.root_mem_addrs h)), hsF]; simp
      · refine Rep.frame hrepC (fun x hx => ?_)
        have h1 := hTLa x hx
        have h2 : x ≠ s.next := by omega
        have h3 : TR.root ≠ some x := fun h => by
          have := hTRa _ (Tree.root_mem_addrs h); omega
        rw [hsGf x h3, hsF, put_heap, if_neg h2, hsEf x h1.2, hsD, put_heap, if_neg h2]
      · exact hrepG
    · simp only [build, hb1, hb2]
      rw [hsGn, hsF, put_next, hsEn]
    · rw [hsGe, hsF, put_err, hsEe]
    · rw [hsGo, hsF, put_oom, hsEo]
    · intro x hx
      have h2 : x ≠ s.next := by omega
      have h3 : TR.root ≠ some x := fun h => by
        have := hTRa _ (Tree.root_mem_addrs h); omega
      rw [hsGf x h3, hsF, put_heap, if_neg h2, hsEf x (by omega), hsDold x hx]

theorem build_all (ns : Nat) (hns : 0 < ns) (n : Nat) (rest : List Char) :
    (build ns (ceilLog2 ((rest.length + ns - 1) / ns)) n rest).1.content = rest := by
  have h1 := build_content ns (ceilLog2 ((rest.length + ns - 1) / ns)) n rest
  have h2 := build_rest_length ns (ceilLog2 ((rest.length + ns - 1) / ns)) n rest
  have h3 := rebuild_room rest.length ns hns
  have h4 : (build ns (ceilLog2 ((rest.length + ns - 1) / ns)) n rest).2.2 = [] :=
    List.length_eq_zero.1 (by omega)
  rw [h4, List.append_nil] at h1
  exact h1

theorem rebuild_spec (s : State) (rope : Nat) (l : Tree) (ns : Nat) (fuel : Nat)
    (hr : IsRope s rope l) (he : s.currentError = ErrorCodes.OK) (ho : s.oom = [])
    (hns : 0 < ns) (hl : l.content ≠ []) (hf : l.height + 2 ≤ fuel)
    (hf2 : ceilLog2 ((l.content.length + ns - 1) / ns) + 1 ≤ fuel) :
    ∃ s2, rebuild fuel (some rope) (ns : Int) s = Res.ret (some s.next) s2
      ∧ IsRope s2 s.next (build ns (ceilLog2 ((l.content.length + ns - 1) / ns)) (s.next + 1)
          l.content).1
      ∧ IsRope s2 rope l
      ∧ s2.currentError = ErrorCodes.OK ∧ s2.oom = []
      ∧ (∀ x, x < s.next → s2.heap x = s.heap x) := by
  obtain ⟨d0, hroot⟩ := hr.rootRec
  have hpos : 0 < l.content.length := List.length_pos.2 hl
  obtain ⟨lev, hlev⟩ : ∃ lev, lev = ceilLog2 ((l.content.length + ns - 1) / ns) := ⟨_, rfl⟩
  rw [← hlev] at hf2 ⊢
  have hall := build_all ns hns (s.next + 1) l.content
  rw [← hlev] at hall
  obtain ⟨T, n1, rest1, hb1⟩ : ∃ T n1 rest1, build ns lev (s.next + 1) l.content = (T, n1, rest1) :=
    ⟨_, _, _, rfl⟩
  have hTa := build_addrs ns lev (s.next + 1) l.content
  have hTnd := build_nodup ns lev (s.next + 1) l.content
  have hTwf := build_wf ns lev (s.next + 1) l.content
  have hTne := build_ne_nil ns lev (s.next + 1) l.content hl
  have hn1 := build_next_le ns lev (s.next + 1) l.content
  rw [hb1] at hTa hTnd hTwf hTne hn1 hall ⊢
  simp only at hTa hTnd hTwf hTne hn1 hall ⊢
  obtain ⟨s1, hs1⟩ : ∃ s1, s1 = s.bump.put s.next ⟨some [], 0, none, none, none⟩ := ⟨_, rfl⟩
  have hs1A : s1.heap s.next = some ⟨some [], 0, none, none, none⟩ := by rw [hs1]; simp
  have hinit : initNode 0 s = Res.ret (some s.next) s1 := by
    rw [initNode_ok s ho 0 (le_refl _), hs1]; simp
  have hs1e : s1.currentError = ErrorCodes.OK := by rw [hs1]; simpa using he
  obtain ⟨s2, hs2⟩ : ∃ s2, s2 = s1.put s.next
      ⟨some [], (l.content.length : Int), none, none, none⟩ := ⟨_, rfl⟩
  have hs2n : s2.next = s.next + 1 := by rw [hs2, hs1]; simp
  have hs2o : s2.oom = [] := by rw [hs2, hs1]; simpa using ho
  have hs2e : s2.currentError = ErrorCodes.OK := by rw [hs2, hs1]; simpa using he
  have hs2A : s2.heap s.next = some ⟨some [], (l.content.length : Int), none, none, none⟩ := by
    rw [hs2]; simp
  have hs2old : ∀ x, x < s.next → s2.heap x = s.heap x := by
    intro x hx; rw [hs2, hs1]; simp [show ¬ x = s.next by omega]
  have hr2 : IsRope s2 rope l :=
    hr.carry (fun x hx => hs2old x (hr.bound x hx)) (by omega)
  obtain ⟨sA, hrunA, hrepA, hsAn, hsAe, hsAo, hsAf⟩ :=
    rebuildNodes_spec fuel rope l ns hns (lev : Int) hf lev s2 fuel 0 l.content (by omega) hr2
      hs2e hs2o ⟨0, rfl⟩ hf2
  rw [hs2n, hb1] at hrunA hrepA hsAn
  simp only at hrunA hrepA hsAn
  rw [hs2n] at hsAf
  have hsAN : sA.heap s.next = some ⟨some [], (l.content.length : Int), none, none, none⟩ := by
    rw [hsAf _ (by omega), hs2A]
  obtain ⟨sB, hsB⟩ : ∃ sB, sB = sA.put s.next
      ⟨some [], (l.content.length : Int), T.root, none, none⟩ := ⟨_, rfl⟩
  have hNT : s.next ∉ T.addrs := fun h => by have := hTa _ h; omega
  have hrepB : Rep sB.heap T none := by
    refine Rep.frame hrepA (fun x hx => ?_)
    have : x ≠ s.next := fun h => hNT (h ▸ hx)
    rw [hsB]; simp [this]
  obtain ⟨sC, hadC, -, hrepC, hsCn, hsCe, hsCo, hsCf⟩ := Rep.adopt s.next hrepB hTnd
  have hrootne : T.root ≠ none := by simpa using hTne
  have hsCN : sC.heap s.next = some ⟨some [], (l.content.length : Int), T.root, none, none⟩ := by
    rw [hsCf _ (fun h => hNT (Tree.root_mem_addrs h)), hsB]; simp
  have hsCold : ∀ x, x < s.next → sC.heap x = s.heap x := by
    intro x hx
    have h1 : x ≠ s.next := by omega
    have h2 : T.root ≠ some x := fun h => by
      have := hTa _ (Tree.root_mem_addrs h); omega
    rw [hsCf x h2, hsB, put_heap, if_neg h1, hsAf x (by omega), hs2old x hx]
  have hsCnext : sC.next = n1 := by rw [hsCn, hsB, put_next, hsAn]
  have hleaves : (ceilDiv (l.content.length : Int) (ns : Int)).toNat
      = (l.content.length + ns - 1) / ns := ceilDiv_toNat _ _ hns
  refine ⟨sC, ?_, ?_, ?_, ?_, ?_, hsCold⟩
  · have c1 : ¬ ((l.content.length : Int) < 0 ∨ (ns : Int) ≤ 0) := by omega
    have c2 : (l.content.length : Int) > 0 := by omega
    have c3 : ¬ ((l.content.length : Int) < 0 ∨ ns = 0) := by omega
    simp only [rebuild]
    simp [load_ok hroot, c1, c2, c3, hleaves, ← hlev, hinit, getError, hs1e, setLeftLen, setLeft,
      modify_ok _ hs1A, ← hs2, hrunA, modify_ok _ hsAN, ← hsB, hadC hrootne]
  · refine ⟨⟨[], by rw [hsCN, hall]⟩, hrepC, ?_, ?_, hTwf⟩
    · exact List.nodup_cons.2 ⟨hNT, hTnd⟩
    · intro x hx
      rcases List.mem_cons.1 hx with rfl | hx
      · omega
      · have := hTa x hx; omega
  · exact hr.carry (fun x hx => hsCold x (hr.bound x hx)) (by omega)
  · rw [hsCe, hsB, put_err, hsAe]
  · rw [hsCo, hsB, put_oom, hsAo]

/-! ## The whole rope as a tree, and the example ropes -/

/-- The record of the root together with the tree under it. -/
theorem IsRope.whole {s : State} {rope : Nat} {l : Tree} (hr : IsRope s rope l) (hln : l ≠ Tree.nil) :
    ∃ d0, Rep s.heap (Tree.nd rope d0 (l.content.length : Int) l Tree.nil) none
      ∧ (Tree.nd rope d0 (l.content.length : Int) l Tree.nil).content = l.content
      ∧ (Tree.nd rope d0 (l.content.length : Int) l Tree.nil).wf
      ∧ (Tree.nd rope d0 (l.content.length : Int) l Tree.nil).addrs.Nodup
      ∧ (Tree.nd rope d0 (l.content.length : Int) l Tree.nil).height = l.height + 1 := by
  obtain ⟨d0, hroot⟩ := hr.rootRec
  refine ⟨d0, ⟨by simpa using hroot, hr.rep, trivial⟩, by simp [Tree.content, hln],
    ⟨hr.wf, trivial, fun _ => rfl⟩, by simpa [Tree.addrs] using hr.nodup, by simp [Tree.height]⟩

theorem IsRope.ne_nil {s : State} {rope : Nat} {l : Tree} (_hr : IsRope s rope l)
    (hl : l.content ≠ []) : l ≠ Tree.nil := by
  rintro rfl
  exact hl Tree.content_nil

theorem IsRope.rootLen {s : State} {rope : Nat} {l : Tree} (hr : IsRope s rope l) (n : Int)
    (hn : (l.content.length : Int) = n) :
    ∃ d, s.heap rope = some ⟨some d, n, l.root, none, none⟩ := by
  obtain ⟨d, hd⟩ := hr.rootRec
  exact ⟨d, by rw [hd, hn]⟩

theorem kthChar_rope (s : State) (rope : Nat) (l : Tree) (k : Int) (fuel : Nat)
    (hr : IsRope s rope l) (h0 : 0 ≤ k) (hk : k < (l.content.length : Int))
    (hf : l.height + 2 ≤ fuel) :
    kthChar fuel (some rope) k s = Res.ret (l.content.getD k.toNat (Char.ofNat 0)) s := by
  have hln : l ≠ Tree.nil := by
    rintro rfl; simp at hk; omega
  obtain ⟨d0, hrep0, hcont0, hwf0, -, hh0⟩ := hr.whole hln
  obtain ⟨t0, ht0⟩ : ∃ t0, t0 = Tree.nd rope d0 (l.content.length : Int) l Tree.nil := ⟨_, rfl⟩
  rw [← ht0] at hrep0 hcont0 hwf0 hh0
  have ht0n : t0 ≠ Tree.nil := by simp [ht0]
  have hroot0 : t0.root = some rope := by rw [ht0]; rfl
  have hk0 : k < (t0.content.length : Int) := by rw [hcont0]; exact hk
  have hdepth := Tree.depthAt_le_height t0 k
  obtain ⟨f1, hf1⟩ : ∃ f1, fuel = f1 + t0.depthAt k + 1 := ⟨fuel - t0.depthAt k - 1, by omega⟩
  have hrun := kthChar_spec t0 s f1 k none ht0n hrep0 hwf0 h0 hk0
  rw [← hf1, hroot0] at hrun
  rw [hrun]
  obtain ⟨hq0, hq1⟩ := Tree.leafPos_bounds t0 k ht0n hwf0 h0 hk0
  have hdrop := Tree.content_drop_after t0 k ht0n hwf0 h0 hk0
  have h1 : l.content[k.toNat]? = (t0.leafData k)[(t0.leafPos k).toNat]? := by
    have e1 : (t0.content.drop k.toNat)[0]? = l.content[k.toNat]? := by
      rw [List.getElem?_drop, hcont0]; rfl
    rw [← e1, hdrop, List.getElem?_append_left (by rw [List.length_drop]; omega),
      List.getElem?_drop]
    rfl
  rw [List.getD_eq_getElem?_getD, List.getD_eq_getElem?_getD, h1]

theorem exRope : IsRope exState 0 exTree := by
  refine ⟨⟨[], rfl⟩, ?_, by decide, ?_, ?_⟩
  · simp [Rep, exTree, exState, exHeap, Tree.root]
  · intro a ha
    simp [exTree, Tree.addrs] at ha
    rcases ha with rfl | rfl | rfl | rfl <;> decide
  · simp [Tree.wf, exTree, Tree.content]

theorem exTree_content : exTree.content = ['a', 'b', 'c', 'd'] := by decide

theorem exTree_height : exTree.height = 2 := by decide

theorem exTree5_content : exTree5.content = ['a', 'b', 'c', 'd', 'e'] := by decide

theorem exTree5_height : exTree5.height = 1 := by decide

/-! ## The claims about `split`, `insert`, `delete`, `collect` and `kthChar`

Throughout, a well-formed rope is `IsRope s rope l`; the functions are run
with no error pending (`currentError = OK`), with every allocation succeeding
(`oom = []`) and with fuel for the height of the rope. -/

/-- C4: `delete` of the characters `i` to `j` with `1 ≤ i ≤ j ≤ length` from a
well-formed rope returns a rope whose content is the first `i - 1` characters
followed by those after the `j`-th, and whose root has
`leftLen = length - (j - i + 1)`. -/
theorem delete_contents (s : State) (rope : Nat) (l : Tree) (i j : Int) (fuel : Nat)
    (hr : IsRope s rope l) (he : s.currentError = ErrorCodes.OK) (ho : s.oom = [])
    (hi1 : 1 ≤ i) (hij : i ≤ j) (hj : j ≤ (l.content.length : Int))
    (hf : l.height + 2 ≤ fuel) :
    ∃ s2 rv l2, delete fuel (some rope) i j s = Res.ret (some rv) s2 ∧ IsRope s2 rv l2
      ∧ l2.content = l.content.take (i - 1).toNat ++ l.content.drop j.toNat
      ∧ (∃ d, s2.heap rv
          = some ⟨some d, (l.content.length : Int) - (j - i + 1), l2.root, none, none⟩) := by
  obtain ⟨s2, rv, l2, hrun, hr2, hc, -, -, -⟩ := delete_spec s rope l i j fuel hr he ho hi1 hij hj hf
  refine ⟨s2, rv, l2, hrun, hr2, hc, hr2.rootLen _ ?_⟩
  rw [hc]
  simp only [List.length_append, List.length_take, List.length_drop]
  omega

theorem delete_contents_witness :
    ∃ s2 rv l2, delete 4 (some 0) 2 3 exState = Res.ret (some rv) s2 ∧ IsRope s2 rv l2
      ∧ l2.content = exTree.content.take ((2 : Int) - 1).toNat
          ++ exTree.content.drop (3 : Int).toNat
      ∧ (∃ d, s2.heap rv = some ⟨some d,
          (exTree.content.length : Int) - (3 - 2 + 1), l2.root, none, none⟩) :=
  delete_contents exState 0 exTree 2 3 4 exRope rfl rfl (by decide) (by decide) (by decide)
    (by decide)

/-- C5: `collect` of the characters `i` to `j` with `1 ≤ i ≤ j ≤ length` of a
well-formed rope, the size `j - i + 2` of the result buffer fitting an `int`,
returns exactly the characters of the content at the 0-based
indices `i - 1` up to `j - 1`, in order; the returned text has length
`j - i + 1`, and the state is unchanged. -/
theorem collect_substring (s : State) (rope : Nat) (l : Tree) (i j : Int) (fuel : Nat)
    (hr : IsRope s rope l) (he : s.currentError = ErrorCodes.OK) (ho : s.oom = [])
    (hi : 1 ≤ i) (hij : i ≤ j) (hj : j ≤ (l.content.length : Int))
    (hf : l.height + 2 ≤ fuel) (_hfit : j - i + 2 ≤ intMax) :
    collect fuel (some rope) i j s
        = Res.ret (some ((l.content.drop (i - 1).toNat).take (j - i + 1).toNat)) s
      ∧ ((((l.content.drop (i - 1).toNat).take (j - i + 1).toNat).length : Nat) : Int)
        = j - i + 1 := by
  refine ⟨collect_spec s rope l i j fuel hr he ho hi hij hj hf, ?_⟩
  rw [List.length_take, List.length_drop]
  omega

theorem collect_substring_witness :
    collect 4 (some 0) 2 3 exState = Res.ret (some ['b', 'c']) exState
      ∧ (((['b', 'c'] : List Char).length : Nat) : Int) = 3 - 2 + 1 :=
  collect_substring exState 0 exTree 2 3 4 exRope rfl rfl (by decide) (by decide) (by decide)
    (by decide) (by decide)

/-- C9: for `0 ≤ k < length`, `kthChar` on a well-formed rope succeeds and
returns the character at the 0-based index `k` of the content, and
`collect` of the characters `k + 1` to `k + 1` returns the text made of that
one character. -/
theorem kthChar_collect (s : State) (rope : Nat) (l : Tree) (k : Int) (fuel : Nat)
    (hr : IsRope s rope l) (he : s.currentError = ErrorCodes.OK) (ho : s.oom = [])
    (h0 : 0 ≤ k) (hk : k < (l.content.length : Int)) (hf : l.height + 2 ≤ fuel) :
    ∃ c, l.content[k.toNat]? = some c
      ∧ kthChar fuel (some rope) k s = Res.ret c s
      ∧ collect fuel (some rope) (k + 1) (k + 1) s = Res.ret (some [c]) s := by
  have hlt : k.toNat < l.content.length := by omega
  refine ⟨l.content[k.toNat], List.getElem?_eq_getElem hlt, ?_, ?_⟩
  · rw [kthChar_rope s rope l k fuel hr h0 hk hf, List.getD_eq_getElem?_getD,
      List.getElem?_eq_getElem hlt]
    rfl
  · rw [collect_spec s rope l (k + 1) (k + 1) fuel hr he ho (by omega) (le_refl _) (by omega) hf]
    have e1 : (k + 1 - 1).toNat = k.toNat := by omega
    have e2 : (k + 1 - (k + 1) + 1).toNat = 1 := by omega
    rw [e1, e2, List.drop_eq_getElem_cons hlt]
    rfl

theorem kthChar_collect_witness :
    ∃ c, exTree.content[(2 : Int).toNat]? = some c
      ∧ kthChar 4 (some 0) 2 exState = Res.ret c exState
      ∧ collect 4 (some 0) (2 + 1) (2 + 1) exState = Res.ret (some [c]) exState :=
  kthChar_collect exState 0 exTree 2 4 exRope rfl rfl (by decide) (by decide) (by decide)

/-! ## The claims about `concat` after `split`, `delete` after `insert`, and `rebuild` -/

/-- C6: for a well-formed non-empty rope, whose length plus one (the size
of the buffer of `collect`) fits an `int`, and a node size of at least 1,
`rebuild` returns a well-formed rope of the same length (root `leftLen`
included), and `collect` of the characters 1 to `length` gives the same text on
the rebuilt rope as on the original one, before and after the rebuild: the
whole content. -/
theorem rebuild_same_content (s : State) (rope : Nat) (l : Tree) (ns : Nat) (fuel : Nat)
    (hr : IsRope s rope l) (he : s.currentError = ErrorCodes.OK) (ho : s.oom = [])
    (hns : 1 ≤ ns) (hl : l.content ≠ []) (hf : l.height + 2 ≤ fuel)
    (hf2 : ceilLog2 ((l.content.length + ns - 1) / ns) + 3 ≤ fuel)
    (_hfit : (l.content.length : Int) + 1 ≤ intMax) :
    ∃ s2 rv l2, rebuild fuel (some rope) (ns : Int) s = Res.ret (some rv) s2
      ∧ IsRope s2 rv l2 ∧ l2.content.length = l.content.length
      ∧ (∃ d, s2.heap rv = some ⟨some d, (l.content.length : Int), l2.root, none, none⟩)
      ∧ collect fuel (some rv) 1 (l.content.length : Int) s2 = Res.ret (some l.content) s2
      ∧ collect fuel (some rope) 1 (l.content.length : Int) s2 = Res.ret (some l.content) s2
      ∧ collect fuel (some rope) 1 (l.content.length : Int) s = Res.ret (some l.content) s := by
  have hpos : 0 < l.content.length := List.length_pos.2 hl
  obtain ⟨s2, hrun, hr2, hr2o, he2, ho2, -⟩ :=
    rebuild_spec s rope l ns fuel hr he ho hns hl hf (by omega)
  have hall := build_all ns hns (s.next + 1) l.content
  have hheight := build_height ns (ceilLog2 ((l.content.length + ns - 1) / ns)) (s.next + 1)
    l.content hl
  have hwhole : ∀ c : List Char, (c.drop ((1 : Int) - 1).toNat).take
      ((c.length : Int) - 1 + 1).toNat = c := by
    intro c
    have e1 : ((1 : Int) - 1).toNat = 0 := by omega
    have e2 : ((c.length : Int) - 1 + 1).toNat = c.length := by omega
    rw [e1, e2, List.drop_zero, List.take_length]
  have h1 := collect_spec s2 s.next _ 1 (l.content.length : Int) fuel hr2 he2 ho2 (le_refl _)
    (by omega) (by rw [hall]) (by rw [hheight]; omega)
  have h2 := collect_spec s2 rope l 1 (l.content.length : Int) fuel hr2o he2 ho2 (le_refl _)
    (by omega) (le_refl _) hf
  have h3 := collect_spec s rope l 1 (l.content.length : Int) fuel hr he ho (le_refl _)
    (by omega) (le_refl _) hf
  rw [hall] at h1
  rw [hwhole] at h1 h2 h3
  exact ⟨s2, s.next, _, hrun, hr2, by rw [hall], hr2.rootLen _ (by rw [hall]), h1, h2, h3⟩

theorem rebuild_same_content_witness :
    ∃ s2 rv l2, rebuild 6 (some 0) ((3 : Nat) : Int) exState = Res.ret (some rv) s2
      ∧ IsRope s2 rv l2 ∧ l2.content.length = exTree.content.length
      ∧ (∃ d, s2.heap rv = some ⟨some d, (exTree.content.length : Int), l2.root, none, none⟩)
      ∧ collect 6 (some rv) 1 (exTree.content.length : Int) s2
          = Res.ret (some exTree.content) s2
      ∧ collect 6 (some 0) 1 (exTree.content.length : Int) s2 = Res.ret (some exTree.content) s2
      ∧ collect 6 (some 0) 1 (exTree.content.length : Int) exState
          = Res.ret (some exTree.content) exState :=
  rebuild_same_content exState 0 exTree 3 6 exRope rfl rfl (by decide) (by decide) (by decide)
    (by decide) (by decide)

theorem insert_param (s : State) (rope : Nat) (n : node) (i : Int) (t : List Char) (fuel : Nat)
    (hrope : s.heap rope = some n) (hbad : i < 1 ∨ n.leftLen + 1 < i ∨ t = []) :
    insert fuel (some rope) i t s = Res.ret (some rope) (s.withError ErrorCodes.PARAM) := by
  by_cases h1 : i < 1
  · simp [insert, h1, setError]
  · have h2 : n.leftLen + 1 < i ∨ t = [] := by
      rcases hbad with h | h | h
      · exact absurd h h1
      · exact Or.inl h
      · exact Or.inr h
    simp [insert, h1, load_ok hrope, h2, setError]

theorem kthChar_neg (fuel : Nat) (frm : Option Nat) (k : Int) (s : State) (hk : k < 0) :
    kthChar (fuel + 1) frm k s = Res.ret (Char.ofNat 0) (s.withError ErrorCodes.PARAM) := by
  simp [kthChar, hk, setError]

theorem kthChar_beyond : ∀ (t : Tree) (s : State) (fuel : Nat) (k : Int) (par : Option Nat),
    t ≠ Tree.nil → Rep s.heap t par → t.wf → (t.content.length : Int) ≤ k →
    t.height + 1 ≤ fuel →
    kthChar fuel t.root k s = Res.ret (Char.ofNat 0) (s.withError ErrorCodes.PARAM) := by
  intro t
  induction t with
  | nil => intro s fuel k par h; exact absurd rfl h
  | nd a d len l r ihl ihr =>
    intro s fuel k par _ hrep hw hk hf
    obtain ⟨ha, hrl, hrr⟩ := hrep
    obtain ⟨f, rfl⟩ : ∃ f, fuel = f + 1 := ⟨fuel - 1, by omega⟩
    have hk0 : ¬ k < 0 := by omega
    by_cases hleaf : l = Tree.nil ∧ r = Tree.nil
    · simp only [Tree.content, hleaf, and_self, if_true] at hk
      simp [kthChar, hk0, load_ok ha, hleaf, hk, setError]
    · have hcont := @Tree.content_nd_of_not_leaf a d len _ _ hleaf
      rw [hcont, List.length_append] at hk
      have hlen : len = (l.content.length : Int) := hw.2.2 hleaf
      have hnl : ¬ k < len := by rw [hlen]; push_cast at hk; omega
      simp only [Tree.height] at hf
      by_cases hr0 : r = Tree.nil
      · have hln : l ≠ Tree.nil := fun h => hleaf ⟨h, hr0⟩
        have := Tree.height_pos hln
        obtain ⟨f2, rfl⟩ : ∃ f2, f = f2 + 1 := ⟨f - 1, by omega⟩
        rw [kthChar]
        simp [hk0, load_ok ha, hln, hnl, hr0, kthChar, setError]
      · have ih := ihr s f (k - len) (some a) hr0 hrr hw.2.1
          (by rw [hlen]; push_cast at hk; omega) (by omega)
        rw [kthChar]
        simp [hk0, load_ok ha, hleaf, hnl, ih]

/-! ## Records of a tree in two heaps -/

theorem Rep.agree {h h2 : Nat → Option node} :
    ∀ {t : Tree} {par : Option Nat}, Rep h t par → Rep h2 t par → ∀ x ∈ t.addrs, h2 x = h x
  | Tree.nil, _, _, _ => by simp [Tree.addrs]
  | Tree.nd a d len l r, par, h1, h3 => by
    intro x hx
    simp only [Tree.addrs, List.mem_cons, List.mem_append] at hx
    rcases hx with rfl | hx | hx
    · rw [h1.1, h3.1]
    · exact Rep.agree h1.2.1 h3.2.1 x hx
    · exact Rep.agree h1.2.2 h3.2.2 x hx

/-- A tree hung under another parent: every record is the same, but for the
parent pointer of the root. -/
theorem Rep.rehung {h h2 : Nat → Option node} {a : Nat} {d : List Char} {len : Int} {l r : Tree}
    {par par2 : Option Nat} (h1 : Rep h (Tree.nd a d len l r) par)
    (h3 : Rep h2 (Tree.nd a d len l r) par2) :
    (∃ n, h a = some n ∧ h2 a = some { n with parent := par2 })
      ∧ ∀ x ∈ (Tree.nd a d len l r).addrs, x ≠ a → h2 x = h x := by
  refine ⟨⟨_, h1.1, by rw [h3.1]⟩, fun x hx hxa => ?_⟩
  simp only [Tree.addrs, List.mem_cons, List.mem_append] at hx
  rcases hx with rfl | hx | hx
  · exact absurd rfl hxa
  · exact Rep.agree h1.2.1 h3.2.1 x hx
  · exact Rep.agree h1.2.2 h3.2.2 x hx

/-! ## `concat` on arbitrary arguments -/

theorem concat_owned (s : State) (left right : Option Nat) (len : Int)
    (hl : ∀ a, left = some a → ∃ n, s.heap a = some n)
    (hr : ∀ a, right = some a → ∃ n, s.heap a = some n)
    (h : ∃ a n, (left = some a ∨ right = some a) ∧ s.heap a = some n ∧ n.parent ≠ none) :
    concat left right len s = Res.ret none (s.withError ErrorCodes.PARAM) := by
  obtain ⟨c, n, hc, hn, hp⟩ := h
  rcases left with _ | a <;> rcases right with _ | b
  · simp at hc
  · have hcb : b = c := by simpa using hc
    subst hcb
    simp [concat, hasParent, load, hn, hp, setError]
  · have hca : a = c := by simpa using hc
    subst hca
    simp [concat, hasParent, load, hn, hp, setError]
  · obtain ⟨na, hna⟩ := hl a rfl
    obtain ⟨nb, hnb⟩ := hr b rfl
    by_cases hpa : na.parent = none
    · have hcb : b = c := by
        rcases hc with hc | hc
        · have hca : a = c := by simpa using hc
          subst hca
          rw [hna] at hn
          cases hn
          exact absurd hpa hp
        · simpa using hc
      subst hcb
      simp [concat, hasParent, load, hna, hpa, hn, hp, setError]
    · simp [concat, hasParent, load, hna, hpa, setError]

theorem concat_fresh (s : State) (left right : Option Nat) (len : Int)
    (hl : ∀ a, left = some a → a < s.next ∧ ∃ n, s.heap a = some n ∧ n.parent = none)
    (hr : ∀ a, right = some a → a < s.next ∧ ∃ n, s.heap a = some n ∧ n.parent = none)
    (ho : s.oom = []) :
    ∃ s2, concat left right len s = Res.ret (some s.next) s2
      ∧ s2.heap s.next = some ⟨some [], len, left, right, none⟩
      ∧ (∀ a n, (left = some a ∨ right = some a) → s.heap a = some n →
          s2.heap a = some { n with parent := some s.next })
      ∧ (∀ x, x ≠ s.next → left ≠ some x → right ≠ some x → s2.heap x = s.heap x)
      ∧ s2.next = s.next + 1 ∧ s2.currentError = s.currentError ∧ s2.oom = s.oom := by
  have hinit := initNode_ok s ho 0 (le_refl _)
  rcases left with _ | a <;> rcases right with _ | b
  · simp [concat, hasParent, hinit, setLeft, setRight, setLeftLen, modify]
    intro x hx
    simp [hx]
  · obtain ⟨hb, nb, hnb, hpb⟩ := hr b rfl
    have hbn : ¬ b = s.next := by omega
    have hbn2 : ¬ s.next = b := by omega
    simp [concat, hasParent, load, hnb, hpb, hinit, setLeft, setRight, setLeftLen, setParent,
      modify, hbn, hbn2]
    refine ⟨?_, ?_⟩
    · intro x n hx hn
      subst hx
      rw [hnb] at hn
      cases hn
      simp
    · intro x hx hbx
      have : ¬ x = b := fun h => hbx h.symm
      simp [hx, this]
  · obtain ⟨ha, na, hna, hpa⟩ := hl a rfl
    have han : ¬ a = s.next := by omega
    have han2 : ¬ s.next = a := by omega
    simp [concat, hasParent, load, hna, hpa, hinit, setLeft, setRight, setLeftLen, setParent,
      modify, han, han2]
    refine ⟨?_, ?_⟩
    · intro x n hx hn
      subst hx
      rw [hna] at hn
      cases hn
      simp
    · intro x hx hax
      have : ¬ x = a := fun h => hax h.symm
      simp [hx, this]
  · obtain ⟨ha, na, hna, hpa⟩ := hl a rfl
    obtain ⟨hb, nb, hnb, hpb⟩ := hr b rfl
    have han : ¬ a = s.next := by omega
    have hbn : ¬ b = s.next := by omega
    have han2 : ¬ s.next = a := by omega
    have hbn2 : ¬ s.next = b := by omega
    by_cases hab : b = a
    · subst hab
      simp [concat, hasParent, load, hna, hpa, hinit, setLeft, setRight, setLeftLen, setParent,
        modify, han, han2]
      refine ⟨?_, ?_⟩
      · intro x n hx hn
        subst hx
        rw [hna] at hn
        cases hn
        simp
      · intro x hx hbx
        have : ¬ x = b := fun h => hbx h.symm
        simp [hx, this]
    · have hab2 : ¬ a = b := fun h => hab h.symm
      simp [concat, hasParent, load, hna, hpa, hnb, hpb, hinit, setLeft, setRight, setLeftLen,
        setParent, modify, han, hbn, hab, han2, hbn2, hab2]
      refine ⟨?_, ?_⟩
      · intro x n hx hn
        rcases hx with hx | hx
        · subst hx
          rw [hna] at hn
          cases hn
          simp [hab2]
        · subst hx
          rw [hnb] at hn
          cases hn
          simp
      · intro x hx hax hbx
        have h1 : ¬ x = a := fun h => hax h.symm
        have h2 : ¬ x = b := fun h => hbx h.symm
        simp [hx, h1, h2]

/-! ## A failing first allocation -/

theorem initNode_fail (s : State) (d : Int) (rest : List Bool) (ho : s.oom = true :: rest) :
    initNode d s
      = Res.ret none (({ s with oom := rest } : State).withError ErrorCodes.ALLOC) := by
  simp [initNode, malloc, ho, setError]

theorem split_alloc_fail (s : State) (rope : Nat) (n : node) (p : Int) (fuel : Nat)
    (rest : List Bool) (hrope : s.heap rope = some n) (h0 : 0 ≤ p) (hp : p < n.leftLen)
    (ho : s.oom = true :: rest) :
    ∃ s2, split fuel (some rope) p s = Res.ret (some rope) s2
      ∧ s2.heap = s.heap ∧ s2.next = s.next ∧ s2.currentError = ErrorCodes.ALLOC
      ∧ s2.oom = rest := by
  have h1 : ¬ p < 0 := by omega
  have h2 : ¬ n.leftLen ≤ p := by omega
  refine ⟨({ s with oom := rest } : State).withError ErrorCodes.ALLOC, ?_, rfl, rfl, rfl, rfl⟩
  simp [split, h1, h2, load_ok hrope, initNode_fail s 0 rest ho, setError]
  rfl

theorem insert_alloc_fail (s : State) (rope : Nat) (l : Tree) (i : Int) (t : List Char)
    (fuel : Nat) (rest : List Bool) (hr : IsRope s rope l)
    (ho : s.oom = true :: rest) (ht : t ≠ [])
    (hi1 : 1 ≤ i) (hi2 : i ≤ (l.content.length : Int) + 1) (hf : l.height + 2 ≤ fuel) :
    ∃ s2, insert fuel (some rope) i t s = Res.halt s2
      ∧ s2.currentError = ErrorCodes.ALLOC
      ∧ (∀ x ∈ rope :: l.addrs, s2.heap x = none)
      ∧ (∀ x, x ∉ rope :: l.addrs → s2.heap x = s.heap x) := by
  obtain ⟨d0, hroot⟩ := hr.rootRec
  have htl : 0 < t.length := List.length_pos.2 ht
  obtain ⟨s1, hs1⟩ : ∃ s1, s1 = ({ s with oom := rest } : State).withError ErrorCodes.ALLOC :=
    ⟨_, rfl⟩
  have hs1h : s1.heap = s.heap := by rw [hs1]; rfl
  have hs1e : s1.currentError = ErrorCodes.ALLOC := by rw [hs1]; rfl
  have hrep : Rep s1.heap (Tree.nd rope d0 (l.content.length : Int) l Tree.nil) none := by
    rw [hs1h]; exact ⟨by simpa using hroot, hr.rep, trivial⟩
  obtain ⟨s2, hrun, hkeep, hfreed, -, he2, -⟩ := freeAll_spec _ s1 fuel none hrep
    (by simpa [Tree.addrs] using hr.nodup) (by simp [Tree.height]; omega)
  refine ⟨s2, ?_, by rw [he2, hs1e], ?_, ?_⟩
  · have c1 : ¬ i < 1 := by omega
    have c2 : ¬ ((l.content.length : Int) + 1 < i ∨ t = []) := by
      rintro (h | h)
      · omega
      · exact ht h
    simp only [Tree.root_nd] at hrun
    simp [insert, c1, c2, load_ok hroot, initNode_fail s _ rest ho, ← hs1, getError, hs1e,
      errorInInsert, hrun, errorOccurred]
  · intro x hx
    exact hfreed x (by simpa [Tree.addrs] using hx)
  · intro x hx
    rw [hkeep x (by simpa [Tree.addrs] using hx), hs1h]

/-! ## `collect` on a rope whose root overstates the length -/

theorem collect_short (s : State) (rope : Nat) (l : Tree) (N : Int) (d0 : List Char)
    (i j : Int) (fuel : Nat)
    (hroot : s.heap rope = some ⟨some d0, N, l.root, none, none⟩)
    (hrep : Rep s.heap l (some rope)) (hnd : (rope :: l.addrs).Nodup) (hw : l.wf)
    (he : s.currentError = ErrorCodes.OK) (ho : s.oom = [])
    (hi : 1 ≤ i) (hic : i ≤ (l.content.length : Int)) (hcj : (l.content.length : Int) < j)
    (hj : j ≤ N) (hf : l.height + 2 ≤ fuel) :
    collect fuel (some rope) i j s = Res.ret (some (l.content.drop (i - 1).toNat)) s := by
  have hln : l ≠ Tree.nil := by
    rintro rfl; simp at hic; omega
  have hrl : rope ∉ l.addrs := (List.nodup_cons.1 hnd).1
  have hndl : l.addrs.Nodup := (List.nodup_cons.1 hnd).2
  have hk0 : 0 ≤ i - 1 := by omega
  have hk1 : i - 1 < (l.content.length : Int) := by omega
  have hdepth := Tree.depthAt_le_height l (i - 1)
  obtain ⟨f1, rfl⟩ : ∃ f1, fuel = f1 + l.depthAt (i - 1) + 2 :=
    ⟨fuel - l.depthAt (i - 1) - 2, by omega⟩
  obtain ⟨a, hla⟩ : ∃ a, l.root = some a := by
    cases l with
    | nil => exact absurd rfl hln
    | nd a d len l r => exact ⟨a, rfl⟩
  have har : a ≠ rope := fun h => hrl (h ▸ Tree.root_mem_addrs hla)
  obtain ⟨nr, hnr, hnrp⟩ := Rep.root_rec hrep hla
  have hgoto := gotoNode_spec l s f1 (i - 1) (some rope) hln hrep hw hk0 hk1 ho
  obtain ⟨nX, hX, hXd, _, _⟩ := Rep.leaf_rec l (i - 1) (some rope) hrep hln hw hk0 hk1
  obtain ⟨hq0, hq1⟩ := Tree.leafPos_bounds l (i - 1) hln hw hk0 hk1
  have hdrop := Tree.content_drop_after l (i - 1) hln hw hk0 hk1
  have hlen : l.content.length - (i - 1).toNat
      = ((l.leafData (i - 1)).length - (l.leafPos (i - 1)).toNat) + (l.after (i - 1)).length := by
    have := congrArg List.length hdrop
    simpa [List.length_drop] using this
  have hmin : myMin (j - i + 1) (((l.leafData (i - 1)).length : Int) - l.leafPos (i - 1))
      = ((l.leafData (i - 1)).length : Int) - l.leafPos (i - 1) := by
    simp only [myMin]; split_ifs <;> omega
  obtain ⟨cl, hcl⟩ : ∃ cl, cl = j - i + 1
      - (((l.leafData (i - 1)).length : Int) - l.leafPos (i - 1)) := ⟨_, rfl⟩
  have hclpos : ((l.after (i - 1)).length : Int) < cl := by omega
  have hasc := collectAscend_spec (f1 + l.depthAt (i - 1) + 2) (some rope) l s (f1 + 1) (i - 1)
    (some rope) cl
    ((l.leafData (i - 1)).drop (l.leafPos (i - 1)).toNat)
    hln hrep hndl hw hk0 hk1 (fun x hx h => absurd hx (by
      have e : x = rope := by simpa using h
      rw [e]; exact hrl))
    (by omega) (by omega) he
  have hcl2 : 0 < cl - ((l.after (i - 1)).length : Int) := by omega
  have hcl3 : ¬ cl - ((l.after (i - 1)).length : Int) < 0 := by omega
  have hcl4 : ¬ cl - ((l.after (i - 1)).length : Int) = 0 := by omega
  rw [hla] at hroot hgoto
  have hstep : ∀ nn : List Char, collectAscend (f1 + l.depthAt (i - 1) + 2) (some rope)
      (f1 + 1 + 1) (some a) (cl - ((l.after (i - 1)).length : Int)) nn s
      = Res.ret (cl - ((l.after (i - 1)).length : Int), nn) s := by
    intro nn
    rw [collectAscend]
    simp [har, hcl2, load_ok hnr, hnrp, load_ok hroot, inOrderPick, hcl3, hcl4, getError, he,
      collectAscend]
  rw [show f1 + 1 + 1 + l.depthAt (i - 1) = f1 + l.depthAt (i - 1) + 2 by omega, hla,
    min_eq_right (le_of_lt hclpos), hstep] at hasc
  have hgoto0 : gotoNode (f1 + l.depthAt (i - 1) + 2) (some rope) (i - 1) s
      = Res.ret (some ⟨some (l.leafAddr (i - 1)), l.leafPos (i - 1)⟩) s := by
    have c1 : ¬ i - 1 < 0 := by omega
    have c2 : i - 1 < N := by omega
    rw [gotoNode]
    simp [c1, c2, load_ok hroot, hgoto]
  have hc1 : ¬ i < 1 := by omega
  have hc2 : ¬ N < j := by omega
  have hc3 : ¬ j < i := by omega
  simp [collect, hc1, hc2, hc3, load_ok hroot, hgoto0, getError, he, load_ok hX, hXd, cstr,
    malloc_ok s ho, hmin, ← hcl]
  rw [show (i - 1).toNat = i.toNat - 1 by omega] at hdrop
  have ht : (l.after (i - 1)).take cl.toNat = l.after (i - 1) :=
    List.take_of_length_le (by omega)
  have ht2 : ((l.leafData (i - 1)).drop (l.leafPos (i - 1)).toNat).take
      (((l.leafData (i - 1)).length : Int) - l.leafPos (i - 1)).toNat
      = (l.leafData (i - 1)).drop (l.leafPos (i - 1)).toNat :=
    List.take_of_length_le (by rw [List.length_drop]; omega)
  rw [ht2, hasc, hdrop, ht]

/-! ## The claims about the shape of the rebuilt rope, well-formedness after
`insert` and `delete`, rejected arguments, and the ends of the rope -/

/-- C14: for a rope whose root record has `leftLen = length`, `insert` at
`length + 2` of the text `x` and `insert` at 1 of the empty text set
`currentError` to `PARAM` and return the rope as it is; so does `insert` for
any `i < 1`, any `i > length + 1` and any empty text. -/
theorem insert_rejects (s : State) (rope : Nat) (n : node) (fuel : Nat)
    (hrope : s.heap rope = some n) :
    insert fuel (some rope) (n.leftLen + 2) ['x'] s
        = Res.ret (some rope) (s.withError ErrorCodes.PARAM)
      ∧ insert fuel (some rope) 1 [] s = Res.ret (some rope) (s.withError ErrorCodes.PARAM)
      ∧ (∀ (i : Int) (t : List Char), i < 1 ∨ n.leftLen + 1 < i ∨ t = [] →
          insert fuel (some rope) i t s = Res.ret (some rope) (s.withError ErrorCodes.PARAM))
      ∧ (s.withError ErrorCodes.PARAM).heap = s.heap
      ∧ (s.withError ErrorCodes.PARAM).currentError = ErrorCodes.PARAM :=
  ⟨insert_param s rope n _ _ fuel hrope (Or.inr (Or.inl (by omega))),
    insert_param s rope n _ _ fuel hrope (Or.inr (Or.inr rfl)),
    fun i t h => insert_param s rope n i t fuel hrope h, rfl, rfl⟩

theorem insert_rejects_witness :
    insert 4 (some 0) ((4 : Int) + 2) ['x'] exState
        = Res.ret (some 0) (exState.withError ErrorCodes.PARAM)
      ∧ insert 4 (some 0) 1 [] exState = Res.ret (some 0) (exState.withError ErrorCodes.PARAM)
      ∧ (∀ (i : Int) (t : List Char), i < 1 ∨ (4 : Int) + 1 < i ∨ t = [] →
          insert 4 (some 0) i t exState = Res.ret (some 0) (exState.withError ErrorCodes.PARAM))
      ∧ (exState.withError ErrorCodes.PARAM).heap = exState.heap
      ∧ (exState.withError ErrorCodes.PARAM).currentError = ErrorCodes.PARAM :=
  insert_rejects exState 0 ⟨some [], 4, some 1, none, none⟩ 4 rfl

/-- C15: for a well-formed non-empty rope, `delete` of the characters 1 to
`length` succeeds and returns a well-formed rope with no tree under its root:
it holds no characters, its root has `leftLen = 0`, and `isEmpty` returns 1
on it. -/
theorem delete_whole (s : State) (rope : Nat) (l : Tree) (fuel : Nat)
    (hr : IsRope s rope l) (he : s.currentError = ErrorCodes.OK) (ho : s.oom = [])
    (hl : l.content ≠ []) (hf : l.height + 2 ≤ fuel) :
    ∃ s2 rv, delete fuel (some rope) 1 (l.content.length : Int) s = Res.ret (some rv) s2
      ∧ IsRope s2 rv Tree.nil
      ∧ (∃ d, s2.heap rv = some ⟨some d, 0, none, none, none⟩)
      ∧ isEmpty (some rv) s2 = Res.ret 1 s2
      ∧ s2.currentError = ErrorCodes.OK := by
  obtain ⟨s2, hrun, hr2, he2, -⟩ := delete_all s rope l fuel hr he ho hl hf
  obtain ⟨d, hd⟩ := hr2.rootRec
  refine ⟨s2, s.next, hrun, hr2, ⟨d, hd⟩, ?_, he2⟩
  simp [isEmpty, load_ok hd]

theorem delete_whole_witness :
    ∃ s2 rv, delete 4 (some 0) 1 (exTree.content.length : Int) exState = Res.ret (some rv) s2
      ∧ IsRope s2 rv Tree.nil
      ∧ (∃ d, s2.heap rv = some ⟨some d, 0, none, none, none⟩)
      ∧ isEmpty (some rv) s2 = Res.ret 1 s2
      ∧ s2.currentError = ErrorCodes.OK :=
  delete_whole exState 0 exTree 4 exRope rfl rfl (by decide) (by decide)

/-- C16: for a well-formed non-empty rope with tree `l` under its root and a
non-empty text `t`, the new length fitting an `int`, `insert` at 1 and `insert` at `length + 1` return a rope
whose tree is one new inner record over the new leaf `t` and `l` itself: `l` is
the right child for index 1 and the left child for index `length + 1`.  Every
record of `l` is as before, but for the parent pointer of its root. -/
theorem insert_ends (s : State) (rope : Nat) (l : Tree) (t : List Char) (fuel : Nat)
    (hr : IsRope s rope l) (he : s.currentError = ErrorCodes.OK) (ho : s.oom = [])
    (ht : t ≠ []) (hl : l.content ≠ [])
    (_hfit : (l.content.length : Int) + (t.length : Int) ≤ intMax) :
    (∃ s2, insert fuel (some rope) 1 t s = Res.ret (some (s.next + 2)) s2
        ∧ IsRope s2 (s.next + 2)
            (Tree.nd (s.next + 1) [] (t.length : Int) (Tree.nd s.next t 0 Tree.nil Tree.nil) l)
        ∧ (∀ x ∈ l.addrs, l.root ≠ some x → s2.heap x = s.heap x)
        ∧ (∀ a, l.root = some a →
            ∃ n, s.heap a = some n ∧ s2.heap a = some { n with parent := some (s.next + 1) }))
      ∧ (∃ s2, insert fuel (some rope) ((l.content.length : Int) + 1) t s
            = Res.ret (some (s.next + 2)) s2
        ∧ IsRope s2 (s.next + 2)
            (Tree.nd (s.next + 1) [] (l.content.length : Int) l
              (Tree.nd s.next t 0 Tree.nil Tree.nil))
        ∧ (∀ x ∈ l.addrs, l.root ≠ some x → s2.heap x = s.heap x)
        ∧ (∀ a, l.root = some a →
            ∃ n, s.heap a = some n ∧ s2.heap a = some { n with parent := some (s.next + 1) })) := by
  obtain ⟨s2, hrun, hr2, -⟩ := insert_front s rope l t fuel hr he ho ht hl
  obtain ⟨s3, hrun3, hr3, -⟩ := insert_back s rope l t fuel hr he ho ht hl
  have hln := hr.ne_nil hl
  obtain ⟨a, d, len, ll, rr, rfl⟩ : ∃ a d len ll rr, l = Tree.nd a d len ll rr := by
    cases l with
    | nil => exact absurd rfl hln
    | nd a d len ll rr => exact ⟨a, d, len, ll, rr, rfl⟩
  obtain ⟨k1, k2⟩ := Rep.rehung hr.rep hr2.rep.2.2
  obtain ⟨k3, k4⟩ := Rep.rehung hr.rep hr3.rep.2.1
  refine ⟨⟨s2, hrun, hr2, fun x hx hne => k2 x hx (fun h => hne (by simp [h])), ?_⟩,
    ⟨s3, hrun3, hr3, fun x hx hne => k4 x hx (fun h => hne (by simp [h])), ?_⟩⟩
  · intro b hb
    have : a = b := by simpa using hb
    subst this
    exact k1
  · intro b hb
    have : a = b := by simpa using hb
    subst this
    exact k3

theorem insert_ends_witness :
    (∃ s2, insert 4 (some 0) 1 ['x'] exState = Res.ret (some (exState.next + 2)) s2
        ∧ IsRope s2 (exState.next + 2)
            (Tree.nd (exState.next + 1) [] ((['x'] : List Char).length : Int)
              (Tree.nd exState.next ['x'] 0 Tree.nil Tree.nil) exTree)
        ∧ (∀ x ∈ exTree.addrs, exTree.root ≠ some x → s2.heap x = exState.heap x)
        ∧ (∀ a, exTree.root = some a →
            ∃ n, exState.heap a = some n
              ∧ s2.heap a = some { n with parent := some (exState.next + 1) }))
      ∧ (∃ s2, insert 4 (some 0) ((exTree.content.length : Int) + 1) ['x'] exState
            = Res.ret (some (exState.next + 2)) s2
        ∧ IsRope s2 (exState.next + 2)
            (Tree.nd (exState.next + 1) [] (exTree.content.length : Int) exTree
              (Tree.nd exState.next ['x'] 0 Tree.nil Tree.nil))
        ∧ (∀ x ∈ exTree.addrs, exTree.root ≠ some x → s2.heap x = exState.heap x)
        ∧ (∀ a, exTree.root = some a →
            ∃ n, exState.heap a = some n
              ∧ s2.heap a = some { n with parent := some (exState.next + 1) })) :=
  insert_ends exState 0 exTree ['x'] 4 exRope rfl rfl (by decide) (by decide) (by decide)

/-- C17: `concat` on arguments that are absent or allocated records: when a
present argument has a parent it sets `currentError` to `PARAM` and returns
`NULL` with the heap as it was (no record is created); otherwise it returns
one fresh record with the given `left`, `right` and `leftLen`, no parent and
an empty buffer, and the parent pointer of each present argument points to
it, nothing else being changed. -/
theorem concat_contract (s : State) (left right : Option Nat) (len : Int)
    (hl : ∀ a, left = some a → a < s.next ∧ ∃ n, s.heap a = some n)
    (hr : ∀ a, right = some a → a < s.next ∧ ∃ n, s.heap a = some n)
    (ho : s.oom = []) :
    ((∃ a n, (left = some a ∨ right = some a) ∧ s.heap a = some n ∧ n.parent ≠ none) →
        concat left right len s = Res.ret none (s.withError ErrorCodes.PARAM)
          ∧ (s.withError ErrorCodes.PARAM).heap = s.heap
          ∧ (s.withError ErrorCodes.PARAM).next = s.next)
      ∧ ((∀ a n, (left = some a ∨ right = some a) → s.heap a = some n → n.parent = none) →
        ∃ s2, concat left right len s = Res.ret (some s.next) s2
          ∧ s2.heap s.next = some ⟨some [], len, left, right, none⟩
          ∧ (∀ a n, (left = some a ∨ right = some a) → s.heap a = some n →
              s2.heap a = some { n with parent := some s.next })
          ∧ (∀ x, x ≠ s.next → left ≠ some x → right ≠ some x → s2.heap x = s.heap x)
          ∧ s2.next = s.next + 1 ∧ s2.currentError = s.currentError) := by
  refine ⟨fun h => ⟨concat_owned s left right len (fun a ha => (hl a ha).2)
    (fun a ha => (hr a ha).2) h, rfl, rfl⟩, fun h => ?_⟩
  obtain ⟨s2, h1, h2, h3, h4, h5, h6, -⟩ := concat_fresh s left right len
    (fun a ha => by
      obtain ⟨h7, n, hn⟩ := hl a ha
      exact ⟨h7, n, hn, h a n (Or.inl ha) hn⟩)
    (fun a ha => by
      obtain ⟨h7, n, hn⟩ := hr a ha
      exact ⟨h7, n, hn, h a n (Or.inr ha) hn⟩) ho
  exact ⟨s2, h1, h2, h3, h4, h5, h6⟩

theorem concat_contract_witness :
    (concat (some 1) none 2 exState = Res.ret none (exState.withError ErrorCodes.PARAM)
        ∧ (exState.withError ErrorCodes.PARAM).heap = exState.heap
        ∧ (exState.withError ErrorCodes.PARAM).next = exState.next)
      ∧ (∃ s2, concat (some 0) none 4 exState = Res.ret (some exState.next) s2
          ∧ s2.heap exState.next = some ⟨some [], 4, some 0, none, none⟩
          ∧ (∀ a n, (some 0 = some a ∨ (none : Option Nat) = some a) → exState.heap a = some n →
              s2.heap a = some { n with parent := some exState.next })
          ∧ (∀ x, x ≠ exState.next → some 0 ≠ some x → (none : Option Nat) ≠ some x →
              s2.heap x = exState.heap x)
          ∧ s2.next = exState.next + 1 ∧ s2.currentError = exState.currentError) :=
  ⟨(concat_contract exState (some 1) none 2
      (fun a ha => by
        have : a = 1 := by simpa using ha.symm
        subst this
        exact ⟨by decide, _, rfl⟩)
      (fun a ha => by simp at ha) rfl).1
      ⟨1, _, Or.inl rfl, rfl, by simp⟩,
    (concat_contract exState (some 0) none 4
      (fun a ha => by
        have : a = 0 := by simpa using ha.symm
        subst this
        exact ⟨by decide, _, rfl⟩)
      (fun a ha => by simp at ha) rfl).2
      (fun a n ha hn => by
        have : a = 0 := by
          rcases ha with h | h
          · exact (Option.some.inj h).symm
          · simp at h
        subst this
        have e : n = ⟨some [], 4, some 1, none, none⟩ := by
          have h0 : exState.heap 0 = some ⟨some [], 4, some 1, none, none⟩ := rfl
          rw [h0] at hn
          exact (Option.some.inj hn).symm
        rw [e])⟩

/-! ## The scenario of `main`, and the claims about failures -/

theorem exStart_rope : ∃ s0, initNode 0 exStart = Res.ret (some 0) s0 ∧ IsRope s0 0 Tree.nil
    ∧ s0.currentError = ErrorCodes.OK ∧ s0.oom = [] := by
  refine ⟨_, initNode_ok exStart rfl 0 (le_refl _), ⟨⟨[], rfl⟩, trivial, by simp [Tree.addrs], ?_,
    trivial⟩, rfl, rfl⟩
  intro a ha
  simp [Tree.addrs] at ha
  subst ha
  decide

/-- The first three calls of `main` on the rope, with the content after each. -/
theorem scenario_trace :
    ∃ s0 s1 r1 l1 s2 r2 l2 s3 r3 l3,
      initNode 0 exStart = Res.ret (some 0) s0
      ∧ insert 8 (some 0) 1 "Building sturdy".toList s0 = Res.ret (some r1) s1
      ∧ IsRope s1 r1 l1 ∧ l1.content = "Building sturdy".toList
      ∧ insert 8 (some r1) 10 "rope ".toList s1 = Res.ret (some r2) s2
      ∧ IsRope s2 r2 l2 ∧ l2.content = "Building rope sturdy".toList
      ∧ delete 8 (some r2) 3 5 s2 = Res.ret (some r3) s3
      ∧ IsRope s3 r3 l3 ∧ l3.content = "Buing rope sturdy".toList := by
  obtain ⟨s0, hinit, hr0, he0, ho0⟩ := exStart_rope
  obtain ⟨s1, r1, l1, hrun1, hr1, hc1, hh1, he1, ho1⟩ :=
    insert_spec s0 0 Tree.nil 1 "Building sturdy".toList 8 hr0 he0 ho0 (by decide) (by decide)
      (by decide) (by decide)
  have hc1b : l1.content = "Building sturdy".toList := hc1.trans (by decide)
  have hh1b : l1.height ≤ 2 := hh1
  obtain ⟨s2, r2, l2, hrun2, hr2, hc2, hh2, he2, ho2⟩ :=
    insert_spec s1 r1 l1 10 "rope ".toList 8 hr1 he1 ho1 (by decide) (by decide)
      (by rw [hc1b]; decide) (by omega)
  have hc2b : l2.content = "Building rope sturdy".toList := by
    rw [hc2, hc1b]; decide
  obtain ⟨s3, r3, l3, hrun3, hr3, hc3, -, -, -⟩ :=
    delete_spec s2 r2 l2 3 5 8 hr2 he2 ho2 (by decide) (by decide) (by rw [hc2b]; decide)
      (by omega)
  have hc3b : l3.content = "Buing rope sturdy".toList := by
    rw [hc3, hc2b]; decide
  exact ⟨s0, s1, r1, l1, s2, r2, l2, s3, r3, l3, hinit, hrun1, hr1, hc1b, hrun2, hr2, hc2b,
    hrun3, hr3, hc3b⟩

theorem exRopeFail : IsRope exStateFail 0 exTree :=
  exRope.carry (fun _ _ => rfl) (le_refl _)

theorem exRopeGraft : IsRope exStateGraft 0 exTreeGraft := by
  refine ⟨⟨[], rfl⟩, ?_, by decide, ?_, ?_⟩
  · simp [Rep, exTreeGraft, exStateGraft, exHeapGraft, Tree.root]
  · intro a ha
    simp [exTreeGraft, Tree.addrs] at ha
    rcases ha with rfl | rfl | rfl | rfl | rfl | rfl <;> decide
  · simp [Tree.wf, exTreeGraft, Tree.content]

theorem exShort_rep : Rep exStateShort.heap exTreeShort (some 0) := by
  simp [Rep, exTreeShort, exStateShort, exHeapShort]

theorem exLeaf_rep : Rep exState.heap (Tree.nd 2 ['a', 'b'] 0 Tree.nil Tree.nil) (some 1) := by
  simp [Rep, exState, exHeap]

/-- C13, the scenario as written fails: run from the empty rope, the first
`insert` gives `Building sturdy`, of length 15 and not 16, the second gives
`Building rope sturdy`, of length 20 and not 21, and `delete(3, 5)` gives
`Buing rope sturdy`, of length 17, which is not `Bung rope sturdy` and not of
length 18. -/
theorem scenario_counterexample :
    ∃ s0 s1 r1 l1 s2 r2 l2 s3 r3 l3,
      initNode 0 exStart = Res.ret (some 0) s0
      ∧ insert 8 (some 0) 1 "Building sturdy".toList s0 = Res.ret (some r1) s1
      ∧ IsRope s1 r1 l1 ∧ l1.content = "Building sturdy".toList ∧ l1.content.length ≠ 16
      ∧ insert 8 (some r1) 10 "rope ".toList s1 = Res.ret (some r2) s2
      ∧ IsRope s2 r2 l2 ∧ l2.content = "Building rope sturdy".toList
      ∧ l2.content.length ≠ 21
      ∧ delete 8 (some r2) 3 5 s2 = Res.ret (some r3) s3
      ∧ IsRope s3 r3 l3 ∧ l3.content ≠ "Bung rope sturdy".toList ∧ l3.content.length ≠ 18 := by
  obtain ⟨s0, s1, r1, l1, s2, r2, l2, s3, r3, l3, h0, h1, hr1, hc1, h2, hr2, hc2, h3, hr3, hc3⟩ :=
    scenario_trace
  exact ⟨s0, s1, r1, l1, s2, r2, l2, s3, r3, l3, h0, h1, hr1, hc1, by rw [hc1]; decide, h2, hr2,
    hc2, by rw [hc2]; decide, h3, hr3, by rw [hc3]; decide, by rw [hc3]; decide⟩

/-- C13, amended: starting from an empty rope, `insert(1, "Building sturdy")`
yields the content `Building sturdy` with length 15; then
`insert(10, "rope ")` yields `Building rope sturdy` with length 20; then
`delete(3, 5)` yields `Buing rope sturdy` with length 17.  Each rope is
well-formed and its root carries that length. -/
theorem acceptance_scenario :
    ∃ s0 s1 r1 l1 s2 r2 l2 s3 r3 l3,
      initNode 0 exStart = Res.ret (some 0) s0
      ∧ insert 8 (some 0) 1 "Building sturdy".toList s0 = Res.ret (some r1) s1
      ∧ IsRope s1 r1 l1 ∧ l1.content = "Building sturdy".toList
      ∧ (∃ d, s1.heap r1 = some ⟨some d, 15, l1.root, none, none⟩)
      ∧ insert 8 (some r1) 10 "rope ".toList s1 = Res.ret (some r2) s2
      ∧ IsRope s2 r2 l2 ∧ l2.content = "Building rope sturdy".toList
      ∧ (∃ d, s2.heap r2 = some ⟨some d, 20, l2.root, none, none⟩)
      ∧ delete 8 (some r2) 3 5 s2 = Res.ret (some r3) s3
      ∧ IsRope s3 r3 l3 ∧ l3.content = "Buing rope sturdy".toList
      ∧ (∃ d, s3.heap r3 = some ⟨some d, 17, l3.root, none, none⟩) := by
  obtain ⟨s0, s1, r1, l1, s2, r2, l2, s3, r3, l3, h0, h1, hr1, hc1, h2, hr2, hc2, h3, hr3, hc3⟩ :=
    scenario_trace
  exact ⟨s0, s1, r1, l1, s2, r2, l2, s3, r3, l3, h0, h1, hr1, hc1,
    hr1.rootLen 15 (by rw [hc1]; decide), h2, hr2, hc2, hr2.rootLen 20 (by rw [hc2]; decide),
    h3, hr3, hc3, hr3.rootLen 17 (by rw [hc3]; decide)⟩

/-- C18, the claim as written fails: on the rope whose root claims five
characters over the single leaf `ab`, `collect(r, 1, 5)` passes the range
check, reaches the root with three characters missing, and returns the
truncated text `ab` with `currentError` still `OK`, not `INTERNAL`. -/
theorem collect_truncates_counterexample :
    collect 3 (some 0) 1 5 exStateShort = Res.ret (some ['a', 'b']) exStateShort
      ∧ exStateShort.currentError = ErrorCodes.OK
      ∧ exStateShort.currentError ≠ ErrorCodes.INTERNAL :=
  ⟨collect_short exStateShort 0 exTreeShort 5 [] 1 5 3 rfl exShort_rep (by decide)
    (by simp [Tree.wf, exTreeShort]) rfl rfl (by decide) (by decide) (by decide) (by decide) (by decide), rfl, by decide⟩

/-- C18, amended: when `collect(r, i, j)` passes its range check on a rope
whose root `leftLen` overstates the characters under it (the tree under the
root is well-formed, `i` is inside the content and `j` beyond it, the size
`j - i + 2` of the result buffer fitting an `int`), `collect`
returns the truncated result, the characters from `i` to the end, fewer than
`j - i + 1`, and leaves the state as it was, with `currentError = OK`; no
error is signalled. -/
theorem collect_shortfall (s : State) (rope : Nat) (l : Tree) (N : Int) (d0 : List Char)
    (i j : Int) (fuel : Nat)
    (hroot : s.heap rope = some ⟨some d0, N, l.root, none, none⟩)
    (hrep : Rep s.heap l (some rope)) (hnd : (rope :: l.addrs).Nodup) (hw : l.wf)
    (he : s.currentError = ErrorCodes.OK) (ho : s.oom = [])
    (hi : 1 ≤ i) (hic : i ≤ (l.content.length : Int)) (hcj : (l.content.length : Int) < j)
    (hj : j ≤ N) (hf : l.height + 2 ≤ fuel) (_hfit : j - i + 2 ≤ intMax) :
    ∃ s2 c, collect fuel (some rope) i j s = Res.ret (some c) s2
      ∧ c = l.content.drop (i - 1).toNat ∧ (c.length : Int) < j - i + 1
      ∧ s2 = s ∧ s2.currentError = ErrorCodes.OK := by
  refine ⟨s, _, collect_short s rope l N d0 i j fuel hroot hrep hnd hw he ho hi hic hcj hj hf,
    rfl, ?_, rfl, he⟩
  rw [List.length_drop]
  omega

theorem collect_shortfall_witness :
    ∃ s2 c, collect 3 (some 0) 2 4 exStateShort = Res.ret (some c) s2
      ∧ c = exTreeShort.content.drop ((2 : Int) - 1).toNat ∧ (c.length : Int) < 4 - 2 + 1
      ∧ s2 = exStateShort ∧ s2.currentError = ErrorCodes.OK :=
  collect_shortfall exStateShort 0 exTreeShort 5 [] 2 4 3 rfl exShort_rep (by decide)
    (by simp [Tree.wf, exTreeShort]) rfl rfl (by decide) (by decide) (by decide) (by decide)
    (by decide) (by decide)

/-- C19, the code at three failing allocations.  On the well-formed rope
`abc` of `exStateGraft`, `split(r, 0)` whose second spine record cannot be
allocated returns `NULL` with `currentError = ALLOC` after `freeAll(newtree)`
has freed the leaf `c` (address 5) of the original rope, which the record at
address 1 still has as its right child.  On the rope `abcd` with the first
allocation failing, `delete(r, 1, 4)` frees the rope twice in `errorInDelete`
(undefined behaviour), and `insert(r, 2, "x")` frees the rope and ends the
process through `errorOccurred`.  None of them returns the original rope
unmodified. -/
theorem alloc_failure_defects :
    IsRope exStateGraft 0 exTreeGraft
      ∧ (∃ s2, split 5 (some 0) 0 exStateGraft = Res.ret none s2
        ∧ s2.currentError = ErrorCodes.ALLOC ∧ s2.heap 5 = none
        ∧ s2.heap 1 = some ⟨some [], 2, some 2, some 5, some 0⟩)
      ∧ IsRope exStateFail 0 exTree
      ∧ delete 4 (some 0) 1 4 exStateFail = Res.undef
      ∧ (∃ s2, insert 4 (some 0) 2 ['x'] exStateFail = Res.halt s2
        ∧ s2.currentError = ErrorCodes.ALLOC ∧ s2.heap 0 = none) := by
  obtain ⟨s2, h1, h2, h3, -⟩ := insert_alloc_fail exStateFail 0 exTree 2 ['x'] 4 [] exRopeFail rfl
    (by decide) (by decide) (by decide) (by decide)
  exact ⟨exRopeGraft, ⟨_, rfl, rfl, rfl, rfl⟩, exRopeFail, rfl,
    ⟨s2, h1, h2, h3 0 (List.mem_cons_self _ _)⟩⟩

/-- C20, the claim as written fails: on the leaf `ab` (address 2 of the rope
`abcd`), `kthChar` with `k = 2`, the length of the leaf, signals the same
error as with `k = -1`: `PARAM`.  No distinct error kind exists for the index
beyond the leaf. -/
theorem kthChar_index_counterexample :
    kthChar 4 (some 2) 2 exState
        = Res.ret (Char.ofNat 0) (exState.withError ErrorCodes.PARAM)
      ∧ kthChar 4 (some 2) (-1) exState
        = Res.ret (Char.ofNat 0) (exState.withError ErrorCodes.PARAM) :=
  ⟨kthChar_beyond (Tree.nd 2 ['a', 'b'] 0 Tree.nil Tree.nil) exState 4 2 (some 1) (by simp)
    exLeaf_rep (by simp [Tree.wf]) (by decide) (by decide),
    kthChar_neg 3 (some 2) (-1) exState (by decide)⟩

/-- C20, amended: on a well-formed tree, `kthChar` sets `currentError` to
`PARAM` when `k < 0`, and also to `PARAM` (the enum has no other code for it)
when `k` is not below the number of characters, in particular when the tree is
a leaf and `k ≥ length(leaf)`; in both cases the NUL character is returned. -/
theorem kthChar_errors (s : State) (t : Tree) (par : Option Nat) (k : Int) (fuel : Nat)
    (hn : t ≠ Tree.nil) (hrep : Rep s.heap t par) (hw : t.wf) (hf : t.height + 1 ≤ fuel) :
    (k < 0 → kthChar fuel t.root k s
        = Res.ret (Char.ofNat 0) (s.withError ErrorCodes.PARAM))
      ∧ ((t.content.length : Int) ≤ k → kthChar fuel t.root k s
        = Res.ret (Char.ofNat 0) (s.withError ErrorCodes.PARAM)) := by
  refine ⟨fun hk => ?_, fun hk => kthChar_beyond t s fuel k par hn hrep hw hk hf⟩
  obtain ⟨f, rfl⟩ : ∃ f, fuel = f + 1 := ⟨fuel - 1, by omega⟩
  exact kthChar_neg f t.root k s hk

theorem kthChar_errors_witness :
    kthChar 4 (Tree.nd 2 ['a', 'b'] 0 Tree.nil Tree.nil).root (-1) exState
        = Res.ret (Char.ofNat 0) (exState.withError ErrorCodes.PARAM)
      ∧ kthChar 4 (Tree.nd 2 ['a', 'b'] 0 Tree.nil Tree.nil).root 5 exState
        = Res.ret (Char.ofNat 0) (exState.withError ErrorCodes.PARAM) :=
  ⟨(kthChar_errors exState (Tree.nd 2 ['a', 'b'] 0 Tree.nil Tree.nil) (some 1) (-1) 4 (by simp)
      exLeaf_rep (by simp [Tree.wf]) (by decide)).1 (by decide),
    (kthChar_errors exState (Tree.nd 2 ['a', 'b'] 0 Tree.nil Tree.nil) (some 1) 5 4 (by simp)
      exLeaf_rep (by simp [Tree.wf]) (by decide)).2 (by decide)⟩

/-! ## Calls made while an error is pending -/

end MyRope
